import Mathlib

/-!
Verification development for the parallelcoin repository.

This file gives a shallow embedding, in Lean 4, of the parts of the
repository that the frozen claims C1..C10 are about:

* the mempool fee estimator (`pkg/mempool/estimatefee.go`): its state,
  `EstimateFee`, `RegisterBlock`, `Save` and `RestoreFeeEstimator`;
* the wallet address-manager database (`pkg/waddrmgr/db.go`): a bucketed
  key/value model, row (de)serialization, `deletePrivateKeys` and
  `upgradeToVersion5`;
* the SPV header store (`cmd/spv/headerfs`): modelled from the spec, since
  only `store_test.go` is present in the sources;
* the voting-pool key validation (`pkg/votingpool`): modelled from the
  spec, since only `pool_wb_test.go` is present in the sources.

Go byte slices are modelled as `List Nat` (each element a byte value),
Go integers as `Nat`/`Int` with explicit wrapping where it matters, and
Go `float64` fee rates as `ℚ` for the estimation claims and as an opaque
64-bit pattern (`Nat`) for the serialization claims.  Stateful code is
state passing; fallible code returns `Except String`.
-/

namespace Spec2Proof

/-- Go byte slices are lists of byte values. -/
abbrev Bytes := List Nat

/-! ## Big-endian binary encoding (encoding/binary, BigEndian)

`binary.Write(w, binary.BigEndian, x)` writes fixed-width big-endian
bytes; `binary.Read` reads them back.  `beBytes n v` is the `n`-byte
big-endian encoding of `v` (mod `2 ^ (8 n)`, as the machine write
truncates), and `beVal` decodes. -/

/-- Big-endian bytes of a value, least significant byte computed first. -/
def beBytesAux : Nat → Nat → Bytes
  | 0, _ => []
  | n + 1, v => beBytesAux n (v / 256) ++ [v % 256]

/-- The `n`-byte big-endian encoding of `v`. -/
def beBytes (n v : Nat) : Bytes := beBytesAux n v

/-- Decode big-endian bytes to a natural number. -/
def beVal (b : Bytes) : Nat := b.foldl (fun acc d => acc * 256 + d) 0

/-- Go `uint32` written big-endian. -/
def u32be (v : Nat) : Bytes := beBytes 4 v

/-- Go `int32` written big-endian: two's complement of the value. -/
def i32be (v : Int) : Bytes := beBytes 4 (v % (2 ^ 32)).toNat

/-- Decode 4 big-endian bytes as a Go `int32` (two's complement). -/
def i32val (b : Bytes) : Int :=
  let u : Nat := beVal b
  if u < 2 ^ 31 then (u : Int) else (u : Int) - 2 ^ 32

theorem beBytesAux_length (n v : Nat) : (beBytesAux n v).length = n := by
  induction n generalizing v with
  | zero => rfl
  | succ n ih => simp [beBytesAux, ih]

theorem beBytes_length (n v : Nat) : (beBytes n v).length = n :=
  beBytesAux_length n v

theorem beVal_append_single (b : Bytes) (d : Nat) :
    beVal (b ++ [d]) = beVal b * 256 + d := by
  simp [beVal, List.foldl_append]

theorem beVal_beBytesAux (n v : Nat) : beVal (beBytesAux n v) = v % 256 ^ n := by
  induction n generalizing v with
  | zero => simp [beBytesAux, beVal, Nat.mod_one]
  | succ n ih =>
      rw [beBytesAux, beVal_append_single, ih, Nat.pow_succ]
      have hq : v / 256 % 256 ^ n * 256 = v / 256 * 256 % (256 ^ n * 256) :=
        (Nat.mul_mod_mul_right 256 (v / 256) (256 ^ n)).symm
      have hr : v % 256 < 256 ^ n * 256 := by
        have h1 : v % 256 < 256 := Nat.mod_lt _ (by norm_num)
        have h2 : (256 : Nat) ≤ 256 ^ n * 256 :=
          Nat.le_mul_of_pos_left 256 (Nat.pos_pow_of_pos n (by norm_num))
        omega
      have hlt : v / 256 % 256 ^ n * 256 + v % 256 < 256 ^ n * 256 := by
        have h1 : v / 256 % 256 ^ n < 256 ^ n :=
          Nat.mod_lt _ (Nat.pos_pow_of_pos n (by norm_num))
        have h2 : v / 256 % 256 ^ n * 256 ≤ (256 ^ n - 1) * 256 :=
          Nat.mul_le_mul_right 256 (by omega)
        have h3 : v % 256 < 256 := Nat.mod_lt _ (by norm_num)
        have h5 : 1 ≤ 256 ^ n := Nat.pos_pow_of_pos n (by norm_num)
        have key : ∀ A B r : Nat,
            A * 256 ≤ (B - 1) * 256 → r < 256 → 1 ≤ B → A * 256 + r < B * 256 := by
          intro A B r hA hrr hB
          omega
        exact key _ _ _ h2 h3 h5
      calc v / 256 % 256 ^ n * 256 + v % 256
          = (v / 256 % 256 ^ n * 256 + v % 256) % (256 ^ n * 256) :=
            (Nat.mod_eq_of_lt hlt).symm
        _ = (v / 256 * 256 % (256 ^ n * 256) + v % 256 % (256 ^ n * 256)) %
              (256 ^ n * 256) := by
            rw [← hq, Nat.mod_eq_of_lt hr]
        _ = (v / 256 * 256 + v % 256) % (256 ^ n * 256) := (Nat.add_mod _ _ _).symm
        _ = v % (256 ^ n * 256) := by
            have : v / 256 * 256 + v % 256 = v := by
              have := Nat.div_add_mod v 256
              omega
            rw [this]

theorem beVal_beBytes (n v : Nat) : beVal (beBytes n v) = v % 256 ^ n :=
  beVal_beBytesAux n v

theorem beVal_u32be (v : Nat) : beVal (u32be v) = v % 2 ^ 32 := by
  have h : (256 : Nat) ^ 4 = 2 ^ 32 := by norm_num
  rw [u32be, beVal_beBytes, h]

theorem u32be_length (v : Nat) : (u32be v).length = 4 := beBytes_length 4 v

theorem i32be_length (v : Int) : (i32be v).length = 4 := beBytes_length 4 _

/-- Writing a `uint32` value already below `2 ^ 32` round-trips. -/
theorem beVal_u32be_of_lt {v : Nat} (h : v < 2 ^ 32) : beVal (u32be v) = v := by
  rw [beVal_u32be]; exact Nat.mod_eq_of_lt h

/-- Reading back an `int32` in range round-trips. -/
theorem i32val_i32be {v : Int} (h0 : -(2 ^ 31) ≤ v) (h1 : v < 2 ^ 31) :
    i32val (i32be v) = v := by
  rw [i32val, i32be, beBytes, beVal_beBytesAux]
  have h256 : (256 : Nat) ^ 4 = 4294967296 := by norm_num
  rw [h256]
  have hi31 : (2 : Int) ^ 31 = 2147483648 := by norm_num
  have hi32 : (2 : Int) ^ 32 = 4294967296 := by norm_num
  rw [hi31] at h0 h1
  simp only [Nat.reducePow, hi32]
  split <;> omega

/-- Two writes of congruent `int32` values produce the same bytes. -/
theorem i32be_congr {v w : Int} (h : v % 2 ^ 32 = w % 2 ^ 32) :
    i32be v = i32be w := by
  rw [i32be, i32be, h]

/-! ## Sorting

Go's `sort.Sort` is modelled by a structural insertion sort.  On inputs
whose keys are pairwise distinct (the only inputs the theorems use) every
sorting algorithm produces the same list, so this models `sort.Sort`
exactly there. -/

/-- Insert an element in front of the first element it is `le`-below. -/
def insertSorted {α : Type} (le : α → α → Bool) (x : α) : List α → List α
  | [] => [x]
  | y :: ys => if le x y then x :: y :: ys else y :: insertSorted le x ys

/-- Structural insertion sort by the boolean relation `le`. -/
def sortBy {α : Type} (le : α → α → Bool) : List α → List α
  | [] => []
  | x :: xs => insertSorted le x (sortBy le xs)

theorem insertSorted_perm {α : Type} (le : α → α → Bool) (x : α) (l : List α) :
    List.Perm (insertSorted le x l) (x :: l) := by
  induction l with
  | nil => simp [insertSorted]
  | cons y ys ih =>
      rw [insertSorted]
      split
      · exact List.Perm.refl _
      · exact (List.Perm.cons y ih).trans (List.Perm.swap x y ys)

theorem sortBy_perm {α : Type} (le : α → α → Bool) (l : List α) :
    List.Perm (sortBy le l) l := by
  induction l with
  | nil => exact List.Perm.refl _
  | cons x xs ih =>
      rw [sortBy]
      exact (insertSorted_perm le x (sortBy le xs)).trans (List.Perm.cons x ih)

theorem pairwise_insertSorted {α : Type} {le : α → α → Bool}
    (htrans : ∀ a b c, le a b = true → le b c = true → le a c = true)
    (htotal : ∀ a b, le a b = true ∨ le b a = true)
    (x : α) {l : List α} (hl : l.Pairwise (fun a b => le a b = true)) :
    (insertSorted le x l).Pairwise (fun a b => le a b = true) := by
  induction l with
  | nil => simp [insertSorted]
  | cons y ys ih =>
      rw [insertSorted]
      rcases List.pairwise_cons.mp hl with ⟨hy, hys⟩
      split
      · rename_i hxy
        refine List.pairwise_cons.mpr ⟨?_, hl⟩
        intro z hz
        rcases hz with _ | hz
        · exact hxy
        · exact htrans x y z hxy (hy z (by assumption))
      · rename_i hxy
        have hyx : le y x = true := by
          rcases htotal x y with h | h
          · exact absurd h hxy
          · exact h
        refine List.pairwise_cons.mpr ⟨?_, ih hys⟩
        intro z hz
        have hz2 : z ∈ x :: ys := (insertSorted_perm le x ys).mem_iff.mp hz
        rcases hz2 with _ | hz2
        · exact hyx
        · exact hy z (by assumption)

theorem sortBy_pairwise {α : Type} {le : α → α → Bool}
    (htrans : ∀ a b c, le a b = true → le b c = true → le a c = true)
    (htotal : ∀ a b, le a b = true ∨ le b a = true)
    (l : List α) : (sortBy le l).Pairwise (fun a b => le a b = true) := by
  induction l with
  | nil => simp [sortBy]
  | cons x xs ih => exact pairwise_insertSorted htrans htotal x ih

/-- Sorting an already sorted list leaves it unchanged. -/
theorem sortBy_of_sorted {α : Type} {le : α → α → Bool} {l : List α}
    (hl : l.Pairwise (fun a b => le a b = true)) : sortBy le l = l := by
  induction l with
  | nil => rfl
  | cons x xs ih =>
      rcases List.pairwise_cons.mp hl with ⟨hx, hxs⟩
      rw [sortBy, ih hxs]
      cases xs with
      | nil => rfl
      | cons y ys =>
          rw [insertSorted, if_pos (hx y (List.mem_cons_self y ys))]

namespace Mempool

/-! ## Mempool fee estimator (`pkg/mempool/estimatefee.go`)

The estimator state is parametric in the type `R` of fee rates: the
estimation claims instantiate `R := ℚ` (exact rational arithmetic in
place of `float64`), the serialization claims instantiate `R := Nat`
(the opaque 64-bit pattern that `binary.Write` copies).  Go's
pointer-shared `*observedTransaction` values are modelled as plain
values; the well-formedness hypotheses used by the theorems say that the
bins and dropped lists only hold (copies of) entries of the
hash-indexed `observed` map, which is how every reachable Go state
relates its pointers. -/

/-- The constant `estimateFeeDepth` (25). -/
def estimateFeeDepth : Nat := 25

/-- The constant `estimateFeeBinSize` (100). -/
def estimateFeeBinSize : Int := 100

/-- The constant `estimateFeeMaxReplacements` (10). -/
def estimateFeeMaxReplacements : Int := 10

/-- The constant `bytePerKb` (1000). -/
def bytePerKb : ℚ := 1000

/-- The constant `duoPerSatoshi` (1e-8). -/
def duoPerSatoshi : ℚ := 1 / 100000000

/-- The constant `estimateFeeSaveVersion` (1). -/
def estimateFeeSaveVersion : Nat := 1

/-- Modelled from the spec: `mining.UnminedHeight`, the sentinel height of
a not-yet-mined transaction (`pkg/mining` is not under `src/`; the spec
calls it `UNMINED`).  It is the standard btcd sentinel `0x7fffffff`,
the largest `int32`, which the spec's `i32 (or UNMINED)` wording implies. -/
def UnminedHeight : Int := 0x7fffffff

/-- The struct `observedTransaction`. -/
structure ObservedTransaction (R : Type) where
  hash : Bytes
  feeRate : R
  observed : Int
  mined : Int
deriving DecidableEq

/-- The struct `registeredBlock`. -/
structure RegisteredBlock (R : Type) where
  hash : Bytes
  transactions : List (ObservedTransaction R)
deriving DecidableEq

/-- The struct `FeeEstimator`.  The Go map `observed` is an association
list keyed by the transactions' hashes; `bin` has 25 entries. -/
structure FeeEstimator (R : Type) where
  maxRollback : Nat
  binSize : Int
  maxReplacements : Int
  minRegisteredBlocks : Nat
  lastKnownHeight : Int
  numBlocksRegistered : Nat
  observed : List (ObservedTransaction R)
  bin : List (List (ObservedTransaction R))
  cached : Option (List R)
  dropped : List (RegisteredBlock R)
deriving DecidableEq

/-- The constructor `NewFeeEstimator`. -/
def NewFeeEstimator (R : Type) (maxRollback minRegisteredBlocks : Nat) :
    FeeEstimator R :=
  { maxRollback := maxRollback
    binSize := estimateFeeBinSize
    maxReplacements := estimateFeeMaxReplacements
    minRegisteredBlocks := minRegisteredBlocks
    lastKnownHeight := UnminedHeight
    numBlocksRegistered := 0
    observed := []
    bin := List.replicate estimateFeeDepth []
    cached := none
    dropped := [] }

/-- The struct `estimateFeeSet`: the flattened fee rates (sorted in
descending order) together with the 25 per-bin counts. -/
structure EstimateFeeSet where
  feeRate : List ℚ
  bin : List Nat
deriving DecidableEq

/-- The comparator of `estimateFeeSet` (`Less i j = feeRate[i] > feeRate[j]`):
a sorted sequence is descending, i.e. each later element is `≤` each
earlier one. -/
def feeRateLe (a b : ℚ) : Bool := decide (b ≤ a)

/-- The method `newEstimateFeeSet`: record the bin sizes, flatten the bins
into one rate array, and sort it descending. -/
def FeeEstimator.newEstimateFeeSet (ef : FeeEstimator ℚ) : EstimateFeeSet :=
  { bin := ef.bin.map List.length
    feeRate := sortBy feeRateLe (ef.bin.map (fun b => b.map (·.feeRate))).flatten }

/-- The method `estimateFeeSet.estimateFee`.  Go returns `+Inf` for
`confirmations <= 0`; that branch is unreachable from `EstimateFee`
(which rejects `numBlocks == 0` first) and is modelled as `0` here.
The final read `b.feeRate[feeIndex]` is always in range after the two
clamps, so `getD` never takes its default. -/
def EstimateFeeSet.estimateFee (b : EstimateFeeSet) (confirmations : Nat) : ℚ :=
  if confirmations = 0 then 0
  else if estimateFeeDepth < confirmations then 0
  else if b.feeRate.length = 0 then 0
  else
    let minI := (b.bin.take (confirmations - 1)).sum
    let cnt := b.bin.getD (confirmations - 1) 0
    let maxI := if cnt = 0 then minI else minI + cnt - 1
    let feeIndex := (minI + maxI) / 2
    let feeIndex2 :=
      if b.feeRate.length ≤ feeIndex then b.feeRate.length - 1 else feeIndex
    b.feeRate.getD feeIndex2 0

/-- The method `estimates`: the per-depth fee estimates for depths 1..25. -/
def FeeEstimator.estimates (ef : FeeEstimator ℚ) : List ℚ :=
  (List.range estimateFeeDepth).map (fun i => ef.newEstimateFeeSet.estimateFee (i + 1))

/-- The method `SatoshiPerByte.ToBtcPerKb`: `-1` is the error value and is
passed through; otherwise multiply by `bytePerKb` and `duoPerSatoshi`. -/
def ToBtcPerKb (rate : ℚ) : ℚ :=
  if rate = -1 then -1 else rate * bytePerKb * duoPerSatoshi

/-- The method `FeeEstimator.EstimateFee`.  Returns the estimate together
with the updated estimator (whose `cached` field is now populated). -/
def FeeEstimator.EstimateFee (ef : FeeEstimator ℚ) (numBlocks : Nat) :
    Except String (ℚ × FeeEstimator ℚ) :=
  if ef.numBlocksRegistered < ef.minRegisteredBlocks then
    .error "not enough blocks have been observed"
  else if numBlocks = 0 then
    .error "cannot confirm transaction in zero blocks"
  else if estimateFeeDepth < numBlocks then
    .error "can only estimate fees for up to 25 blocks from now"
  else
    let cached := match ef.cached with
      | none => ef.estimates
      | some c => c
    .ok (ToBtcPerKb (cached.getD (numBlocks - 1) 0), { ef with cached := some cached })

/-- C8: `EstimateFee(depth)` returns an error if and only if `depth == 0`,
or `depth > 25`, or fewer than `min_registered_blocks` blocks have been
registered; in every other case it returns an estimate without error. -/
theorem c8_EstimateFee_error_iff (ef : FeeEstimator ℚ) (numBlocks : Nat) :
    (∃ e, ef.EstimateFee numBlocks = .error e) ↔
      numBlocks = 0 ∨ estimateFeeDepth < numBlocks ∨
        ef.numBlocksRegistered < ef.minRegisteredBlocks := by
  unfold FeeEstimator.EstimateFee
  split_ifs with h1 h2 h3 <;> simp_all

/-! ## RegisterBlock

`RegisterBlock` iterates the block's transactions in the (randomized)
iteration order of a Go map and picks random replacement victims with
`rand.Intn`.  The embedding takes the iteration order as the input list
`txs` (of transaction hashes) and a stream `rng` of random numbers, one
consumed per replacement; the theorems hold for every order and stream. -/

/-- Look a transaction hash up in the `observed` map. -/
def findObserved {R : Type} (l : List (ObservedTransaction R)) (h : Bytes) :
    Option (ObservedTransaction R) :=
  l.find? (fun o => decide (o.hash = h))

/-- Update the `observed` map entry with the given hash (pointer mutation
of the map's value in Go). -/
def updateObserved {R : Type} (l : List (ObservedTransaction R)) (h : Bytes)
    (o : ObservedTransaction R) : List (ObservedTransaction R) :=
  l.map (fun t => if t.hash = h then o else t)

/-- The body of the `for t := range transactions` loop of `RegisterBlock`,
threading (observed map, bins, per-bin replacement counts, dropped list,
random stream).  The two `.error` branches marked as panics model Go
index-out-of-range panics that are unreachable for reachable estimator
states (observation heights never exceed the registered height, and the
replacement cap keeps `rand.Intn`'s argument positive for the estimator's
parameters). -/
def registerLoop {R : Type} (height binSize maxReplacements : Int) :
    List Bytes → List Nat → List (ObservedTransaction R) →
    List (List (ObservedTransaction R)) → List Nat →
    List (ObservedTransaction R) →
    Except String
      (List (ObservedTransaction R) × List (List (ObservedTransaction R)) ×
        List (ObservedTransaction R))
  | [], _, observed, bins, _, droppedTxs => .ok (observed, bins, droppedTxs)
  | h :: rest, rng, observed, bins, counts, droppedTxs =>
    match findObserved observed h with
    | none => registerLoop height binSize maxReplacements rest rng observed bins counts droppedTxs
    | some o =>
      let blocksToConfirm : Int := height - o.observed - 1
      if o.mined ≠ UnminedHeight then
        .error "transaction has already been mined"
      else if (estimateFeeDepth : Int) ≤ blocksToConfirm then
        registerLoop height binSize maxReplacements rest rng observed bins counts droppedTxs
      else if blocksToConfirm < 0 then
        .error "panic: negative bin index"
      else
        let btc := blocksToConfirm.toNat
        if (counts.getD btc 0 : Int) = maxReplacements then
          registerLoop height binSize maxReplacements rest rng observed bins counts droppedTxs
        else
          let o2 := { o with mined := height }
          let observed2 := updateObserved observed h o2
          let counts2 := counts.set btc (counts.getD btc 0 + 1)
          let bin := bins.getD btc []
          if (bin.length : Int) = binSize then
            let l : Int := binSize - (counts2.getD btc 0 : Int)
            if l ≤ 0 then .error "panic: rand.Intn on a nonpositive bound"
            else
              let ln := l.toNat
              let drop := rng.headD 0 % ln
              let droppedTxs2 := droppedTxs ++ [bin.getD drop o]
              let bin2 := (bin.set drop (bin.getD (ln - 1) o)).set (ln - 1) o2
              registerLoop height binSize maxReplacements rest rng.tail observed2
                (bins.set btc bin2) counts2 droppedTxs2
          else
            registerLoop height binSize maxReplacements rest rng observed2
              (bins.set btc (bin ++ [o2])) counts2 droppedTxs

/-- The method `FeeEstimator.RegisterBlock`.  On the Go error paths the
estimator has already been partially mutated (it is not transactional);
no claim depends on the post-error state, so the model only returns the
error. -/
def FeeEstimator.RegisterBlock {R : Type} (ef : FeeEstimator R)
    (blockHash : Bytes) (height : Int) (txs : List Bytes) (rng : List Nat) :
    Except String (FeeEstimator R) :=
  if height ≠ ef.lastKnownHeight + 1 ∧ ef.lastKnownHeight ≠ UnminedHeight then
    .error "intermediate block not recorded"
  else
    match registerLoop height ef.binSize ef.maxReplacements txs rng
        ef.observed ef.bin (List.replicate estimateFeeDepth 0) [] with
    | .error e => .error e
    | .ok (observed, bins, droppedTxs) =>
      let observed2 := observed.filter
        (fun o => !(decide (o.mined = UnminedHeight) &&
          decide ((estimateFeeDepth : Int) ≤ height - o.observed)))
      let ef2 : FeeEstimator R :=
        { ef with cached := none, lastKnownHeight := height,
                  numBlocksRegistered := ef.numBlocksRegistered + 1,
                  observed := observed2, bin := bins }
      if ef.maxRollback = 0 then .ok ef2
      else if ef2.dropped.length = ef.maxRollback then
        .ok { ef2 with dropped := ef2.dropped.tail ++ [⟨blockHash, droppedTxs⟩] }
      else
        .ok { ef2 with dropped := ef2.dropped ++ [⟨blockHash, droppedTxs⟩] }

/-! ## Facts about the estimate computation (for C7 and C10) -/

theorem feeRateLe_trans (a b c : ℚ) (hab : feeRateLe a b = true)
    (hbc : feeRateLe b c = true) : feeRateLe a c = true := by
  simp only [feeRateLe, decide_eq_true_iff] at *
  exact hbc.trans hab

theorem feeRateLe_total (a b : ℚ) : feeRateLe a b = true ∨ feeRateLe b a = true := by
  simp only [feeRateLe, decide_eq_true_iff]
  exact le_total b a

/-- The flattened rate array of `newEstimateFeeSet` is sorted descending. -/
theorem newEstimateFeeSet_sorted (ef : FeeEstimator ℚ) :
    (ef.newEstimateFeeSet).feeRate.Pairwise (fun a b => b ≤ a) := by
  have h := sortBy_pairwise feeRateLe_trans feeRateLe_total
    (ef.bin.map (fun b => b.map (·.feeRate))).flatten
  exact h.imp (fun hab => by
    simpa only [feeRateLe, decide_eq_true_iff] using hab)

/-- The rate array holds exactly as many entries as the bin counts say. -/
theorem newEstimateFeeSet_length (ef : FeeEstimator ℚ) :
    (ef.newEstimateFeeSet).feeRate.length = (ef.newEstimateFeeSet).bin.sum := by
  unfold FeeEstimator.newEstimateFeeSet
  rw [(sortBy_perm _ _).length_eq, List.length_flatten, List.map_map]
  congr 1
  exact List.map_congr_left (fun b _ => List.length_map b _)

theorem newEstimateFeeSet_bin_length (ef : FeeEstimator ℚ) :
    (ef.newEstimateFeeSet).bin.length = ef.bin.length := by
  unfold FeeEstimator.newEstimateFeeSet
  exact List.length_map _ _

/-- Reading the cached estimate array at `i` gives `estimateFee (i+1)`. -/
theorem estimates_getD (ef : FeeEstimator ℚ) {i : Nat} (h : i < estimateFeeDepth) :
    ef.estimates.getD i 0 = ef.newEstimateFeeSet.estimateFee (i + 1) := by
  unfold FeeEstimator.estimates
  rw [List.getD_eq_getElem?_getD, List.getElem?_map, List.getElem?_range h]
  rfl

/-- Elements of a list of nonnegative rationals read with default 0 are
nonnegative. -/
theorem getD_nonneg {l : List ℚ} (h : ∀ r ∈ l, 0 ≤ r) (i : Nat) :
    0 ≤ l.getD i 0 := by
  rcases lt_or_le i l.length with hi | hi
  · rw [List.getD_eq_getElem _ _ hi]
    exact h _ (List.getElem_mem hi)
  · rw [List.getD_eq_default _ _ hi]

/-- When the checks pass and the cache is coherent, `EstimateFee` returns
the converted entry of the estimate array. -/
theorem EstimateFee_ok_eq (ef : FeeEstimator ℚ) (numBlocks : Nat)
    (hmin : ef.minRegisteredBlocks ≤ ef.numBlocksRegistered)
    (hcache : ef.cached = none ∨ ef.cached = some ef.estimates)
    (h1 : 1 ≤ numBlocks) (h2 : numBlocks ≤ estimateFeeDepth) :
    ef.EstimateFee numBlocks =
      .ok (ToBtcPerKb (ef.newEstimateFeeSet.estimateFee numBlocks),
        { ef with cached := some ef.estimates }) := by
  unfold FeeEstimator.EstimateFee
  rw [if_neg (by omega), if_neg (by omega), if_neg (by omega)]
  have hc : (match ef.cached with
      | none => ef.estimates
      | some c => c) = ef.estimates := by
    rcases hcache with hc | hc <;> rw [hc]
  simp only [hc]
  have hi : numBlocks - 1 < estimateFeeDepth := by omega
  rw [estimates_getD ef hi]
  have : numBlocks - 1 + 1 = numBlocks := by omega
  rw [this]

/-- The sum of the first `d` bin counts extends the sum of the first
`d - 1` by the count of bin `d - 1`. -/
theorem binSum_take_succ (bins : List Nat) (d : Nat) (h1 : 1 ≤ d)
    (hd : d - 1 < bins.length) :
    (bins.take d).sum = (bins.take (d - 1)).sum + bins.getD (d - 1) 0 := by
  have h := List.sum_take_succ bins (d - 1) hd
  rw [List.getD_eq_getElem _ _ hd]
  have hdd : d - 1 + 1 = d := by omega
  rw [hdd] at h
  exact h

/-- When the bin at the requested depth is nonempty, `estimateFee` selects
the entry at the median position of the cumulative bin range, and that
position is in range. -/
theorem estimateFee_median (s : EstimateFeeSet) (d : Nat)
    (h1 : 1 ≤ d) (h2 : d ≤ estimateFeeDepth)
    (hbl : s.bin.length = estimateFeeDepth)
    (hlen : s.feeRate.length = s.bin.sum)
    (hcnt : 1 ≤ s.bin.getD (d - 1) 0) :
    ((s.bin.take (d - 1)).sum + ((s.bin.take d).sum - 1)) / 2 < s.feeRate.length ∧
    s.estimateFee d =
      s.feeRate.getD (((s.bin.take (d - 1)).sum + ((s.bin.take d).sum - 1)) / 2) 0 := by
  have hd : d - 1 < s.bin.length := by omega
  have hsum := binSum_take_succ s.bin d h1 hd
  have hle : (s.bin.take d).sum ≤ s.bin.sum := by
    have := List.sum_take_add_sum_drop s.bin d
    omega
  have hidx : ((s.bin.take (d - 1)).sum + ((s.bin.take d).sum - 1)) / 2 <
      s.feeRate.length := by
    rw [hlen]
    have hhalf : ((s.bin.take (d - 1)).sum + ((s.bin.take d).sum - 1)) / 2 ≤
        (s.bin.take d).sum - 1 := by
      apply Nat.div_le_of_le_mul
      omega
    omega
  refine ⟨hidx, ?_⟩
  unfold EstimateFeeSet.estimateFee
  rw [if_neg (by omega), if_neg (by omega), if_neg (by rw [hlen]; omega)]
  simp only
  rw [if_neg (by omega : ¬ s.bin.getD (d - 1) 0 = 0)]
  rw [if_neg]
  · congr 1
    omega
  · push_neg
    have : (s.bin.take (d - 1)).sum + ((s.bin.take (d - 1)).sum +
        s.bin.getD (d - 1) 0 - 1) = (s.bin.take (d - 1)).sum +
        ((s.bin.take d).sum - 1) := by omega
    rw [this]
    exact hidx

/-- C7: when `estimate_fee(depth)` succeeds (with a coherent cache and a
nonempty bin at the requested depth), it returns the per-byte fee rate
located at the median sorted position of the cumulative bin range
`[sum(bin[0..depth-1]), sum(bin[0..depth]))` of all binned transactions
sorted by rate, converted to a per-kilobyte value by multiplying by 1000
(`bytePerKb`) and by 1e-8 (`duoPerSatoshi`). -/
theorem c7_EstimateFee_median (ef : FeeEstimator ℚ) (numBlocks : Nat)
    (hbins : ef.bin.length = estimateFeeDepth)
    (hcache : ef.cached = none ∨ ef.cached = some ef.estimates)
    (hmin : ef.minRegisteredBlocks ≤ ef.numBlocksRegistered)
    (h1 : 1 ≤ numBlocks) (h2 : numBlocks ≤ estimateFeeDepth)
    (hcnt : 1 ≤ (ef.newEstimateFeeSet).bin.getD (numBlocks - 1) 0)
    (hnonneg : ∀ r ∈ (ef.newEstimateFeeSet).feeRate, 0 ≤ r) :
    ∃ ef2, ef.EstimateFee numBlocks = .ok
      ((ef.newEstimateFeeSet).feeRate.getD
          ((((ef.newEstimateFeeSet).bin.take (numBlocks - 1)).sum +
            (((ef.newEstimateFeeSet).bin.take numBlocks).sum - 1)) / 2) 0
        * bytePerKb * duoPerSatoshi, ef2) := by
  refine ⟨{ ef with cached := some ef.estimates }, ?_⟩
  rw [EstimateFee_ok_eq ef numBlocks hmin hcache h1 h2]
  have hbl : (ef.newEstimateFeeSet).bin.length = estimateFeeDepth := by
    rw [newEstimateFeeSet_bin_length, hbins]
  have hm := estimateFee_median ef.newEstimateFeeSet numBlocks h1 h2 hbl
    (newEstimateFeeSet_length ef) hcnt
  rw [hm.2]
  have hval : 0 ≤ (ef.newEstimateFeeSet).feeRate.getD
      ((((ef.newEstimateFeeSet).bin.take (numBlocks - 1)).sum +
        (((ef.newEstimateFeeSet).bin.take numBlocks).sum - 1)) / 2) 0 :=
    getD_nonneg hnonneg _
  rw [ToBtcPerKb, if_neg (by intro hc; rw [hc] at hval; norm_num at hval)]

/-- A concrete estimator with one binned transaction (rate 5 at depth 1),
used by the C7 and C10 witnesses. -/
def c7ef : FeeEstimator ℚ :=
  { maxRollback := 2
    binSize := estimateFeeBinSize
    maxReplacements := estimateFeeMaxReplacements
    minRegisteredBlocks := 0
    lastKnownHeight := 1
    numBlocksRegistered := 1
    observed := [⟨[1], 5, 0, 1⟩]
    bin := [⟨[1], 5, 0, 1⟩] :: List.replicate 24 []
    cached := none
    dropped := [] }

/-- C7 witness: the median theorem applied to the concrete estimator. -/
theorem c7_EstimateFee_median_witness :
    (c7ef.bin.length = estimateFeeDepth ∧
     c7ef.minRegisteredBlocks ≤ c7ef.numBlocksRegistered ∧
     1 ≤ (c7ef.newEstimateFeeSet).bin.getD 0 0 ∧
     (∀ r ∈ (c7ef.newEstimateFeeSet).feeRate, 0 ≤ r)) ∧
    (∃ ef2, c7ef.EstimateFee 1 = .ok
      ((c7ef.newEstimateFeeSet).feeRate.getD
          ((((c7ef.newEstimateFeeSet).bin.take 0).sum +
            (((c7ef.newEstimateFeeSet).bin.take 1).sum - 1)) / 2) 0
        * bytePerKb * duoPerSatoshi, ef2)) :=
  ⟨⟨by decide, by decide, by decide, by decide⟩,
    c7_EstimateFee_median c7ef 1 (by decide) (Or.inl rfl) (by decide)
      (by decide) (by decide) (by decide) (by decide)⟩

/-- The raw (unclamped) median index of `estimateFee`, together with the
final read index after the length clamp. -/
theorem estimateFee_eq_index (s : EstimateFeeSet) (d : Nat)
    (h1 : 1 ≤ d) (h2 : d ≤ estimateFeeDepth) (hne : s.feeRate.length ≠ 0) :
    s.estimateFee d =
      s.feeRate.getD
        (if s.feeRate.length ≤
            ((s.bin.take (d - 1)).sum +
              (if s.bin.getD (d - 1) 0 = 0 then (s.bin.take (d - 1)).sum
              else (s.bin.take (d - 1)).sum + s.bin.getD (d - 1) 0 - 1)) / 2
          then s.feeRate.length - 1
          else ((s.bin.take (d - 1)).sum +
            (if s.bin.getD (d - 1) 0 = 0 then (s.bin.take (d - 1)).sum
            else (s.bin.take (d - 1)).sum + s.bin.getD (d - 1) 0 - 1)) / 2) 0 := by
  unfold EstimateFeeSet.estimateFee
  rw [if_neg (by omega), if_neg (by omega), if_neg hne]

/-- Entries of a descending-sorted list do not increase with the index. -/
theorem sorted_getD_le (l : List ℚ) (hs : l.Pairwise (fun a b => b ≤ a))
    {i j : Nat} (hij : i ≤ j) (hj : j < l.length) :
    l.getD j 0 ≤ l.getD i 0 := by
  have hi : i < l.length := lt_of_le_of_lt hij hj
  rw [List.getD_eq_getElem _ _ hi, List.getD_eq_getElem _ _ hj]
  rcases Nat.lt_or_ge i j with hlt | hge
  · exact List.pairwise_iff_get.mp hs ⟨i, hi⟩ ⟨j, hj⟩ hlt
  · have : i = j := by omega
    subst this
    exact le_refl _

/-- Deeper confirmation targets select median indices at or beyond
shallower ones, so on the descending rate array the estimate cannot
increase from depth `d` to depth `d+1`. -/
theorem estimateFee_succ_le (s : EstimateFeeSet) (d : Nat)
    (h1 : 1 ≤ d) (h2 : d + 1 ≤ estimateFeeDepth)
    (hbl : s.bin.length = estimateFeeDepth)
    (hlen : s.feeRate.length = s.bin.sum)
    (hsorted : s.feeRate.Pairwise (fun a b => b ≤ a)) :
    s.estimateFee (d + 1) ≤ s.estimateFee d := by
  rcases Nat.eq_zero_or_pos s.feeRate.length with hz | hpos
  · unfold EstimateFeeSet.estimateFee
    rw [if_neg (by omega), if_neg (by omega), if_pos hz,
      if_neg (by omega), if_neg (by omega), if_pos hz]
  · have hda : d - 1 < s.bin.length := by omega
    have hdb : d < s.bin.length := by omega
    rw [estimateFee_eq_index s d h1 (by omega) (by omega),
      estimateFee_eq_index s (d + 1) (by omega) h2 (by omega)]
    have hdd : d + 1 - 1 = d := by omega
    rw [hdd]
    have hsum := binSum_take_succ s.bin d h1 hda
    set m1 := (s.bin.take (d - 1)).sum with hm1
    set c1 := s.bin.getD (d - 1) 0 with hc1
    set m2 := (s.bin.take d).sum with hm2
    set c2 := s.bin.getD d 0 with hc2
    have hmono : (m1 + (if c1 = 0 then m1 else m1 + c1 - 1)) / 2 ≤
        (m2 + (if c2 = 0 then m2 else m2 + c2 - 1)) / 2 := by
      apply Nat.div_le_div_right
      split_ifs <;> omega
    have hkey : ∀ L u1 u2 : Nat, u1 ≤ u2 → 0 < L →
        ((if L ≤ u1 then L - 1 else u1) ≤ (if L ≤ u2 then L - 1 else u2) ∧
         (if L ≤ u2 then L - 1 else u2) < L) := by
      intro L u1 u2 h hL
      constructor <;> split_ifs <;> omega
    exact sorted_getD_le s.feeRate hsorted
      (hkey _ _ _ hmono hpos).1 (hkey _ _ _ hmono hpos).2

/-- C10: for a coherent estimator state with nonnegative rates and two
adjacent depths `d` and `d+1` (`1 ≤ d < 25`) at which `EstimateFee`
succeeds, the estimate returned for depth `d+1` is less than or equal to
the estimate returned for depth `d`: the fee-rate array is sorted in
descending order and deeper targets select median indices at or beyond
shallower ones. -/
theorem c10_EstimateFee_nonincreasing (ef : FeeEstimator ℚ) (d : Nat)
    (hbins : ef.bin.length = estimateFeeDepth)
    (hcache : ef.cached = none ∨ ef.cached = some ef.estimates)
    (hmin : ef.minRegisteredBlocks ≤ ef.numBlocksRegistered)
    (h1 : 1 ≤ d) (h2 : d + 1 ≤ estimateFeeDepth)
    (hnonneg : ∀ r ∈ (ef.newEstimateFeeSet).feeRate, 0 ≤ r)
    (r1 r2 : ℚ) (ef1 ef2 : FeeEstimator ℚ)
    (ha : ef.EstimateFee d = .ok (r1, ef1))
    (hb : ef.EstimateFee (d + 1) = .ok (r2, ef2)) :
    r2 ≤ r1 := by
  rw [EstimateFee_ok_eq ef d hmin hcache h1 (by omega)] at ha
  rw [EstimateFee_ok_eq ef (d + 1) hmin hcache (by omega) h2] at hb
  injection ha with ha
  injection hb with hb
  have ha1 : r1 = ToBtcPerKb (ef.newEstimateFeeSet.estimateFee d) :=
    (congrArg Prod.fst ha).symm
  have hb1 : r2 = ToBtcPerKb (ef.newEstimateFeeSet.estimateFee (d + 1)) :=
    (congrArg Prod.fst hb).symm
  subst ha1 hb1
  have hbl : (ef.newEstimateFeeSet).bin.length = estimateFeeDepth := by
    rw [newEstimateFeeSet_bin_length, hbins]
  have hle := estimateFee_succ_le ef.newEstimateFeeSet d h1 h2 hbl
    (newEstimateFeeSet_length ef) (newEstimateFeeSet_sorted ef)
  have hq2 : 0 ≤ ef.newEstimateFeeSet.estimateFee (d + 1) := by
    unfold EstimateFeeSet.estimateFee
    split_ifs <;> first | exact le_refl _ | exact getD_nonneg hnonneg _
  have hq1 : 0 ≤ ef.newEstimateFeeSet.estimateFee d := le_trans hq2 hle
  rw [ToBtcPerKb, ToBtcPerKb,
    if_neg (by intro hc; rw [hc] at hq2; norm_num at hq2),
    if_neg (by intro hc; rw [hc] at hq1; norm_num at hq1)]
  have hk : (0 : ℚ) ≤ bytePerKb * duoPerSatoshi := by
    norm_num [bytePerKb, duoPerSatoshi]
  rw [mul_assoc, mul_assoc]
  exact mul_le_mul_of_nonneg_right hle hk

/-- C10 witness: the monotonicity theorem applied to the concrete
estimator at depths 1 and 2. -/
theorem c10_EstimateFee_nonincreasing_witness :
    (c7ef.bin.length = estimateFeeDepth ∧
     c7ef.minRegisteredBlocks ≤ c7ef.numBlocksRegistered ∧
     (∀ r ∈ (c7ef.newEstimateFeeSet).feeRate, 0 ≤ r) ∧
     c7ef.EstimateFee 1 = .ok (5 * bytePerKb * duoPerSatoshi,
       { c7ef with cached := some c7ef.estimates }) ∧
     c7ef.EstimateFee 2 = .ok (5 * bytePerKb * duoPerSatoshi,
       { c7ef with cached := some c7ef.estimates })) ∧
    (5 : ℚ) * bytePerKb * duoPerSatoshi ≤ 5 * bytePerKb * duoPerSatoshi :=
  ⟨⟨by decide, by decide, by decide, by rfl, by rfl⟩,
    c10_EstimateFee_nonincreasing c7ef 1 (by decide) (Or.inl rfl) (by decide)
      (by decide) (by decide) (by decide) _ _ _ _ (by rfl) (by rfl)⟩

/-- C4 (amended): for every call to `RegisterBlock` that returns without
error, `num_blocks_registered` increments by exactly 1 and
`last_known_height` is set to the block's height — which equals
`last_known_height + 1` on every registration after the first, because
`RegisterBlock` requires `block.height == last_known_height + 1` except
for the very first registration. -/
theorem c4_RegisterBlock_counters {R : Type} (ef : FeeEstimator R)
    (blockHash : Bytes) (height : Int) (txs : List Bytes) (rng : List Nat)
    (ef2 : FeeEstimator R)
    (h : ef.RegisterBlock blockHash height txs rng = .ok ef2) :
    ef2.numBlocksRegistered = ef.numBlocksRegistered + 1 ∧
    ef2.lastKnownHeight = height ∧
    (ef.lastKnownHeight ≠ UnminedHeight → height = ef.lastKnownHeight + 1) := by
  unfold FeeEstimator.RegisterBlock at h
  split at h
  · exact absurd h (by simp)
  · rename_i hcond
    split at h
    · exact absurd h (by simp)
    · simp only at h
      split_ifs at h <;>
        (injection h with h; subst h
         refine ⟨rfl, rfl, ?_⟩
         intro hne
         rcases not_and_or.mp hcond with hc | hc
         · exact not_not.mp hc
         · exact absurd (not_not.mp hc) hne)

/-- The estimator state produced by the very first registration in the
C4 witness and counterexample runs. -/
def c4state : FeeEstimator Nat :=
  { maxRollback := 2
    binSize := estimateFeeBinSize
    maxReplacements := estimateFeeMaxReplacements
    minRegisteredBlocks := 3
    lastKnownHeight := 5
    numBlocksRegistered := 1
    observed := []
    bin := List.replicate estimateFeeDepth []
    cached := none
    dropped := [⟨[1], []⟩] }

/-- C4 counterexample: the very first registration (fresh estimator, where
`lastKnownHeight` is the `UnminedHeight` sentinel) of a block at height 5
returns without error, yet `last_known_height` becomes 5, which is not
the previous `last_known_height + 1` — so the claim that every
error-free `RegisterBlock` increments `last_known_height` by exactly 1
is false. -/
theorem c4_RegisterBlock_counterexample :
    (NewFeeEstimator Nat 2 3).RegisterBlock [1] 5 [] [] = .ok c4state ∧
    c4state.lastKnownHeight ≠ (NewFeeEstimator Nat 2 3).lastKnownHeight + 1 := by
  constructor
  · rfl
  · decide

/-- C4 witness: the amended theorem applied to the concrete first
registration above. -/
theorem c4_RegisterBlock_counters_witness :
    (NewFeeEstimator Nat 2 3).RegisterBlock [1] 5 [] [] = .ok c4state ∧
    (c4state.numBlocksRegistered = (NewFeeEstimator Nat 2 3).numBlocksRegistered + 1 ∧
     c4state.lastKnownHeight = 5 ∧
     ((NewFeeEstimator Nat 2 3).lastKnownHeight ≠ UnminedHeight →
        (5 : Int) = (NewFeeEstimator Nat 2 3).lastKnownHeight + 1)) :=
  ⟨rfl, c4_RegisterBlock_counters (NewFeeEstimator Nat 2 3) [1] 5 [] [] c4state rfl⟩

/-! ## Save / Restore (claim C2)

The serialization claims use `R := Nat`: a fee rate is the opaque 64-bit
pattern of the Go `float64`, which `binary.Write` copies to the wire
big-endian.  Go's pointer-keyed index map `observed[o]` is modelled by
the position of `o`'s hash in the sorted table (`hashIdx`): inside
`ef.observed` pointers and hashes are in bijection, and a pointer that is
not in the map yields the map's zero value 0, as `hashIdx`'s
`Option.getD 0` does. -/

/-- The comparator of `observedTxSet`: `Less` compares `hash.String()`
values, and chainhash's `String` is the hex of the byte-reversed hash, so
string comparison is lexicographic comparison of the reversed byte
arrays. -/
def obsLe (a b : ObservedTransaction Nat) : Bool :=
  decide (a.hash.reverse ≤ b.hash.reverse)

/-- Position of the entry with hash `h` in the serialization table. -/
def hashIdx (ots : List (ObservedTransaction Nat)) (h : Bytes) : Option Nat :=
  match ots with
  | [] => none
  | t :: rest => if t.hash = h then some 0 else (hashIdx rest h).map (· + 1)

/-- Index of an observed transaction in the serialization table: Go's
`observed[o]` with 0, the zero value, for a pointer outside the map. -/
def obsIndex (ots : List (ObservedTransaction Nat))
    (o : ObservedTransaction Nat) : Nat :=
  (hashIdx ots o.hash).getD 0

/-- The method `observedTransaction.Serialize`: hash, `float64` bits,
observed height, mined height, all big-endian. -/
def ObservedTransaction.Serialize (o : ObservedTransaction Nat) : Bytes :=
  o.hash ++ beBytes 8 o.feeRate ++ i32be o.observed ++ i32be o.mined

/-- The method `registeredBlock.serialize`: block hash, transaction count
and the table index of each transaction. -/
def RegisteredBlock.serialize (ots : List (ObservedTransaction Nat))
    (rb : RegisteredBlock Nat) : Bytes :=
  rb.hash ++ u32be rb.transactions.length ++
    (rb.transactions.map (fun o => u32be (obsIndex ots o))).flatten

/-- The method `FeeEstimator.Save`. -/
def FeeEstimator.Save (ef : FeeEstimator Nat) : Bytes :=
  let ots := sortBy obsLe ef.observed
  u32be estimateFeeSaveVersion ++
  u32be ef.maxRollback ++
  i32be ef.binSize ++
  i32be ef.maxReplacements ++
  u32be ef.minRegisteredBlocks ++
  i32be ef.lastKnownHeight ++
  u32be ef.numBlocksRegistered ++
  u32be ef.observed.length ++
  (ots.map ObservedTransaction.Serialize).flatten ++
  (ef.bin.map (fun list =>
    u32be list.length ++
      (list.map (fun o => u32be (obsIndex ots o))).flatten)).flatten ++
  u32be ef.dropped.length ++
  (ef.dropped.map (RegisteredBlock.serialize ots)).flatten

/-- Model of `binary.Read` of a `uint32`: a full read on success; on a
short buffer the error is logged and ignored, the target keeps its zero
value and the reader is drained. -/
def readU32 (b : Bytes) : Nat × Bytes :=
  if 4 ≤ b.length then (beVal (b.take 4), b.drop 4) else (0, [])

/-- Model of `binary.Read` of an `int32` (see `readU32`). -/
def readI32 (b : Bytes) : Int × Bytes :=
  if 4 ≤ b.length then (i32val (b.take 4), b.drop 4) else (0, [])

/-- Model of `binary.Read` of a `float64` bit pattern (see `readU32`). -/
def readU64 (b : Bytes) : Nat × Bytes :=
  if 8 ≤ b.length then (beVal (b.take 8), b.drop 8) else (0, [])

/-- Model of `binary.Read` of a 32-byte hash (see `readU32`). -/
def readHash (b : Bytes) : Bytes × Bytes :=
  if 32 ≤ b.length then (b.take 32, b.drop 32) else (List.replicate 32 0, [])

/-- The function `deserializeObservedTransaction` (it never fails). -/
def deserializeObservedTransaction (b : Bytes) :
    ObservedTransaction Nat × Bytes :=
  let p1 := readHash b
  let p2 := readU64 p1.2
  let p3 := readI32 p2.2
  let p4 := readI32 p3.2
  (⟨p1.1, p2.1, p3.1, p4.1⟩, p4.2)

/-- The transaction-reading loop of `RestoreFeeEstimator`. -/
def readObservedList : Nat → Bytes → List (ObservedTransaction Nat) × Bytes
  | 0, b => ([], b)
  | n + 1, b =>
    let p := deserializeObservedTransaction b
    let q := readObservedList n p.2
    (p.1 :: q.1, q.2)

/-- The index-reading loop of one bin: an index outside the observed
table is rejected ("invalid transaction reference"). -/
def readBinIdxList (obs : List (ObservedTransaction Nat)) :
    Nat → Bytes → Except String (List (ObservedTransaction Nat) × Bytes)
  | 0, b => .ok ([], b)
  | n + 1, b =>
    let p := readU32 b
    match obs[p.1]? with
    | none => .error "invalid transaction reference"
    | some o =>
      match readBinIdxList obs n p.2 with
      | .error e => .error e
      | .ok q => .ok (o :: q.1, q.2)

/-- The bin-reading loop of `RestoreFeeEstimator`. -/
def readBins (obs : List (ObservedTransaction Nat)) :
    Nat → Bytes → Except String (List (List (ObservedTransaction Nat)) × Bytes)
  | 0, b => .ok ([], b)
  | n + 1, b =>
    let p := readU32 b
    match readBinIdxList obs p.1 p.2 with
    | .error e => .error e
    | .ok q =>
      match readBins obs n q.2 with
      | .error e => .error e
      | .ok r => .ok (q.1 :: r.1, r.2)

/-- Go stores a nil pointer for a dropped-list index that is outside the
observed table (`txs[index]` on a missing key).  `nilObservedTransaction`
models that pointer: its hash is not 32 bytes long, so it never collides
with a well-formed observed transaction, and `obsIndex` sends it to 0
exactly as Go's map lookup of the nil pointer does. -/
def nilObservedTransaction : ObservedTransaction Nat := ⟨[], 0, 0, 0⟩

/-- The index-reading loop of `deserializeRegisteredBlock` (no validity
check; missing indexes become the nil pointer). -/
def readDroppedIdxList (obs : List (ObservedTransaction Nat)) :
    Nat → Bytes → List (ObservedTransaction Nat) × Bytes
  | 0, b => ([], b)
  | n + 1, b =>
    let p := readU32 b
    let q := readDroppedIdxList obs n p.2
    ((obs[p.1]?.getD nilObservedTransaction) :: q.1, q.2)

/-- The function `deserializeRegisteredBlock`. -/
def deserializeRegisteredBlock (obs : List (ObservedTransaction Nat))
    (b : Bytes) : RegisteredBlock Nat × Bytes :=
  let p1 := readHash b
  let p2 := readU32 p1.2
  let p3 := readDroppedIdxList obs p2.1 p2.2
  (⟨p1.1, p3.1⟩, p3.2)

/-- The dropped-block-reading loop of `RestoreFeeEstimator`. -/
def readDroppedList (obs : List (ObservedTransaction Nat)) :
    Nat → Bytes → List (RegisteredBlock Nat) × Bytes
  | 0, b => ([], b)
  | n + 1, b =>
    let p := deserializeRegisteredBlock obs b
    let q := readDroppedList obs n p.2
    (p.1 :: q.1, q.2)

/-- The function `RestoreFeeEstimator`.  Only the version read, a version
mismatch and an invalid bin transaction reference are returned as errors;
all other read errors are logged and ignored by the Go code (the zero
value is kept), which the total readers model. -/
def RestoreFeeEstimator (data : Bytes) : Except String (FeeEstimator Nat) :=
  if data.length < 4 then .error "failed to read version" else
  match readU32 data with
  | (version, r0) =>
  if version ≠ estimateFeeSaveVersion then .error "incorrect version" else
  match readU32 r0 with
  | (maxRollback, r1) =>
  match readI32 r1 with
  | (binSize, r2) =>
  match readI32 r2 with
  | (maxReplacements, r3) =>
  match readU32 r3 with
  | (minRegisteredBlocks, r4) =>
  match readI32 r4 with
  | (lastKnownHeight, r5) =>
  match readU32 r5 with
  | (numBlocksRegistered, r6) =>
  match readU32 r6 with
  | (numObserved, r7) =>
  match readObservedList numObserved r7 with
  | (obsList, r8) =>
  match readBins obsList estimateFeeDepth r8 with
  | .error e => .error e
  | .ok (bins, r9) =>
  match readU32 r9 with
  | (numDropped, r10) =>
  match readDroppedList obsList numDropped r10 with
  | (dropped, _) =>
    .ok { maxRollback := maxRollback
          binSize := binSize
          maxReplacements := maxReplacements
          minRegisteredBlocks := minRegisteredBlocks
          lastKnownHeight := lastKnownHeight
          numBlocksRegistered := numBlocksRegistered
          observed := obsList
          bin := bins
          cached := none
          dropped := dropped }

/-- Well-formedness of a serializable estimator state: the invariants
every reachable `FeeEstimator` satisfies.  Hashes are 32 bytes and
pairwise distinct (`observed` is a hash-keyed map), rate bit patterns fit
64 bits, heights fit `int32`, the bins and the dropped lists reference
entries of the observed map (they hold pointers into it), and all counts
fit `uint32`. -/
structure SaveWF (ef : FeeEstimator Nat) : Prop where
  binLen : ef.bin.length = estimateFeeDepth
  hashNodup : (ef.observed.map (·.hash)).Nodup
  hashLen : ∀ o ∈ ef.observed, o.hash.length = 32
  rateFits : ∀ o ∈ ef.observed, o.feeRate < 2 ^ 64
  observedFits : ∀ o ∈ ef.observed, -(2 ^ 31) ≤ o.observed ∧ o.observed < 2 ^ 31
  minedFits : ∀ o ∈ ef.observed, -(2 ^ 31) ≤ o.mined ∧ o.mined < 2 ^ 31
  binMem : ∀ b ∈ ef.bin, ∀ o ∈ b, o ∈ ef.observed
  droppedMem : ∀ rb ∈ ef.dropped, ∀ o ∈ rb.transactions, o ∈ ef.observed
  droppedHashLen : ∀ rb ∈ ef.dropped, rb.hash.length = 32
  observedCount : ef.observed.length < 2 ^ 32
  binCount : ∀ b ∈ ef.bin, b.length < 2 ^ 32
  droppedCount : ef.dropped.length < 2 ^ 32
  droppedTxCount : ∀ rb ∈ ef.dropped, rb.transactions.length < 2 ^ 32

/-! ### Round-trip lemmas for the readers -/

theorem readU32_append (v : Nat) (rest : Bytes) :
    readU32 (u32be v ++ rest) = (v % 2 ^ 32, rest) := by
  rw [readU32, if_pos (by rw [List.length_append, u32be_length]; omega)]
  have h4 : (4 : Nat) = (u32be v).length := (u32be_length v).symm
  rw [h4, List.take_left, List.drop_left, beVal_u32be]

theorem readI32_append (v : Int) (rest : Bytes) :
    readI32 (i32be v ++ rest) = (i32val (i32be v), rest) := by
  rw [readI32, if_pos (by rw [List.length_append, i32be_length]; omega)]
  have h4 : (4 : Nat) = (i32be v).length := (i32be_length v).symm
  rw [h4, List.take_left, List.drop_left]

theorem readU64_append (v : Nat) (rest : Bytes) :
    readU64 (beBytes 8 v ++ rest) = (v % 2 ^ 64, rest) := by
  rw [readU64, if_pos (by rw [List.length_append, beBytes_length]; omega)]
  have ht : (beBytes 8 v ++ rest).take 8 = beBytes 8 v := by
    conv_lhs => rw [show (8 : Nat) = (beBytes 8 v).length from (beBytes_length 8 v).symm]
    exact List.take_left _ _
  have hd : (beBytes 8 v ++ rest).drop 8 = rest := by
    conv_lhs => rw [show (8 : Nat) = (beBytes 8 v).length from (beBytes_length 8 v).symm]
    exact List.drop_left _ _
  rw [ht, hd, beVal_beBytes]
  norm_num

theorem readHash_append (h : Bytes) (hlen : h.length = 32) (rest : Bytes) :
    readHash (h ++ rest) = (h, rest) := by
  rw [readHash, if_pos (by rw [List.length_append, hlen]; omega)]
  have h32 : (32 : Nat) = h.length := hlen.symm
  rw [h32, List.take_left, List.drop_left]

/-- Writing the truncated value produces the same bytes as writing the
original. -/
theorem beBytesAux_mod (n v : Nat) : beBytesAux n (v % 256 ^ n) = beBytesAux n v := by
  induction n generalizing v with
  | zero => rfl
  | succ n ih =>
      rw [beBytesAux, beBytesAux]
      have hdiv : v % 256 ^ (n + 1) / 256 = v / 256 % 256 ^ n := by
        rw [pow_succ' 256 n]
        exact Nat.mod_mul_right_div_self v 256 (256 ^ n)
      have hmod : v % 256 ^ (n + 1) % 256 = v % 256 :=
        Nat.mod_mod_of_dvd v (dvd_pow_self 256 (Nat.succ_ne_zero n))
      rw [hdiv, hmod, ih]

theorem u32be_mod (v : Nat) : u32be (v % 2 ^ 32) = u32be v := by
  have h : (2 : Nat) ^ 32 = 256 ^ 4 := by norm_num
  rw [u32be, u32be, beBytes, beBytes, h, beBytesAux_mod]

/-- Re-serializing a decoded `int32` produces the original four bytes. -/
theorem i32be_i32val (v : Int) : i32be (i32val (i32be v)) = i32be v := by
  apply i32be_congr
  rw [i32val, i32be, beBytes, beVal_beBytesAux]
  simp only [Nat.reducePow, Int.reducePow]
  split <;> omega

/-! ### Round-trip of the observed-transaction table -/

theorem deserializeObservedTransaction_append (o : ObservedTransaction Nat)
    (rest : Bytes) (h32 : o.hash.length = 32) (hfr : o.feeRate < 2 ^ 64)
    (hobs : -(2 ^ 31) ≤ o.observed ∧ o.observed < 2 ^ 31)
    (hmnd : -(2 ^ 31) ≤ o.mined ∧ o.mined < 2 ^ 31) :
    deserializeObservedTransaction (o.Serialize ++ rest) = (o, rest) := by
  rw [ObservedTransaction.Serialize, deserializeObservedTransaction]
  simp only [List.append_assoc]
  rw [readHash_append o.hash h32]
  simp only [readU64_append, readI32_append]
  rw [Nat.mod_eq_of_lt hfr, i32val_i32be hobs.1 hobs.2, i32val_i32be hmnd.1 hmnd.2]

theorem readObservedList_append (ots : List (ObservedTransaction Nat))
    (rest : Bytes)
    (h32 : ∀ o ∈ ots, o.hash.length = 32)
    (hfr : ∀ o ∈ ots, o.feeRate < 2 ^ 64)
    (hobs : ∀ o ∈ ots, -(2 ^ 31) ≤ o.observed ∧ o.observed < 2 ^ 31)
    (hmnd : ∀ o ∈ ots, -(2 ^ 31) ≤ o.mined ∧ o.mined < 2 ^ 31) :
    readObservedList ots.length
      ((ots.map ObservedTransaction.Serialize).flatten ++ rest) = (ots, rest) := by
  induction ots with
  | nil => rfl
  | cons o rest2 ih =>
      rw [List.length_cons, List.map_cons, List.flatten_cons, List.append_assoc,
        readObservedList]
      rw [deserializeObservedTransaction_append o _ (h32 o (by simp))
        (hfr o (by simp)) (hobs o (by simp)) (hmnd o (by simp))]
      rw [ih (fun o ho => h32 o (by simp [ho])) (fun o ho => hfr o (by simp [ho]))
        (fun o ho => hobs o (by simp [ho])) (fun o ho => hmnd o (by simp [ho]))]

/-- In a table with pairwise distinct hashes, the entry of a member is
found at a unique position. -/
theorem hashIdx_of_mem (ots : List (ObservedTransaction Nat))
    (hnd : (ots.map (·.hash)).Nodup) (o : ObservedTransaction Nat)
    (ho : o ∈ ots) :
    ∃ i, hashIdx ots o.hash = some i ∧ ots[i]? = some o ∧ i < ots.length := by
  induction ots with
  | nil => cases ho
  | cons t rest ih =>
      rw [List.map_cons, List.nodup_cons] at hnd
      rw [hashIdx]
      by_cases heq : t.hash = o.hash
      · refine ⟨0, by rw [if_pos heq], ?_, by simp⟩
        rcases List.mem_cons.mp ho with rfl | ho2
        · simp
        · exfalso
          exact hnd.1 (heq ▸ List.mem_map_of_mem (·.hash) ho2)
      · have ho2 : o ∈ rest := by
          rcases List.mem_cons.mp ho with rfl | ho2
          · exact absurd rfl heq
          · exact ho2
        rcases ih hnd.2 ho2 with ⟨i, h1, h2, h3⟩
        refine ⟨i + 1, ?_, ?_, by simp; omega⟩
        · rw [if_neg heq, h1]
          rfl
        · rw [List.getElem?_cons_succ]
          exact h2

theorem readBinIdxList_append (obs : List (ObservedTransaction Nat))
    (hnd : (obs.map (·.hash)).Nodup) (hcnt : obs.length < 2 ^ 32)
    (l : List (ObservedTransaction Nat)) (hl : ∀ o ∈ l, o ∈ obs)
    (rest : Bytes) :
    readBinIdxList obs l.length
      ((l.map (fun o => u32be (obsIndex obs o))).flatten ++ rest) =
      .ok (l, rest) := by
  induction l with
  | nil => rfl
  | cons o l2 ih =>
      rw [List.length_cons, List.map_cons, List.flatten_cons, List.append_assoc,
        readBinIdxList]
      rcases hashIdx_of_mem obs hnd o (hl o (by simp)) with ⟨i, h1, h2, h3⟩
      have hidx : obsIndex obs o = i := by rw [obsIndex, h1]; rfl
      rw [hidx, readU32_append, Nat.mod_eq_of_lt (by omega)]
      simp only [h2]
      rw [ih (fun o ho => hl o (by simp [ho]))]

theorem readBins_append (obs : List (ObservedTransaction Nat))
    (hnd : (obs.map (·.hash)).Nodup) (hcnt : obs.length < 2 ^ 32)
    (bs : List (List (ObservedTransaction Nat)))
    (hbs : ∀ b ∈ bs, ∀ o ∈ b, o ∈ obs)
    (hbc : ∀ b ∈ bs, b.length < 2 ^ 32) (rest : Bytes) :
    readBins obs bs.length
      ((bs.map (fun list => u32be list.length ++
        (list.map (fun o => u32be (obsIndex obs o))).flatten)).flatten ++ rest) =
      .ok (bs, rest) := by
  induction bs with
  | nil => rfl
  | cons b bs2 ih =>
      rw [List.length_cons, List.map_cons, List.flatten_cons, List.append_assoc,
        readBins, List.append_assoc, readU32_append,
        Nat.mod_eq_of_lt (hbc b (by simp))]
      rw [readBinIdxList_append obs hnd hcnt b (hbs b (by simp))]
      simp only
      rw [ih (fun b hb => hbs b (by simp [hb])) (fun b hb => hbc b (by simp [hb]))]

theorem readDroppedIdxList_append (obs : List (ObservedTransaction Nat))
    (hnd : (obs.map (·.hash)).Nodup) (hcnt : obs.length < 2 ^ 32)
    (l : List (ObservedTransaction Nat)) (hl : ∀ o ∈ l, o ∈ obs)
    (rest : Bytes) :
    readDroppedIdxList obs l.length
      ((l.map (fun o => u32be (obsIndex obs o))).flatten ++ rest) = (l, rest) := by
  induction l with
  | nil => rfl
  | cons o l2 ih =>
      rw [List.length_cons, List.map_cons, List.flatten_cons, List.append_assoc,
        readDroppedIdxList]
      rcases hashIdx_of_mem obs hnd o (hl o (by simp)) with ⟨i, h1, h2, h3⟩
      have hidx : obsIndex obs o = i := by rw [obsIndex, h1]; rfl
      rw [hidx, readU32_append, Nat.mod_eq_of_lt (by omega)]
      simp only [h2, Option.getD_some]
      rw [ih (fun o ho => hl o (by simp [ho]))]

theorem deserializeRegisteredBlock_append (obs : List (ObservedTransaction Nat))
    (hnd : (obs.map (·.hash)).Nodup) (hcnt : obs.length < 2 ^ 32)
    (rb : RegisteredBlock Nat) (hh : rb.hash.length = 32)
    (hm : ∀ o ∈ rb.transactions, o ∈ obs)
    (hc : rb.transactions.length < 2 ^ 32) (rest : Bytes) :
    deserializeRegisteredBlock obs (RegisteredBlock.serialize obs rb ++ rest) =
      (rb, rest) := by
  rw [RegisteredBlock.serialize, deserializeRegisteredBlock]
  simp only [List.append_assoc]
  rw [readHash_append rb.hash hh]
  simp only [readU32_append]
  rw [Nat.mod_eq_of_lt hc, readDroppedIdxList_append obs hnd hcnt _ hm]

theorem readDroppedList_append (obs : List (ObservedTransaction Nat))
    (hnd : (obs.map (·.hash)).Nodup) (hcnt : obs.length < 2 ^ 32)
    (ds : List (RegisteredBlock Nat))
    (hh : ∀ rb ∈ ds, rb.hash.length = 32)
    (hm : ∀ rb ∈ ds, ∀ o ∈ rb.transactions, o ∈ obs)
    (hc : ∀ rb ∈ ds, rb.transactions.length < 2 ^ 32) (rest : Bytes) :
    readDroppedList obs ds.length
      ((ds.map (RegisteredBlock.serialize obs)).flatten ++ rest) = (ds, rest) := by
  induction ds with
  | nil => rfl
  | cons rb ds2 ih =>
      rw [List.length_cons, List.map_cons, List.flatten_cons, List.append_assoc,
        readDroppedList]
      rw [deserializeRegisteredBlock_append obs hnd hcnt rb (hh rb (by simp))
        (hm rb (by simp)) (hc rb (by simp))]
      rw [ih (fun rb h => hh rb (by simp [h])) (fun rb h => hm rb (by simp [h]))
        (fun rb h => hc rb (by simp [h]))]

theorem obsLe_trans (a b c : ObservedTransaction Nat)
    (hab : obsLe a b = true) (hbc : obsLe b c = true) : obsLe a c = true := by
  simp only [obsLe, decide_eq_true_iff] at *
  exact le_trans hab hbc

theorem obsLe_total (a b : ObservedTransaction Nat) :
    obsLe a b = true ∨ obsLe b a = true := by
  simp only [obsLe, decide_eq_true_iff]
  exact le_total _ _

set_option maxHeartbeats 1600000 in
/-- C2: for every well-formed fee-estimator state, serializing it with
`Save`, restoring the resulting bytes with `RestoreFeeEstimator`, and
calling `Save` again yields exactly the same byte sequence as the first
`Save`.  (`Save` writes the observed transactions sorted by hash, which
is what makes the output byte-deterministic despite Go's randomized map
iteration order.) -/
theorem c2_Save_Restore_Save (ef : FeeEstimator Nat) (h : SaveWF ef) :
    ∃ ef2, RestoreFeeEstimator ef.Save = .ok ef2 ∧ ef2.Save = ef.Save := by
  have hperm : List.Perm (sortBy obsLe ef.observed) ef.observed :=
    sortBy_perm obsLe ef.observed
  have hmem : ∀ o ∈ sortBy obsLe ef.observed, o ∈ ef.observed :=
    fun o ho => hperm.mem_iff.mp ho
  have hmem2 : ∀ o ∈ ef.observed, o ∈ sortBy obsLe ef.observed :=
    fun o ho => hperm.mem_iff.mpr ho
  have hlen : (sortBy obsLe ef.observed).length = ef.observed.length :=
    hperm.length_eq
  have hnd : ((sortBy obsLe ef.observed).map (·.hash)).Nodup :=
    ((hperm.map (·.hash)).nodup_iff).mpr h.hashNodup
  have hcnt : (sortBy obsLe ef.observed).length < 2 ^ 32 := by
    rw [hlen]; exact h.observedCount
  refine ⟨{ maxRollback := ef.maxRollback % 2 ^ 32
            binSize := i32val (i32be ef.binSize)
            maxReplacements := i32val (i32be ef.maxReplacements)
            minRegisteredBlocks := ef.minRegisteredBlocks % 2 ^ 32
            lastKnownHeight := i32val (i32be ef.lastKnownHeight)
            numBlocksRegistered := ef.numBlocksRegistered % 2 ^ 32
            observed := sortBy obsLe ef.observed
            bin := ef.bin
            cached := none
            dropped := ef.dropped }, ?_, ?_⟩
  · rw [FeeEstimator.Save]
    simp only [List.append_assoc]
    rw [RestoreFeeEstimator]
    rw [if_neg (by rw [List.length_append, u32be_length]; omega)]
    rw [readU32_append,
      Nat.mod_eq_of_lt (show estimateFeeSaveVersion < 2 ^ 32 by decide)]
    dsimp only
    rw [if_neg (by simp)]
    rw [readU32_append]
    dsimp only
    rw [readI32_append]
    dsimp only
    rw [readI32_append]
    dsimp only
    rw [readU32_append]
    dsimp only
    rw [readI32_append]
    dsimp only
    rw [readU32_append]
    dsimp only
    rw [readU32_append]
    dsimp only
    rw [Nat.mod_eq_of_lt h.observedCount]
    rw [show ef.observed.length = (sortBy obsLe ef.observed).length from hlen.symm]
    rw [readObservedList_append _ _
      (fun o ho => h.hashLen o (hmem o ho))
      (fun o ho => h.rateFits o (hmem o ho))
      (fun o ho => h.observedFits o (hmem o ho))
      (fun o ho => h.minedFits o (hmem o ho))]
    dsimp only
    rw [show estimateFeeDepth = ef.bin.length from h.binLen.symm]
    rw [readBins_append _ hnd hcnt ef.bin
      (fun b hb o ho => hmem2 o (h.binMem b hb o ho)) h.binCount]
    dsimp only
    rw [readU32_append]
    dsimp only
    rw [Nat.mod_eq_of_lt h.droppedCount]
    rw [show ((ef.dropped.map (RegisteredBlock.serialize (sortBy obsLe ef.observed))).flatten : Bytes) =
      (ef.dropped.map (RegisteredBlock.serialize (sortBy obsLe ef.observed))).flatten ++ []
      from (List.append_nil _).symm]
    rw [readDroppedList_append _ hnd hcnt ef.dropped h.droppedHashLen
      (fun rb hrb o ho => hmem2 o (h.droppedMem rb hrb o ho)) h.droppedTxCount]
  · have hsort2 : sortBy obsLe (sortBy obsLe ef.observed) = sortBy obsLe ef.observed :=
      sortBy_of_sorted (sortBy_pairwise obsLe_trans obsLe_total ef.observed)
    rw [FeeEstimator.Save, FeeEstimator.Save]
    simp only [hsort2, u32be_mod, i32be_i32val, hlen]

/-- A concrete two-transaction estimator state with a binned transaction
and a dropped-block record, used by the C2 witness. -/
def c2ef : FeeEstimator Nat :=
  { maxRollback := 2
    binSize := 100
    maxReplacements := 10
    minRegisteredBlocks := 3
    lastKnownHeight := 7
    numBlocksRegistered := 4
    observed := [⟨List.replicate 31 0 ++ [2], 77, 5, 7⟩,
                 ⟨List.replicate 31 0 ++ [1], 88, 6, 0x7fffffff⟩]
    bin := [⟨List.replicate 31 0 ++ [2], 77, 5, 7⟩] :: List.replicate 24 []
    cached := none
    dropped := [⟨List.replicate 32 3, [⟨List.replicate 31 0 ++ [2], 77, 5, 7⟩]⟩] }

/-- C2 witness: the round-trip theorem applied to the concrete state. -/
theorem c2_Save_Restore_Save_witness :
    (c2ef.bin.length = estimateFeeDepth ∧
     (c2ef.observed.map (·.hash)).Nodup ∧
     (∀ o ∈ c2ef.observed, o.hash.length = 32) ∧
     (∀ b ∈ c2ef.bin, ∀ o ∈ b, o ∈ c2ef.observed) ∧
     (∀ rb ∈ c2ef.dropped, ∀ o ∈ rb.transactions, o ∈ c2ef.observed)) ∧
    (∃ ef2, RestoreFeeEstimator c2ef.Save = .ok ef2 ∧ ef2.Save = c2ef.Save) :=
  ⟨⟨by decide, by decide, by decide, by decide, by decide⟩,
    c2_Save_Restore_Save c2ef
      ⟨by decide, by decide, by decide, by decide, by decide, by decide,
       by decide, by decide, by decide, by decide, by decide, by decide,
       by decide⟩⟩

end Mempool

namespace Waddrmgr

/-! ## Address-manager database (`pkg/waddrmgr/db.go`)

The walletdb bucketed key/value store is modelled as a tree of
association lists: an entry under a key is either a value (a byte slice)
or a nested bucket.  The reference implementation (bolt) iterates keys
in sorted order; the model keeps list order — the theorems below only
use buckets through lookups and per-entry transformations, which are
order-independent.  Little-endian encodings follow `uint32ToBytes` and
friends. -/

/-- An entry of a bucket: a value or a nested bucket. -/
inductive BEntry where
  | val (v : Bytes)
  | bkt (b : List (Bytes × BEntry))

/-- A bucket: an association list from keys to entries. -/
abbrev Bucket := List (Bytes × BEntry)

/-- Look up the entry stored under a key (first match). -/
def bget (b : Bucket) (k : Bytes) : Option BEntry :=
  match b with
  | [] => none
  | (k2, e) :: rest => if k2 = k then some e else bget rest k

/-- Bolt `Get`: the value under a key, `nil` for a missing key or a
nested bucket. -/
def getVal (b : Bucket) (k : Bytes) : Option Bytes :=
  match bget b k with
  | some (.val v) => some v
  | _ => none

/-- Bolt `NestedBucket`: the nested bucket under a key, `nil` for a
missing key or a plain value. -/
def nestedBucket (b : Bucket) (k : Bytes) : Option Bucket :=
  match bget b k with
  | some (.bkt c) => some c
  | _ => none

/-- Bolt `Put`/bucket write: replace the entry under the key, or append a
new entry.  (Bolt's `Put` refuses to overwrite a nested bucket; none of
the modelled call sites do that on the states the theorems quantify
over.) -/
def bput (b : Bucket) (k : Bytes) (e : BEntry) : Bucket :=
  match b with
  | [] => [(k, e)]
  | (k2, e2) :: rest => if k2 = k then (k, e) :: rest else (k2, e2) :: bput rest k e

/-- Bolt `Delete`: remove the entry under the key; no-op when absent.
(Bolt's `Delete` refuses to delete a nested bucket; none of the modelled
call sites do that on the states the theorems quantify over.) -/
def bdel (b : Bucket) (k : Bytes) : Bucket :=
  match b with
  | [] => []
  | (k2, e2) :: rest => if k2 = k then rest else (k2, e2) :: bdel rest k

/-- Bolt `CreateBucket`: fails if the key exists (as value or bucket). -/
def createBucket (b : Bucket) (k : Bytes) : Except String Bucket :=
  match bget b k with
  | some _ => .error "bucket already exists"
  | none => .ok (b ++ [(k, .bkt [])])

/-- Follow a path of nested buckets. -/
def getPath (b : Bucket) (path : List Bytes) : Option Bucket :=
  match path with
  | [] => some b
  | k :: rest =>
    match nestedBucket b k with
    | some c => getPath c rest
    | none => none

/-- The value under key `k` of the bucket at `path`. -/
def getPathVal (b : Bucket) (path : List Bytes) (k : Bytes) : Option Bytes :=
  match getPath b path with
  | some c => getVal c k
  | none => none

/-- Modify the bucket at a path; error when the path is missing (the Go
code dereferences a nil bucket handle there and panics). -/
def modifyNested (b : Bucket) (path : List Bytes)
    (f : Bucket → Except String Bucket) : Except String Bucket :=
  match path with
  | [] => f b
  | k :: rest =>
    match bget b k with
    | some (.bkt c) =>
      match modifyNested c rest f with
      | .error e => .error e
      | .ok c2 => .ok (bput b k (.bkt c2))
    | _ => .error "bucket not found"

/-- Put a value under key `k` of the bucket at `path`. -/
def putPathVal (b : Bucket) (path : List Bytes) (k : Bytes) (v : Bytes) :
    Except String Bucket :=
  modifyNested b path (fun c => .ok (bput c k (.val v)))

/-- Delete key `k` of the bucket at `path`. -/
def delPathKey (b : Bucket) (path : List Bytes) (k : Bytes) :
    Except String Bucket :=
  modifyNested b path (fun c => .ok (bdel c k))

/-- The model of `walletdb.Update`: the new state on success, the
unchanged state when the closure returns an error (transaction
rollback). -/
def runUpdate (f : Bucket → Except String Bucket) (ns : Bucket) : Bucket :=
  match f ns with
  | .ok ns2 => ns2
  | .error _ => ns

/-! ### Key names (`db.go` constants), as UTF-8 bytes -/

/-- Byte representation of a Go string literal key. -/
def strBytes (s : String) : Bytes := s.data.map (fun c => c.toNat)

def scopeSchemaBucketName : Bytes := strBytes "scope-schema"
def scopeBucketName : Bytes := strBytes "scope"
def coinTypePrivKeyName : Bytes := strBytes "ctpriv"
def coinTypePubKeyName : Bytes := strBytes "ctpub"
def acctBucketName : Bytes := strBytes "acct"
def addrBucketName : Bytes := strBytes "addr"
def addrAcctIdxBucketName : Bytes := strBytes "addracctidx"
def acctNameIdxBucketName : Bytes := strBytes "acctnameidx"
def acctIDIdxBucketName : Bytes := strBytes "acctididx"
def usedAddrBucketName : Bytes := strBytes "usedaddrs"
def metaBucketName : Bytes := strBytes "meta"
def lastAccountName : Bytes := strBytes "lastaccount"
def mainBucketName : Bytes := strBytes "main"
def masterHDPrivName : Bytes := strBytes "mhdpriv"
def syncBucketName : Bytes := strBytes "sync"
def mgrVersionName : Bytes := strBytes "mgrver"
def masterPrivKeyName : Bytes := strBytes "mpriv"
def cryptoPrivKeyName : Bytes := strBytes "cpriv"
def cryptoScriptKeyName : Bytes := strBytes "cscript"

/-- The address-type constants `adtChain`, `adtImport`, `adtScript`. -/
def adtChain : Nat := 0

def adtImport : Nat := 1

def adtScript : Nat := 2

/-- The account-type constant `accountDefault`. -/
def accountDefault : Nat := 0

/-! ### Little-endian encodings -/

/-- Little-endian bytes, least significant first. -/
def leBytesAux : Nat → Nat → Bytes
  | 0, _ => []
  | n + 1, v => v % 256 :: leBytesAux n (v / 256)

/-- The function `uint32ToBytes` (4 bytes little-endian). -/
def uint32ToBytes (v : Nat) : Bytes := leBytesAux 4 v

/-- 8 bytes little-endian (`binary.LittleEndian.PutUint64`). -/
def uint64ToBytes (v : Nat) : Bytes := leBytesAux 8 v

/-- Decode little-endian bytes. -/
def leVal (b : Bytes) : Nat := b.foldr (fun d acc => acc * 256 + d) 0

theorem leBytesAux_length (n v : Nat) : (leBytesAux n v).length = n := by
  induction n generalizing v with
  | zero => rfl
  | succ n ih => simp [leBytesAux, ih]

theorem leVal_leBytesAux (n v : Nat) : leVal (leBytesAux n v) = v % 256 ^ n := by
  induction n generalizing v with
  | zero => simp [leBytesAux, leVal, Nat.mod_one]
  | succ n ih =>
      have hfold : leVal (v % 256 :: leBytesAux n (v / 256)) =
          leVal (leBytesAux n (v / 256)) * 256 + v % 256 := rfl
      rw [leBytesAux, hfold, ih, Nat.pow_succ]
      have hq : v / 256 % 256 ^ n * 256 = v / 256 * 256 % (256 ^ n * 256) :=
        (Nat.mul_mod_mul_right 256 (v / 256) (256 ^ n)).symm
      have hr : v % 256 < 256 ^ n * 256 := by
        have h1 : v % 256 < 256 := Nat.mod_lt _ (by norm_num)
        have h2 : (256 : Nat) ≤ 256 ^ n * 256 :=
          Nat.le_mul_of_pos_left 256 (Nat.pos_pow_of_pos n (by norm_num))
        omega
      have hlt : v / 256 % 256 ^ n * 256 + v % 256 < 256 ^ n * 256 := by
        have h1 : v / 256 % 256 ^ n < 256 ^ n :=
          Nat.mod_lt _ (Nat.pos_pow_of_pos n (by norm_num))
        have h2 : v / 256 % 256 ^ n * 256 ≤ (256 ^ n - 1) * 256 :=
          Nat.mul_le_mul_right 256 (by omega)
        have h3 : v % 256 < 256 := Nat.mod_lt _ (by norm_num)
        have h5 : 1 ≤ 256 ^ n := Nat.pos_pow_of_pos n (by norm_num)
        have key : ∀ A B r : Nat,
            A * 256 ≤ (B - 1) * 256 → r < 256 → 1 ≤ B → A * 256 + r < B * 256 := by
          intro A B r hA hrr hB
          omega
        exact key _ _ _ h2 h3 h5
      calc v / 256 % 256 ^ n * 256 + v % 256
          = (v / 256 % 256 ^ n * 256 + v % 256) % (256 ^ n * 256) :=
            (Nat.mod_eq_of_lt hlt).symm
        _ = (v / 256 * 256 % (256 ^ n * 256) + v % 256 % (256 ^ n * 256)) %
              (256 ^ n * 256) := by
            rw [← hq, Nat.mod_eq_of_lt hr]
        _ = (v / 256 * 256 + v % 256) % (256 ^ n * 256) := (Nat.add_mod _ _ _).symm
        _ = v % (256 ^ n * 256) := by
            have : v / 256 * 256 + v % 256 = v := by
              have := Nat.div_add_mod v 256
              omega
            rw [this]

theorem uint32ToBytes_length (v : Nat) : (uint32ToBytes v).length = 4 :=
  leBytesAux_length 4 v

theorem leVal_uint32ToBytes {v : Nat} (h : v < 2 ^ 32) :
    leVal (uint32ToBytes v) = v := by
  rw [uint32ToBytes, leVal_leBytesAux]
  have h4 : (256 : Nat) ^ 4 = 2 ^ 32 := by norm_num
  rw [h4]
  exact Nat.mod_eq_of_lt h

/-! ### Cursor readers

Go reads fields by slicing (`buf[a:b]`); a slice beyond the buffer
panics.  The readers return `none` there; the explicit length guards of
the Go code are kept as explicit checks in the deserializers. -/

/-- Read exactly `n` bytes; `none` models the Go slicing panic. -/
def readBytesN (n : Nat) (b : Bytes) : Option (Bytes × Bytes) :=
  if n ≤ b.length then some (b.take n, b.drop n) else none

/-- Read a little-endian `uint32`. -/
def readLE32 (b : Bytes) : Option (Nat × Bytes) :=
  match readBytesN 4 b with
  | some (x, r) => some (leVal x, r)
  | none => none

/-- Read a little-endian `uint64`. -/
def readLE64 (b : Bytes) : Option (Nat × Bytes) :=
  match readBytesN 8 b with
  | some (x, r) => some (leVal x, r)
  | none => none

theorem readBytesN_append (x rest : Bytes) :
    readBytesN x.length (x ++ rest) = some (x, rest) := by
  rw [readBytesN, if_pos (by rw [List.length_append]; omega),
    List.take_left, List.drop_left]

theorem readBytesN_append_of_len {n : Nat} (x rest : Bytes) (h : x.length = n) :
    readBytesN n (x ++ rest) = some (x, rest) := by
  subst h
  exact readBytesN_append x rest

theorem readLE32_append {v : Nat} (h : v < 2 ^ 32) (rest : Bytes) :
    readLE32 (uint32ToBytes v ++ rest) = some (v, rest) := by
  rw [readLE32, readBytesN_append_of_len _ _ (uint32ToBytes_length v)]
  dsimp only
  rw [leVal_uint32ToBytes h]

/-! ### Database rows (`db.go`) -/

/-- The struct `dbAccountRow`. -/
structure DbAccountRow where
  acctType : Nat
  rawData : Bytes
deriving DecidableEq

/-- The struct `dbDefaultAccountRow` (the extra fields beyond the base
row). -/
structure DbDefaultAccountRow where
  pubKeyEncrypted : Bytes
  privKeyEncrypted : Bytes
  nextExternalIndex : Nat
  nextInternalIndex : Nat
  name : Bytes
deriving DecidableEq

/-- The struct `dbAddressRow`. -/
structure DbAddressRow where
  addrType : Nat
  account : Nat
  addTime : Nat
  syncStatus : Nat
  rawData : Bytes
deriving DecidableEq

/-- The struct `dbImportedAddressRow` (extra fields). -/
structure DbImportedAddressRow where
  encryptedPubKey : Bytes
  encryptedPrivKey : Bytes
deriving DecidableEq

/-- The struct `dbScriptAddressRow` (extra fields). -/
structure DbScriptAddressRow where
  encryptedHash : Bytes
  encryptedScript : Bytes
deriving DecidableEq

/-- The function `serializeAccountRow`:
`<acctType><rdlen><rawdata>`. -/
def serializeAccountRow (row : DbAccountRow) : Bytes :=
  row.acctType % 256 :: (uint32ToBytes row.rawData.length ++ row.rawData)

/-- The function `deserializeAccountRow` (the account id argument is only
used in Go's error text and is dropped). -/
def deserializeAccountRow (serializedAccount : Bytes) :
    Except String DbAccountRow :=
  if serializedAccount.length < 5 then .error "malformed serialized account"
  else
    match readLE32 (serializedAccount.drop 1) with
    | none => .error "panic: slice bounds out of range"
    | some (rdlen, r) =>
      match readBytesN rdlen r with
      | none => .error "panic: slice bounds out of range"
      | some (rd, _) => .ok ⟨serializedAccount.headD 0, rd⟩

/-- The function `serializeDefaultAccountRow`:
`<encpubkeylen><encpubkey><encprivkeylen><encprivkey><nextextidx>
<nextintidx><namelen><name>`. -/
def serializeDefaultAccountRow (encryptedPubKey encryptedPrivKey : Bytes)
    (nextExternalIndex nextInternalIndex : Nat) (name : Bytes) : Bytes :=
  uint32ToBytes encryptedPubKey.length ++ encryptedPubKey ++
  uint32ToBytes encryptedPrivKey.length ++ encryptedPrivKey ++
  uint32ToBytes nextExternalIndex ++ uint32ToBytes nextInternalIndex ++
  uint32ToBytes name.length ++ name

/-- The field reads of `deserializeDefaultAccountRow`. -/
def parseDefaultAccountRow (rd : Bytes) : Option DbDefaultAccountRow :=
  (readLE32 rd).bind fun p1 =>
  (readBytesN p1.1 p1.2).bind fun p2 =>
  (readLE32 p2.2).bind fun p3 =>
  (readBytesN p3.1 p3.2).bind fun p4 =>
  (readLE32 p4.2).bind fun p5 =>
  (readLE32 p5.2).bind fun p6 =>
  (readLE32 p6.2).bind fun p7 =>
  (readBytesN p7.1 p7.2).bind fun p8 =>
  some ⟨p2.1, p4.1, p5.1, p6.1, p8.1⟩

/-- The function `deserializeDefaultAccountRow`. -/
def deserializeDefaultAccountRow (row : DbAccountRow) :
    Except String DbDefaultAccountRow :=
  if row.rawData.length < 20 then .error "malformed serialized bip0044 account"
  else
    match parseDefaultAccountRow row.rawData with
    | some r => .ok r
    | none => .error "panic: slice bounds out of range"

/-- The function `serializeAddressRow`:
`<addrType><account><addedTime><syncStatus><rawdatalen><rawdata>`. -/
def serializeAddressRow (row : DbAddressRow) : Bytes :=
  row.addrType % 256 ::
    (uint32ToBytes row.account ++ uint64ToBytes row.addTime ++
      [row.syncStatus % 256] ++ uint32ToBytes row.rawData.length ++ row.rawData)

/-- The function `deserializeAddressRow`. -/
def deserializeAddressRow (serializedAddress : Bytes) :
    Except String DbAddressRow :=
  if serializedAddress.length < 18 then .error "malformed serialized address"
  else
    match readLE32 (serializedAddress.drop 1) with
    | none => .error "panic: slice bounds out of range"
    | some (account, r1) =>
      match readLE64 r1 with
      | none => .error "panic: slice bounds out of range"
      | some (addTime, r2) =>
        match readLE32 (r2.drop 1) with
        | none => .error "panic: slice bounds out of range"
        | some (rdlen, r3) =>
          match readBytesN rdlen r3 with
          | none => .error "panic: slice bounds out of range"
          | some (rd, _) =>
            .ok ⟨serializedAddress.headD 0, account, addTime, r2.headD 0, rd⟩

/-- The function `serializeImportedAddress`:
`<encpubkeylen><encpubkey><encprivkeylen><encprivkey>`. -/
def serializeImportedAddress (encryptedPubKey encryptedPrivKey : Bytes) : Bytes :=
  uint32ToBytes encryptedPubKey.length ++ encryptedPubKey ++
  uint32ToBytes encryptedPrivKey.length ++ encryptedPrivKey

/-- The field reads of `deserializeImportedAddress`. -/
def parseTwoSlices (rd : Bytes) : Option (Bytes × Bytes) :=
  (readLE32 rd).bind fun p1 =>
  (readBytesN p1.1 p1.2).bind fun p2 =>
  (readLE32 p2.2).bind fun p3 =>
  (readBytesN p3.1 p3.2).bind fun p4 =>
  some (p2.1, p4.1)

/-- The function `deserializeImportedAddress`. -/
def deserializeImportedAddress (row : DbAddressRow) :
    Except String DbImportedAddressRow :=
  if row.rawData.length < 8 then .error "malformed serialized imported address"
  else
    match parseTwoSlices row.rawData with
    | some p => .ok ⟨p.1, p.2⟩
    | none => .error "panic: slice bounds out of range"

/-- The function `serializeScriptAddress`:
`<encscripthashlen><encscripthash><encscriptlen><encscript>`. -/
def serializeScriptAddress (encryptedHash encryptedScript : Bytes) : Bytes :=
  uint32ToBytes encryptedHash.length ++ encryptedHash ++
  uint32ToBytes encryptedScript.length ++ encryptedScript

/-- The function `deserializeScriptAddress`. -/
def deserializeScriptAddress (row : DbAddressRow) :
    Except String DbScriptAddressRow :=
  if row.rawData.length < 8 then .error "malformed serialized script address"
  else
    match parseTwoSlices row.rawData with
    | some p => .ok ⟨p.1, p.2⟩
    | none => .error "panic: slice bounds out of range"

/-! ### Serialization round-trips -/

theorem readBytesN_self (x : Bytes) : readBytesN x.length x = some (x, []) := by
  have h := readBytesN_append x []
  rwa [List.append_nil] at h

theorem readLE64_append {v : Nat} (h : v < 2 ^ 64) (rest : Bytes) :
    readLE64 (uint64ToBytes v ++ rest) = some (v, rest) := by
  rw [readLE64, uint64ToBytes,
    readBytesN_append_of_len _ _ (leBytesAux_length 8 v)]
  dsimp only
  rw [leVal_leBytesAux]
  have h8 : (256 : Nat) ^ 8 = 2 ^ 64 := by norm_num
  rw [h8, Nat.mod_eq_of_lt h]

theorem deserializeAccountRow_serialize (row : DbAccountRow)
    (ht : row.acctType < 256) (hlen : row.rawData.length < 2 ^ 32) :
    deserializeAccountRow (serializeAccountRow row) = .ok row := by
  rw [serializeAccountRow, deserializeAccountRow]
  rw [if_neg (by
    simp only [List.length_cons, List.length_append, uint32ToBytes_length]
    omega)]
  have hdrop : (row.acctType % 256 ::
      (uint32ToBytes row.rawData.length ++ row.rawData)).drop 1 =
      uint32ToBytes row.rawData.length ++ row.rawData := rfl
  rw [hdrop, readLE32_append hlen]
  dsimp only
  rw [readBytesN_self]
  dsimp only
  rw [List.headD_cons, Nat.mod_eq_of_lt ht]

theorem parseDefaultAccountRow_serialize (pub priv : Bytes)
    (ext int : Nat) (name : Bytes)
    (hp : pub.length < 2 ^ 32) (hv : priv.length < 2 ^ 32)
    (hext : ext < 2 ^ 32) (hint : int < 2 ^ 32) (hn : name.length < 2 ^ 32) :
    parseDefaultAccountRow (serializeDefaultAccountRow pub priv ext int name) =
      some ⟨pub, priv, ext, int, name⟩ := by
  rw [serializeDefaultAccountRow, parseDefaultAccountRow]
  simp only [List.append_assoc]
  simp only [readLE32_append hp, readLE32_append hv, readLE32_append hext,
    readLE32_append hint, readLE32_append hn, readBytesN_append,
    readBytesN_self, Option.some_bind]

theorem deserializeDefaultAccountRow_serialize (t : Nat) (pub priv : Bytes)
    (ext int : Nat) (name : Bytes)
    (hp : pub.length < 2 ^ 32) (hv : priv.length < 2 ^ 32)
    (hext : ext < 2 ^ 32) (hint : int < 2 ^ 32) (hn : name.length < 2 ^ 32) :
    deserializeDefaultAccountRow
      ⟨t, serializeDefaultAccountRow pub priv ext int name⟩ =
      .ok ⟨pub, priv, ext, int, name⟩ := by
  rw [deserializeDefaultAccountRow]
  rw [if_neg (by
    simp only [serializeDefaultAccountRow, List.length_append,
      uint32ToBytes_length]
    omega)]
  dsimp only
  rw [parseDefaultAccountRow_serialize pub priv ext int name hp hv hext hint hn]

theorem deserializeAddressRow_serialize (row : DbAddressRow)
    (ht : row.addrType < 256) (hacct : row.account < 2 ^ 32)
    (htime : row.addTime < 2 ^ 64) (hss : row.syncStatus < 256)
    (hlen : row.rawData.length < 2 ^ 32) :
    deserializeAddressRow (serializeAddressRow row) = .ok row := by
  rw [serializeAddressRow, deserializeAddressRow]
  rw [if_neg (by
    simp only [List.length_cons, List.length_append, uint32ToBytes_length,
      uint64ToBytes, leBytesAux_length, List.length_singleton]
    omega)]
  have hdrop : (row.addrType % 256 ::
      (uint32ToBytes row.account ++ uint64ToBytes row.addTime ++
        [row.syncStatus % 256] ++ uint32ToBytes row.rawData.length ++
        row.rawData)).drop 1 =
      uint32ToBytes row.account ++ (uint64ToBytes row.addTime ++
        ([row.syncStatus % 256] ++ (uint32ToBytes row.rawData.length ++
          row.rawData))) := by
    simp [List.append_assoc]
  rw [hdrop, readLE32_append hacct]
  dsimp only
  rw [readLE64_append htime]
  dsimp only
  have hdrop2 : (([row.syncStatus % 256] ++ (uint32ToBytes row.rawData.length ++
      row.rawData)) : Bytes).drop 1 =
      uint32ToBytes row.rawData.length ++ row.rawData := rfl
  rw [hdrop2, readLE32_append hlen]
  dsimp only
  rw [readBytesN_self]
  dsimp only
  rw [List.headD_cons, Nat.mod_eq_of_lt ht]
  have hheadss : (([row.syncStatus % 256] ++ (uint32ToBytes row.rawData.length ++
      row.rawData)) : Bytes).headD 0 = row.syncStatus % 256 := rfl
  rw [hheadss, Nat.mod_eq_of_lt hss]

theorem parseTwoSlices_serialize (a b : Bytes)
    (ha : a.length < 2 ^ 32) (hb : b.length < 2 ^ 32) :
    parseTwoSlices (uint32ToBytes a.length ++ a ++
      uint32ToBytes b.length ++ b) = some (a, b) := by
  rw [parseTwoSlices]
  simp only [List.append_assoc]
  simp only [readLE32_append ha, readLE32_append hb, readBytesN_append,
    readBytesN_self, Option.some_bind]

theorem deserializeImportedAddress_serialize (row : DbAddressRow)
    (pub priv : Bytes) (hrd : row.rawData = serializeImportedAddress pub priv)
    (ha : pub.length < 2 ^ 32) (hb : priv.length < 2 ^ 32) :
    deserializeImportedAddress row = .ok ⟨pub, priv⟩ := by
  rw [deserializeImportedAddress, hrd]
  rw [if_neg (by
    simp only [serializeImportedAddress, List.length_append, uint32ToBytes_length]
    omega)]
  rw [serializeImportedAddress, parseTwoSlices_serialize pub priv ha hb]

theorem deserializeScriptAddress_serialize (row : DbAddressRow)
    (hsh scr : Bytes) (hrd : row.rawData = serializeScriptAddress hsh scr)
    (ha : hsh.length < 2 ^ 32) (hb : scr.length < 2 ^ 32) :
    deserializeScriptAddress row = .ok ⟨hsh, scr⟩ := by
  rw [deserializeScriptAddress, hrd]
  rw [if_neg (by
    simp only [serializeScriptAddress, List.length_append, uint32ToBytes_length]
    omega)]
  rw [serializeScriptAddress, parseTwoSlices_serialize hsh scr ha hb]

/-! ### Bucket algebra -/

theorem bget_bput_self (b : Bucket) (k : Bytes) (e : BEntry) :
    bget (bput b k e) k = some e := by
  induction b with
  | nil => simp [bput, bget]
  | cons p rest ih =>
      rw [bput]
      split
      · rw [bget, if_pos rfl]
      · rename_i hne
        rw [bget, if_neg hne, ih]

theorem bget_bput_ne (b : Bucket) (k k2 : Bytes) (e : BEntry) (h : k ≠ k2) :
    bget (bput b k e) k2 = bget b k2 := by
  induction b with
  | nil => simp [bput, bget, h]
  | cons p rest ih =>
      rw [bput]
      split
      · rename_i heq
        rw [bget, bget, if_neg h, if_neg (by rw [heq]; exact h)]
      · rw [bget, bget, ih]

theorem bget_bdel_ne (b : Bucket) (k k2 : Bytes) (h : k ≠ k2) :
    bget (bdel b k) k2 = bget b k2 := by
  induction b with
  | nil => rfl
  | cons p rest ih =>
      rw [bdel]
      split
      · rename_i heq
        rw [bget, if_neg (by rw [heq]; exact h)]
      · rw [bget, bget, ih]

theorem bget_mem_keys {b : Bucket} {k : Bytes} {e : BEntry}
    (h : bget b k = some e) : k ∈ b.map Prod.fst := by
  induction b with
  | nil => cases h
  | cons p rest ih =>
      rw [bget] at h
      split at h
      · rename_i heq
        exact List.mem_map.mpr ⟨p, List.mem_cons_self p rest, heq⟩
      · exact List.mem_cons_of_mem _ (ih h)

theorem keys_bdel_sublist (b : Bucket) (k : Bytes) :
    List.Sublist ((bdel b k).map Prod.fst) (b.map Prod.fst) := by
  induction b with
  | nil => simp [bdel]
  | cons p rest ih =>
      rw [bdel]
      split
      · simp
      · rw [List.map_cons, List.map_cons]
        exact List.Sublist.cons₂ _ ih

theorem keys_bput_of_mem (b : Bucket) (k : Bytes) (e : BEntry)
    (h : k ∈ b.map Prod.fst) :
    (bput b k e).map Prod.fst = b.map Prod.fst := by
  induction b with
  | nil => cases h
  | cons p rest ih =>
      rw [bput]
      split
      · rename_i heq
        rw [List.map_cons, List.map_cons, heq]
      · rename_i hne
        have h2 : k = p.1 ∨ k ∈ rest.map Prod.fst := by
          rw [List.map_cons] at h
          exact List.mem_cons.mp h
        have hmem2 : k ∈ rest.map Prod.fst := by
          rcases h2 with h2 | h2
          · exact absurd h2.symm hne
          · exact h2
        rw [List.map_cons, List.map_cons, ih hmem2]

theorem bput_eq_map_of_nodup (b : Bucket) (k : Bytes) (e2 : BEntry)
    (hmem : k ∈ b.map Prod.fst) (hnd : (b.map Prod.fst).Nodup) :
    bput b k e2 = b.map (fun p => (p.1, if p.1 = k then e2 else p.2)) := by
  induction b with
  | nil => cases hmem
  | cons p rest ih =>
      rw [List.map_cons, List.nodup_cons] at hnd
      rw [bput, List.map_cons]
      split
      · rename_i heq
        rw [heq]
        congr 1
        symm
        have hrest : ∀ q ∈ rest,
            (fun p => ((p.1 : Bytes), if p.1 = k then e2 else p.2)) q = id q := by
          intro q hq
          have hq1 : q.1 ≠ k := by
            intro hc
            rw [← heq] at hc
            exact hnd.1 (hc ▸ List.mem_map_of_mem Prod.fst hq)
          simp [hq1]
        rw [List.map_congr_left hrest, List.map_id]
      · rename_i hne
        have h2 : k = p.1 ∨ k ∈ rest.map Prod.fst := by
          rw [List.map_cons] at hmem
          exact List.mem_cons.mp hmem
        have hmem2 : k ∈ rest.map Prod.fst := by
          rcases h2 with h2 | h2
          · exact absurd h2.symm hne
          · exact h2
        rw [ih hmem2 hnd.2]

theorem bget_mapEntries (g : Bytes → BEntry → BEntry) (b : Bucket) (k : Bytes) :
    bget (b.map (fun p => (p.1, g p.1 p.2))) k = (bget b k).map (g k) := by
  induction b with
  | nil => rfl
  | cons p rest ih =>
      rw [List.map_cons, bget, bget]
      split
      · rename_i heq
        rw [heq]
        rfl
      · exact ih

theorem keys_mapEntries (g : Bytes → BEntry → BEntry) (b : Bucket) :
    (b.map (fun p => (p.1, g p.1 p.2))).map Prod.fst = b.map Prod.fst := by
  rw [List.map_map]
  rfl

/-! ### The ForEach-and-put-back loop

Bolt's `ForEach` with a callback that only writes at the key currently
visited: the loop folds over the original entries, writing each step's
result back into the accumulated bucket. -/

/-- One ForEach pass: `step` returns `none` to leave the visited entry
unchanged, `some e` to overwrite it, or an error to abort. -/
def forEachPut (step : Bytes → BEntry → Except String (Option BEntry)) :
    List (Bytes × BEntry) → Bucket → Except String Bucket
  | [], acc => .ok acc
  | (k, e) :: rest, acc =>
    match step k e with
    | .error msg => .error msg
    | .ok none => forEachPut step rest acc
    | .ok (some e2) => forEachPut step rest (bput acc k e2)

theorem bput_append_cons (pre : Bucket) (k : Bytes) (e e2 : BEntry)
    (suf : Bucket) (hk : k ∉ pre.map Prod.fst) :
    bput (pre ++ (k, e) :: suf) k e2 = pre ++ (k, e2) :: suf := by
  induction pre with
  | nil => simp [bput]
  | cons p rest ih =>
      rw [List.cons_append, bput]
      rw [List.map_cons] at hk
      split
      · rename_i heq
        exact absurd (by rw [heq]; exact List.mem_cons_self _ _) hk
      · rw [List.cons_append, ih (fun hc => hk (List.mem_cons_of_mem _ hc))]

theorem forEachPut_go (step : Bytes → BEntry → Except String (Option BEntry))
    (suf : List (Bytes × BEntry)) (pre : Bucket)
    (hnd : ((pre ++ suf).map Prod.fst).Nodup)
    (hok : ∀ p ∈ suf, ∃ r, step p.1 p.2 = .ok r) :
    forEachPut step suf (pre ++ suf) =
      .ok (pre ++ suf.map (fun p => (p.1,
        match step p.1 p.2 with
        | .ok (some e2) => e2
        | _ => p.2))) := by
  induction suf generalizing pre with
  | nil => simp [forEachPut]
  | cons q suf2 ih =>
      obtain ⟨k, e⟩ := q
      rcases hok (k, e) (List.mem_cons_self _ _) with ⟨r, hr⟩
      have hnd2 : ((pre.map Prod.fst) ++ k :: (suf2.map Prod.fst)).Nodup := by
        simpa using hnd
      have hmid := List.nodup_middle.mp hnd2
      have hknot : k ∉ pre.map Prod.fst ++ suf2.map Prod.fst :=
        (List.nodup_cons.mp hmid).1
      have hknotpre : k ∉ pre.map Prod.fst :=
        fun hc => hknot (List.mem_append.mpr (Or.inl hc))
      rw [forEachPut, hr]
      cases r with
      | none =>
          dsimp only
          have hshape : pre ++ (k, e) :: suf2 = (pre ++ [(k, e)]) ++ suf2 := by
            simp
          rw [hshape, ih (pre ++ [(k, e)]) (by simpa using hnd)
            (fun p hp => hok p (List.mem_cons_of_mem _ hp))]
          simp [hr]
      | some e2 =>
          dsimp only
          rw [bput_append_cons pre k e e2 suf2 hknotpre]
          have hshape : pre ++ (k, e2) :: suf2 = (pre ++ [(k, e2)]) ++ suf2 := by
            simp
          rw [hshape, ih (pre ++ [(k, e2)]) (by simpa using hnd)
            (fun p hp => hok p (List.mem_cons_of_mem _ hp))]
          simp [hr]

/-- The net effect of one ForEach-and-put-back pass over a bucket with
pairwise distinct keys: a per-entry map. -/
theorem forEachPut_eq_map (step : Bytes → BEntry → Except String (Option BEntry))
    (b : Bucket) (hnd : (b.map Prod.fst).Nodup)
    (hok : ∀ p ∈ b, ∃ r, step p.1 p.2 = .ok r) :
    forEachPut step b b =
      .ok (b.map (fun p => (p.1,
        match step p.1 p.2 with
        | .ok (some e2) => e2
        | _ => p.2))) := by
  have h := forEachPut_go step b [] (by simpa using hnd) hok
  simpa using h

theorem bget_eq_some_mem {b : Bucket} {k : Bytes} {e : BEntry}
    (h : bget b k = some e) : (k, e) ∈ b := by
  induction b with
  | nil => cases h
  | cons p rest ih =>
      rw [bget] at h
      by_cases heq : p.1 = k
      · rw [if_pos heq] at h
        obtain ⟨k2, e2⟩ := p
        cases h
        cases heq
        exact List.mem_cons_self _ _
      · rw [if_neg heq] at h
        exact List.mem_cons_of_mem _ (ih h)

theorem bget_eq_none_of_not_mem {b : Bucket} {k : Bytes}
    (h : k ∉ b.map Prod.fst) : bget b k = none := by
  match hb : bget b k with
  | none => rfl
  | some e => exact absurd (bget_mem_keys hb) h

theorem nodup_keys_bdel {b : Bucket} (k : Bytes)
    (hnd : (b.map Prod.fst).Nodup) : ((bdel b k).map Prod.fst).Nodup :=
  (keys_bdel_sublist b k).nodup hnd

theorem bget_bdel_self (b : Bucket) (k : Bytes)
    (hnd : (b.map Prod.fst).Nodup) : bget (bdel b k) k = none := by
  induction b with
  | nil => rfl
  | cons p rest ih =>
      rw [List.map_cons, List.nodup_cons] at hnd
      rw [bdel]
      split
      · rename_i heq
        exact bget_eq_none_of_not_mem (heq ▸ hnd.1)
      · rename_i hne
        rw [bget, if_neg hne, ih hnd.2]

theorem bget_append_of_none {b : Bucket} {k : Bytes} (l : Bucket)
    (h : bget b k = none) : bget (b ++ l) k = bget l k := by
  induction b with
  | nil => rfl
  | cons p rest ih =>
      rw [bget] at h
      rw [List.cons_append, bget]
      by_cases heq : p.1 = k
      · rw [if_pos heq] at h; cases h
      · rw [if_neg heq] at h ⊢
        exact ih h

theorem getPath_singleton (b : Bucket) (k1 : Bytes) :
    getPath b [k1] = nestedBucket b k1 := by
  rw [getPath]
  cases nestedBucket b k1 with
  | none => rfl
  | some c => rfl

theorem getPathVal_of_nested {b : Bucket} {k1 : Bytes} {c : Bucket}
    (h : nestedBucket b k1 = some c) (k : Bytes) :
    getPathVal b [k1] k = getVal c k := by
  rw [getPathVal, getPath_singleton, h]

theorem bget_append_of_some {b : Bucket} {k : Bytes} {e : BEntry}
    (l : Bucket) (h : bget b k = some e) : bget (b ++ l) k = some e := by
  induction b with
  | nil => cases h
  | cons p rest ih =>
      rw [bget] at h
      rw [List.cons_append, bget]
      by_cases heq : p.1 = k
      · rw [if_pos heq] at h ⊢
        exact h
      · rw [if_neg heq] at h ⊢
        exact ih h

theorem bget_append_not_mem {l : Bucket} (b : Bucket) {k : Bytes}
    (h : k ∉ l.map Prod.fst) : bget (b ++ l) k = bget b k := by
  match hg : bget b k with
  | some e => exact bget_append_of_some _ hg
  | none => rw [bget_append_of_none _ hg, bget_eq_none_of_not_mem h]

/-! ### `deletePrivateKeys` (`db.go` lines 1542-1667)

The three `ForEach` loops become `forEachPut` passes; the callbacks below
are the loop bodies.  A `nil` bucket handle in Go (a missing nested
bucket) dereferences to a panic; those branches return an error. -/

/-- The account-bucket ForEach body of `deletePrivateKeys`: skip nested
buckets (`v == nil`), and for a default account row reserialize it with
the encrypted private key slot cleared (`nil`). -/
def deleteAcctRowStep (_k : Bytes) (e : BEntry) :
    Except String (Option BEntry) :=
  match e with
  | .bkt _ => .ok none
  | .val v =>
    match deserializeAccountRow v with
    | .error msg => .error msg
    | .ok row =>
      if row.acctType = accountDefault then
        match deserializeDefaultAccountRow row with
        | .error msg => .error msg
        | .ok arow =>
          .ok (some (.val (serializeAccountRow ⟨row.acctType,
            serializeDefaultAccountRow arow.pubKeyEncrypted []
              arow.nextExternalIndex arow.nextInternalIndex arow.name⟩)))
      else .ok none

/-- The address-bucket ForEach body of `deletePrivateKeys`: skip nested
buckets; clear an imported address row's encrypted private key and a
script address row's encrypted script; leave other address types
alone. -/
def deleteAddrRowStep (_k : Bytes) (e : BEntry) :
    Except String (Option BEntry) :=
  match e with
  | .bkt _ => .ok none
  | .val v =>
    match deserializeAddressRow v with
    | .error msg => .error msg
    | .ok row =>
      if row.addrType = adtImport then
        match deserializeImportedAddress row with
        | .error msg => .error msg
        | .ok irow =>
          .ok (some (.val (serializeAddressRow { row with
            rawData := serializeImportedAddress irow.encryptedPubKey [] })))
      else if row.addrType = adtScript then
        match deserializeScriptAddress row with
        | .error msg => .error msg
        | .ok srow =>
          .ok (some (.val (serializeAddressRow { row with
            rawData := serializeScriptAddress srow.encryptedHash [] })))
      else .ok none

/-- The body of the scope ForEach of `deletePrivateKeys`, acting on one
scope bucket: delete the coin-type private key, then run the account and
address passes. -/
def deleteScopeChild (c : Bucket) : Except String Bucket :=
  match nestedBucket (bdel c coinTypePrivKeyName) acctBucketName with
  | none => .error "panic: nil bucket"
  | some acctB =>
    match forEachPut deleteAcctRowStep acctB acctB with
    | .error msg => .error msg
    | .ok acctB2 =>
      match nestedBucket (bput (bdel c coinTypePrivKeyName) acctBucketName
          (.bkt acctB2)) addrBucketName with
      | none => .error "panic: nil bucket"
      | some addrB =>
        match forEachPut deleteAddrRowStep addrB addrB with
        | .error msg => .error msg
        | .ok addrB2 =>
          .ok (bput (bput (bdel c coinTypePrivKeyName) acctBucketName
            (.bkt acctB2)) addrBucketName (.bkt addrB2))

/-- The scope ForEach body of `deletePrivateKeys`: skip keys that are not
8 bytes; a scope key holding a plain value makes Go's
`NestedReadWriteBucket` return `nil` and the following `Delete` panic. -/
def deleteScopeStep (scopeKey : Bytes) (e : BEntry) :
    Except String (Option BEntry) :=
  if scopeKey.length ≠ 8 then .ok none
  else
    match e with
    | .val _ => .error "panic: nil bucket"
    | .bkt c =>
      match deleteScopeChild c with
      | .error msg => .error msg
      | .ok c2 => .ok (some (.bkt c2))

/-- The function `deletePrivateKeys`: delete the four private entries of
`main/`, then run the scope pass. -/
def deletePrivateKeys (ns : Bucket) : Except String Bucket :=
  match nestedBucket ns mainBucketName with
  | none => .error "panic: nil bucket"
  | some mainB =>
    match nestedBucket (bput ns mainBucketName (.bkt
        (bdel (bdel (bdel (bdel mainB masterPrivKeyName) cryptoPrivKeyName)
          cryptoScriptKeyName) masterHDPrivName))) scopeBucketName with
    | none => .error "panic: nil bucket"
    | some scopeB =>
      match forEachPut deleteScopeStep scopeB scopeB with
      | .error msg => .error msg
      | .ok scopeB2 =>
        .ok (bput (bput ns mainBucketName (.bkt
          (bdel (bdel (bdel (bdel mainB masterPrivKeyName) cryptoPrivKeyName)
            cryptoScriptKeyName) masterHDPrivName))) scopeBucketName
          (.bkt scopeB2))

/-! ### Well-formedness for `deletePrivateKeys`

The states quantified over: the `main` and `scope` buckets exist, keys are
pairwise distinct (bolt guarantees this), every 8-byte scope key holds a
scope bucket whose `acct`/`addr` children exist and whose rows
deserialize. -/

/-- An entry of an `acct` bucket the delete pass can process. -/
def AcctEntryWF (e : BEntry) : Prop :=
  match e with
  | .bkt _ => True
  | .val v => ∃ row, deserializeAccountRow v = Except.ok row ∧
      (row.acctType = accountDefault →
        ∃ arow, deserializeDefaultAccountRow row = Except.ok arow)

/-- An entry of an `addr` bucket the delete pass can process. -/
def AddrEntryWF (e : BEntry) : Prop :=
  match e with
  | .bkt _ => True
  | .val v => ∃ row, deserializeAddressRow v = Except.ok row ∧
      (row.addrType = adtImport →
        ∃ irow, deserializeImportedAddress row = Except.ok irow) ∧
      (row.addrType = adtScript →
        ∃ srow, deserializeScriptAddress row = Except.ok srow)

/-- A well-formed scope bucket. -/
def ScopeChildWF (c : Bucket) : Prop :=
  (c.map Prod.fst).Nodup ∧
  (∃ acctB, nestedBucket c acctBucketName = some acctB ∧
    (acctB.map Prod.fst).Nodup ∧ ∀ p ∈ acctB, AcctEntryWF p.2) ∧
  (∃ addrB, nestedBucket c addrBucketName = some addrB ∧
    (addrB.map Prod.fst).Nodup ∧ ∀ p ∈ addrB, AddrEntryWF p.2)

/-- A namespace `deletePrivateKeys` runs on. -/
def DeleteWF (ns : Bucket) : Prop :=
  (∃ mainB, nestedBucket ns mainBucketName = some mainB ∧
    (mainB.map Prod.fst).Nodup) ∧
  (∃ scopeB, nestedBucket ns scopeBucketName = some scopeB ∧
    (scopeB.map Prod.fst).Nodup ∧
    ∀ p ∈ scopeB, p.1.length = 8 → ∃ c, p.2 = .bkt c ∧ ScopeChildWF c)

/-! ### The effect of `deletePrivateKeys`, field by field -/

/-- Effect of the account pass on an `acct` bucket: same keys, nested
buckets and non-default rows untouched, each default account row
reserialized with the same public key, next indexes and name but an empty
private key slot. -/
def AcctPassOutcome (acctB acctB2 : Bucket) : Prop :=
  acctB2.map Prod.fst = acctB.map Prod.fst ∧
  (∀ ak c0, bget acctB ak = some (.bkt c0) →
    bget acctB2 ak = some (.bkt c0)) ∧
  (∀ ak v row, bget acctB ak = some (.val v) →
    deserializeAccountRow v = Except.ok row →
    row.acctType ≠ accountDefault → bget acctB2 ak = some (.val v)) ∧
  (∀ ak v row arow, bget acctB ak = some (.val v) →
    deserializeAccountRow v = Except.ok row →
    row.acctType = accountDefault →
    deserializeDefaultAccountRow row = Except.ok arow →
    bget acctB2 ak = some (.val (serializeAccountRow ⟨row.acctType,
      serializeDefaultAccountRow arow.pubKeyEncrypted []
        arow.nextExternalIndex arow.nextInternalIndex arow.name⟩)))

/-- Effect of the address pass on an `addr` bucket: same keys, nested
buckets and chain-type rows untouched, imported rows with the private key
cleared, script rows with the script cleared — account, time, sync status
and public material kept. -/
def AddrPassOutcome (addrB addrB2 : Bucket) : Prop :=
  addrB2.map Prod.fst = addrB.map Prod.fst ∧
  (∀ ak c0, bget addrB ak = some (.bkt c0) →
    bget addrB2 ak = some (.bkt c0)) ∧
  (∀ ak v row, bget addrB ak = some (.val v) →
    deserializeAddressRow v = Except.ok row →
    row.addrType ≠ adtImport → row.addrType ≠ adtScript →
    bget addrB2 ak = some (.val v)) ∧
  (∀ ak v row irow, bget addrB ak = some (.val v) →
    deserializeAddressRow v = Except.ok row →
    row.addrType = adtImport →
    deserializeImportedAddress row = Except.ok irow →
    bget addrB2 ak = some (.val (serializeAddressRow { row with
      rawData := serializeImportedAddress irow.encryptedPubKey [] }))) ∧
  (∀ ak v row srow, bget addrB ak = some (.val v) →
    deserializeAddressRow v = Except.ok row →
    row.addrType = adtScript →
    deserializeScriptAddress row = Except.ok srow →
    bget addrB2 ak = some (.val (serializeAddressRow { row with
      rawData := serializeScriptAddress srow.encryptedHash [] })))

/-- Effect on one scope bucket: coin-type private key gone, every other
key (the coin-type public key, the index buckets, meta, ...) untouched,
account and address buckets transformed as above. -/
def ScopeChildOutcome (c c2 : Bucket) : Prop :=
  getVal c2 coinTypePrivKeyName = none ∧
  (∀ k, k ≠ coinTypePrivKeyName → k ≠ acctBucketName →
    k ≠ addrBucketName → bget c2 k = bget c k) ∧
  (∀ acctB, nestedBucket c acctBucketName = some acctB →
    ∃ acctB2, nestedBucket c2 acctBucketName = some acctB2 ∧
      AcctPassOutcome acctB acctB2) ∧
  (∀ addrB, nestedBucket c addrBucketName = some addrB →
    ∃ addrB2, nestedBucket c2 addrBucketName = some addrB2 ∧
      AddrPassOutcome addrB addrB2)

/-- The whole effect of `deletePrivateKeys`: the four `main/` private
entries gone and all other `main/` keys kept; every top-level key other
than `main` and `scope` untouched; scope keys preserved, non-8-byte scope
entries untouched, and each scope bucket transformed per
`ScopeChildOutcome`. -/
def DeleteOutcome (ns ns2 : Bucket) : Prop :=
  getPathVal ns2 [mainBucketName] masterPrivKeyName = none ∧
  getPathVal ns2 [mainBucketName] cryptoPrivKeyName = none ∧
  getPathVal ns2 [mainBucketName] cryptoScriptKeyName = none ∧
  getPathVal ns2 [mainBucketName] masterHDPrivName = none ∧
  (∀ k, k ≠ masterPrivKeyName → k ≠ cryptoPrivKeyName →
    k ≠ cryptoScriptKeyName → k ≠ masterHDPrivName →
    getPathVal ns2 [mainBucketName] k = getPathVal ns [mainBucketName] k) ∧
  (∀ k, k ≠ mainBucketName → k ≠ scopeBucketName →
    bget ns2 k = bget ns k) ∧
  (∀ scopeB, nestedBucket ns scopeBucketName = some scopeB →
    ∃ scopeB2, nestedBucket ns2 scopeBucketName = some scopeB2 ∧
      scopeB2.map Prod.fst = scopeB.map Prod.fst ∧
      (∀ sk, sk.length ≠ 8 → bget scopeB2 sk = bget scopeB sk) ∧
      (∀ sk c, sk.length = 8 → bget scopeB sk = some (.bkt c) →
        ∃ c2, bget scopeB2 sk = some (.bkt c2) ∧ ScopeChildOutcome c c2))

/-- The per-entry result of the account pass. -/
theorem deleteAcctRowStep_ok {e : BEntry} (hwf : AcctEntryWF e) :
    ∃ r, deleteAcctRowStep [] e = Except.ok r := by
  cases e with
  | bkt c => exact ⟨none, rfl⟩
  | val v =>
      obtain ⟨row, hrow, hdef⟩ := hwf
      rw [deleteAcctRowStep, hrow]
      dsimp only
      by_cases ht : row.acctType = accountDefault
      · obtain ⟨arow, harow⟩ := hdef ht
        rw [if_pos ht, harow]
        exact ⟨_, rfl⟩
      · rw [if_neg ht]
        exact ⟨none, rfl⟩

theorem deleteAddrRowStep_ok {e : BEntry} (hwf : AddrEntryWF e) :
    ∃ r, deleteAddrRowStep [] e = Except.ok r := by
  cases e with
  | bkt c => exact ⟨none, rfl⟩
  | val v =>
      obtain ⟨row, hrow, himp, hscr⟩ := hwf
      rw [deleteAddrRowStep, hrow]
      dsimp only
      by_cases hi : row.addrType = adtImport
      · obtain ⟨irow, hirow⟩ := himp hi
        rw [if_pos hi, hirow]
        exact ⟨_, rfl⟩
      · rw [if_neg hi]
        by_cases hs : row.addrType = adtScript
        · obtain ⟨srow, hsrow⟩ := hscr hs
          rw [if_pos hs, hsrow]
          exact ⟨_, rfl⟩
        · rw [if_neg hs]
          exact ⟨none, rfl⟩

/-- The step functions ignore their key argument. -/
theorem deleteAcctRowStep_key (k : Bytes) (e : BEntry) :
    deleteAcctRowStep k e = deleteAcctRowStep [] e := by
  cases e <;> rfl

theorem deleteAddrRowStep_key (k : Bytes) (e : BEntry) :
    deleteAddrRowStep k e = deleteAddrRowStep [] e := by
  cases e <;> rfl

/-- The account pass succeeds on a well-formed `acct` bucket and strips
exactly the default account rows' private key slots. -/
theorem acctPass_ok (acctB : Bucket) (hnd : (acctB.map Prod.fst).Nodup)
    (hwf : ∀ p ∈ acctB, AcctEntryWF p.2) :
    ∃ acctB2, forEachPut deleteAcctRowStep acctB acctB = .ok acctB2 ∧
      AcctPassOutcome acctB acctB2 := by
  have hok : ∀ p ∈ acctB, ∃ r, deleteAcctRowStep p.1 p.2 = .ok r := by
    intro p hp
    rw [deleteAcctRowStep_key]
    exact deleteAcctRowStep_ok (hwf p hp)
  refine ⟨_, forEachPut_eq_map deleteAcctRowStep acctB hnd hok, ?_, ?_, ?_, ?_⟩
  · rw [keys_mapEntries (fun k e => match deleteAcctRowStep k e with
      | .ok (some e2) => e2
      | _ => e) acctB]
  · intro ak c0 hbg
    rw [bget_mapEntries (fun k e => match deleteAcctRowStep k e with
      | .ok (some e2) => e2
      | _ => e) acctB ak, hbg]
    rfl
  · intro ak v row hbg hrow ht
    rw [bget_mapEntries (fun k e => match deleteAcctRowStep k e with
      | .ok (some e2) => e2
      | _ => e) acctB ak, hbg]
    have hstep : deleteAcctRowStep ak (.val v) = .ok none := by
      rw [deleteAcctRowStep_key, deleteAcctRowStep, hrow]
      dsimp only
      rw [if_neg ht]
    rw [Option.map_some']
    rw [hstep]
  · intro ak v row arow hbg hrow ht harow
    rw [bget_mapEntries (fun k e => match deleteAcctRowStep k e with
      | .ok (some e2) => e2
      | _ => e) acctB ak, hbg]
    have hstep : deleteAcctRowStep ak (.val v) =
        .ok (some (.val (serializeAccountRow ⟨row.acctType,
          serializeDefaultAccountRow arow.pubKeyEncrypted []
            arow.nextExternalIndex arow.nextInternalIndex arow.name⟩))) := by
      rw [deleteAcctRowStep_key, deleteAcctRowStep, hrow]
      dsimp only
      rw [if_pos ht, harow]
    rw [Option.map_some']
    rw [hstep]

/-- The address pass succeeds on a well-formed `addr` bucket and strips
exactly the imported rows' private keys and script rows' scripts. -/
theorem addrPass_ok (addrB : Bucket) (hnd : (addrB.map Prod.fst).Nodup)
    (hwf : ∀ p ∈ addrB, AddrEntryWF p.2) :
    ∃ addrB2, forEachPut deleteAddrRowStep addrB addrB = .ok addrB2 ∧
      AddrPassOutcome addrB addrB2 := by
  have hok : ∀ p ∈ addrB, ∃ r, deleteAddrRowStep p.1 p.2 = .ok r := by
    intro p hp
    rw [deleteAddrRowStep_key]
    exact deleteAddrRowStep_ok (hwf p hp)
  refine ⟨_, forEachPut_eq_map deleteAddrRowStep addrB hnd hok,
    ?_, ?_, ?_, ?_, ?_⟩
  · rw [keys_mapEntries (fun k e => match deleteAddrRowStep k e with
      | .ok (some e2) => e2
      | _ => e) addrB]
  · intro ak c0 hbg
    rw [bget_mapEntries (fun k e => match deleteAddrRowStep k e with
      | .ok (some e2) => e2
      | _ => e) addrB ak, hbg]
    rfl
  · intro ak v row hbg hrow hi hs
    rw [bget_mapEntries (fun k e => match deleteAddrRowStep k e with
      | .ok (some e2) => e2
      | _ => e) addrB ak, hbg]
    have hstep : deleteAddrRowStep ak (.val v) = .ok none := by
      rw [deleteAddrRowStep_key, deleteAddrRowStep, hrow]
      dsimp only
      rw [if_neg hi, if_neg hs]
    rw [Option.map_some']
    rw [hstep]
  · intro ak v row irow hbg hrow hi hirow
    rw [bget_mapEntries (fun k e => match deleteAddrRowStep k e with
      | .ok (some e2) => e2
      | _ => e) addrB ak, hbg]
    have hstep : deleteAddrRowStep ak (.val v) =
        .ok (some (.val (serializeAddressRow { row with
          rawData := serializeImportedAddress irow.encryptedPubKey [] }))) := by
      rw [deleteAddrRowStep_key, deleteAddrRowStep, hrow]
      dsimp only
      rw [if_pos hi, hirow]
    rw [Option.map_some']
    rw [hstep]
  · intro ak v row srow hbg hrow hs hsrow
    rw [bget_mapEntries (fun k e => match deleteAddrRowStep k e with
      | .ok (some e2) => e2
      | _ => e) addrB ak, hbg]
    have hi : ¬row.addrType = adtImport := by
      rw [hs]; decide
    have hstep : deleteAddrRowStep ak (.val v) =
        .ok (some (.val (serializeAddressRow { row with
          rawData := serializeScriptAddress srow.encryptedHash [] }))) := by
      rw [deleteAddrRowStep_key, deleteAddrRowStep, hrow]
      dsimp only
      rw [if_neg hi, if_pos hs, hsrow]
    rw [Option.map_some']
    rw [hstep]

/-- The scope body succeeds on a well-formed scope bucket, with the
scope-level, account-level and address-level effects. -/
theorem deleteScopeChild_ok (c : Bucket) (hwf : ScopeChildWF c) :
    ∃ c2, deleteScopeChild c = .ok c2 ∧ ScopeChildOutcome c c2 := by
  obtain ⟨hnd, ⟨acctB, hacct, hgnd, hga⟩, ⟨addrB, haddr, hdnd, hda⟩⟩ := hwf
  have hPA : coinTypePrivKeyName ≠ acctBucketName := by decide
  have hPD : coinTypePrivKeyName ≠ addrBucketName := by decide
  have hAD : acctBucketName ≠ addrBucketName := by decide
  have hacct1 : nestedBucket (bdel c coinTypePrivKeyName) acctBucketName =
      some acctB := by
    rw [nestedBucket, bget_bdel_ne c coinTypePrivKeyName acctBucketName hPA]
    rw [nestedBucket] at hacct
    exact hacct
  obtain ⟨acctB2, hrun1, hout1⟩ := acctPass_ok acctB hgnd hga
  have haddr1 : nestedBucket (bput (bdel c coinTypePrivKeyName) acctBucketName
      (.bkt acctB2)) addrBucketName = some addrB := by
    rw [nestedBucket,
      bget_bput_ne _ acctBucketName addrBucketName _ hAD,
      bget_bdel_ne c coinTypePrivKeyName addrBucketName hPD]
    rw [nestedBucket] at haddr
    exact haddr
  obtain ⟨addrB2, hrun2, hout2⟩ := addrPass_ok addrB hdnd hda
  refine ⟨bput (bput (bdel c coinTypePrivKeyName) acctBucketName
    (.bkt acctB2)) addrBucketName (.bkt addrB2), ?_, ?_, ?_, ?_, ?_⟩
  · rw [deleteScopeChild, hacct1]
    dsimp only
    rw [hrun1]
    dsimp only
    rw [haddr1]
    dsimp only
    rw [hrun2]
  · rw [getVal,
      bget_bput_ne _ addrBucketName coinTypePrivKeyName _ (Ne.symm hPD),
      bget_bput_ne _ acctBucketName coinTypePrivKeyName _ (Ne.symm hPA),
      bget_bdel_self c coinTypePrivKeyName hnd]
  · intro k hk1 hk2 hk3
    rw [bget_bput_ne _ addrBucketName k _ (Ne.symm hk3),
      bget_bput_ne _ acctBucketName k _ (Ne.symm hk2),
      bget_bdel_ne c coinTypePrivKeyName k (Ne.symm hk1)]
  · intro acctB' hacct'
    rw [hacct] at hacct'
    cases hacct'
    refine ⟨acctB2, ?_, hout1⟩
    rw [nestedBucket,
      bget_bput_ne _ addrBucketName acctBucketName _ (Ne.symm hAD),
      bget_bput_self]
  · intro addrB' haddr'
    rw [haddr] at haddr'
    cases haddr'
    refine ⟨addrB2, ?_, hout2⟩
    rw [nestedBucket, bget_bput_self]

/-- The per-entry result of the scope pass. -/
theorem deleteScopeStep_ok {sk : Bytes} {e : BEntry}
    (hwf : sk.length = 8 → ∃ c, e = .bkt c ∧ ScopeChildWF c) :
    ∃ r, deleteScopeStep sk e = Except.ok r := by
  by_cases h8 : sk.length = 8
  · obtain ⟨c, he, hcwf⟩ := hwf h8
    obtain ⟨c2, hrun, _⟩ := deleteScopeChild_ok c hcwf
    subst he
    rw [deleteScopeStep.eq_def, if_neg (by simpa using h8)]
    dsimp only
    rw [hrun]
    exact ⟨_, rfl⟩
  · rw [deleteScopeStep.eq_def, if_pos (by simpa using h8)]
    exact ⟨none, rfl⟩

set_option maxHeartbeats 800000 in
/-- C3: on a well-formed namespace, `deletePrivateKeys` succeeds, removes
every piece of encrypted private material (the master private key
parameters, the crypto private and script keys, the master HD private
key, each scope's coin-type private key, each default account row's
private key slot, each imported address row's private key slot, each
script address row's script slot) and leaves everything else unchanged:
the public companions, counters, names, other rows and index buckets all
keep their bytes. -/
theorem c3_deletePrivateKeys (ns : Bucket) (hwf : DeleteWF ns) :
    ∃ ns2, deletePrivateKeys ns = .ok ns2 ∧ DeleteOutcome ns ns2 := by
  obtain ⟨⟨mainB, hmain, hmnd⟩, ⟨scopeB, hscope, hsnd, hswf⟩⟩ := hwf
  have hMS : mainBucketName ≠ scopeBucketName := by decide
  have hscope1 : nestedBucket (bput ns mainBucketName (.bkt
      (bdel (bdel (bdel (bdel mainB masterPrivKeyName) cryptoPrivKeyName)
        cryptoScriptKeyName) masterHDPrivName))) scopeBucketName =
      some scopeB := by
    rw [nestedBucket, bget_bput_ne _ mainBucketName scopeBucketName _ hMS]
    rw [nestedBucket] at hscope
    exact hscope
  have hok : ∀ p ∈ scopeB, ∃ r, deleteScopeStep p.1 p.2 = .ok r := by
    intro p hp
    exact deleteScopeStep_ok (hswf p hp)
  have hrun := forEachPut_eq_map deleteScopeStep scopeB hsnd hok
  refine ⟨bput (bput ns mainBucketName (.bkt
    (bdel (bdel (bdel (bdel mainB masterPrivKeyName) cryptoPrivKeyName)
      cryptoScriptKeyName) masterHDPrivName))) scopeBucketName
    (.bkt (scopeB.map (fun p => (p.1, match deleteScopeStep p.1 p.2 with
      | .ok (some e2) => e2
      | _ => p.2)))), ?_, ?_, ?_, ?_, ?_, ?_, ?_, ?_⟩
  · rw [deletePrivateKeys, hmain]
    dsimp only
    rw [hscope1]
    dsimp only
    rw [hrun]
  all_goals try {
    rw [getPathVal_of_nested (show nestedBucket _ mainBucketName = some _ by
      rw [nestedBucket, bget_bput_ne _ scopeBucketName mainBucketName _
        (Ne.symm hMS), bget_bput_self]), getVal]
    first
    | rw [bget_bdel_ne _ masterHDPrivName masterPrivKeyName (by decide),
        bget_bdel_ne _ cryptoScriptKeyName masterPrivKeyName (by decide),
        bget_bdel_ne _ cryptoPrivKeyName masterPrivKeyName (by decide),
        bget_bdel_self _ _ hmnd]
    | rw [bget_bdel_ne _ masterHDPrivName cryptoPrivKeyName (by decide),
        bget_bdel_ne _ cryptoScriptKeyName cryptoPrivKeyName (by decide),
        bget_bdel_self _ _ (nodup_keys_bdel _ hmnd)]
    | rw [bget_bdel_ne _ masterHDPrivName cryptoScriptKeyName (by decide),
        bget_bdel_self _ _ (nodup_keys_bdel _ (nodup_keys_bdel _ hmnd))]
    | rw [bget_bdel_self _ _ (nodup_keys_bdel _ (nodup_keys_bdel _
        (nodup_keys_bdel _ hmnd)))]
  }
  · -- other main keys unchanged
    intro k h1 h2 h3 h4
    rw [getPathVal_of_nested (show nestedBucket _ mainBucketName = some _ by
      rw [nestedBucket, bget_bput_ne _ scopeBucketName mainBucketName _
        (Ne.symm hMS), bget_bput_self]), getPathVal_of_nested hmain,
      getVal, getVal,
      bget_bdel_ne _ masterHDPrivName k (Ne.symm h4),
      bget_bdel_ne _ cryptoScriptKeyName k (Ne.symm h3),
      bget_bdel_ne _ cryptoPrivKeyName k (Ne.symm h2),
      bget_bdel_ne _ masterPrivKeyName k (Ne.symm h1)]
  · -- other top-level keys unchanged
    intro k h1 h2
    rw [bget_bput_ne _ scopeBucketName k _ (Ne.symm h2),
      bget_bput_ne _ mainBucketName k _ (Ne.symm h1)]
  · -- the scope bucket
    intro scopeB' hscope'
    rw [hscope] at hscope'
    cases hscope'
    refine ⟨scopeB.map (fun p => (p.1, match deleteScopeStep p.1 p.2 with
      | .ok (some e2) => e2
      | _ => p.2)), ?_, ?_, ?_, ?_⟩
    · rw [nestedBucket, bget_bput_self]
    · rw [keys_mapEntries (fun k e => match deleteScopeStep k e with
        | .ok (some e2) => e2
        | _ => e) scopeB]
    · intro sk h8
      rw [bget_mapEntries (fun k e => match deleteScopeStep k e with
        | .ok (some e2) => e2
        | _ => e) scopeB sk]
      match hb : bget scopeB sk with
      | none => rfl
      | some e =>
          rw [Option.map_some']
          have hstep : deleteScopeStep sk e = .ok none := by
            rw [deleteScopeStep.eq_def, if_pos (by simpa using h8)]
          rw [hstep]
    · intro sk c h8 hb
      have hmem := bget_eq_some_mem hb
      obtain ⟨c', he, hcwf⟩ := hswf (sk, .bkt c) hmem h8
      have hcc : c = c' := BEntry.bkt.inj he
      subst hcc
      obtain ⟨c2, hrunc, houtc⟩ := deleteScopeChild_ok c hcwf
      refine ⟨c2, ?_, houtc⟩
      rw [bget_mapEntries (fun k e => match deleteScopeStep k e with
        | .ok (some e2) => e2
        | _ => e) scopeB sk, hb, Option.map_some']
      have hstep : deleteScopeStep sk (.bkt c) = .ok (some (.bkt c2)) := by
        rw [deleteScopeStep.eq_def, if_neg (by simpa using h8)]
        dsimp only
        rw [hrunc]
      rw [hstep]

/-! ### A concrete namespace for the delete pass -/

/-- A default account row (pub `[1]`, priv `[2]`, name `"d"`). -/
def c3AcctRowVal : Bytes :=
  serializeAccountRow ⟨accountDefault,
    serializeDefaultAccountRow [1] [2] 0 0 [100]⟩

/-- An imported address row (pub `[3]`, priv `[4]`). -/
def c3AddrRowVal : Bytes :=
  serializeAddressRow ⟨adtImport, 0, 0, 0, serializeImportedAddress [3] [4]⟩

/-- One scope bucket holding coin-type keys, an account and an address. -/
def c3Scope : Bucket :=
  [(coinTypePubKeyName, .val [9]),
   (coinTypePrivKeyName, .val [8]),
   (acctBucketName, .bkt [(uint32ToBytes 0, .val c3AcctRowVal)]),
   (addrBucketName, .bkt [(strBytes "h", .val c3AddrRowVal)]),
   (metaBucketName, .bkt [])]

/-- A small wallet namespace with private material everywhere. -/
def c3ns : Bucket :=
  [(mainBucketName, .bkt
     [(mgrVersionName, .val (uint32ToBytes 5)),
      (masterPrivKeyName, .val [1]),
      (cryptoPrivKeyName, .val [2]),
      (cryptoScriptKeyName, .val [3]),
      (masterHDPrivName, .val [4])]),
   (scopeBucketName, .bkt
     [(uint32ToBytes 44 ++ uint32ToBytes 0, .bkt c3Scope)]),
   (syncBucketName, .bkt [])]

theorem c3ns_wf : DeleteWF c3ns := by
  refine ⟨⟨_, rfl, by decide⟩, ⟨_, rfl, by decide, ?_⟩⟩
  intro p hp _
  have hp2 : p = (uint32ToBytes 44 ++ uint32ToBytes 0, .bkt c3Scope) := by
    simpa using hp
  subst hp2
  refine ⟨c3Scope, rfl, by decide, ⟨_, rfl, by decide, ?_⟩, ⟨_, rfl, by decide, ?_⟩⟩
  · intro q hq
    have hq2 : q = (uint32ToBytes 0, .val c3AcctRowVal) := by
      simpa using hq
    subst hq2
    exact ⟨⟨accountDefault, serializeDefaultAccountRow [1] [2] 0 0 [100]⟩, rfl,
      fun _ => ⟨⟨[1], [2], 0, 0, [100]⟩, rfl⟩⟩
  · intro q hq
    have hq2 : q = (strBytes "h", .val c3AddrRowVal) := by
      simpa using hq
    subst hq2
    exact ⟨⟨adtImport, 0, 0, 0, serializeImportedAddress [3] [4]⟩, rfl,
      fun _ => ⟨⟨[3], [4]⟩, rfl⟩,
      fun h => absurd h (by decide)⟩

/-- C3 witness: the delete pass on the concrete namespace. -/
theorem c3_deletePrivateKeys_witness :
    DeleteWF c3ns ∧
      ∃ ns2, deletePrivateKeys c3ns = .ok ns2 ∧ DeleteOutcome c3ns ns2 :=
  ⟨c3ns_wf, c3_deletePrivateKeys c3ns c3ns_wf⟩

/-! ### The v4→v5 upgrade (`db.go` lines 1988-2116)

`upgradeToVersion5` runs inside one `walletdb.Update` transaction; an
error rolls the whole namespace back (`runUpdate`). -/

/-- Modelled from the spec: the default scope is BIP0044 `(44, 0)` and a
scope key is 8 bytes little-endian (`KeyScopeBIP0044` is declared in a
file not present in the repository; `scopeToBytes` is in `db.go`). -/
def bip44ScopeKey : Bytes := uint32ToBytes 44 ++ uint32ToBytes 0

/-- Bolt `CreateBucketIfNotExists`: keep an existing nested bucket,
refuse a key holding a plain value. -/
def createBucketIfNotExists (b : Bucket) (k : Bytes) :
    Except String Bucket :=
  match bget b k with
  | some (.bkt _) => .ok b
  | some (.val _) => .error "incompatible value"
  | none => .ok (b ++ [(k, .bkt [])])

/-- The segwit scan of `upgradeToVersion5`: ForEach over the `addr`
bucket, failing on a row that does not deserialize (a nested bucket is
visited with a `nil` value, which cannot deserialize either) or whose
address type is beyond `adtScript`. -/
def segwitVal (e : BEntry) : Bytes :=
  match e with
  | .val v => v
  | .bkt _ => []

def segwitCheck : List (Bytes × BEntry) → Except String Unit
  | [] => .ok ()
  | (_, e) :: rest =>
    match deserializeAddressRow (segwitVal e) with
    | .error msg => .error msg
    | .ok row =>
      if adtScript < row.addrType then
        .error "segwit address exists in wallet, cannot upgrade from v4 to v5"
      else segwitCheck rest

/-- The function `putManagerVersion`. -/
def putManagerVersion (ns : Bucket) (version : Nat) : Except String Bucket :=
  putPathVal ns [mainBucketName] mgrVersionName (uint32ToBytes version)

/-- The function `fetchManagerVersion`; `none` covers both the
missing-version error and the panics (missing main bucket, a stored
version shorter than 4 bytes). -/
def fetchManagerVersion (ns : Bucket) : Option Nat :=
  match getPathVal ns [mainBucketName] mgrVersionName with
  | some verBytes =>
    if verBytes.length < 4 then none else some (leVal (verBytes.take 4))
  | none => none

/-- The function `createScopedManagerNS`, applied to the `scope` bucket:
create the scope's bucket and its seven child buckets. -/
def createScopedManagerNS (sb : Bucket) (scopeKey : Bytes) :
    Except String Bucket :=
  match createBucket sb scopeKey with
  | .error e => .error e
  | .ok sb1 =>
    modifyNested sb1 [scopeKey] (fun c0 =>
      match createBucket c0 acctBucketName with
      | .error e => .error e
      | .ok c1 =>
        match createBucket c1 addrBucketName with
        | .error e => .error e
        | .ok c2 =>
          match createBucket c2 usedAddrBucketName with
          | .error e => .error e
          | .ok c3 =>
            match createBucket c3 addrAcctIdxBucketName with
            | .error e => .error e
            | .ok c4 =>
              match createBucket c4 acctNameIdxBucketName with
              | .error e => .error e
              | .ok c5 =>
                match createBucket c5 acctIDIdxBucketName with
                | .error e => .error e
                | .ok c6 => createBucket c6 metaBucketName)

/-- The net effect of `migrateRecursively`'s ForEach on `bucketToMigrate`
(first argument, iterated over its entries as they were when the loop
started) and `newBucket` (second argument): values are put into the
destination and nested buckets merged recursively.  Every visited source
entry is deleted by the loop or by the closing `DeleteNestedBucket`, so
the source side is dropped wholesale by the caller. -/
def mergeInto : List (Bytes × BEntry) → Bucket → Except String Bucket
  | [], dst => .ok dst
  | (k, .val v) :: rest, dst => mergeInto rest (bput dst k (.val v))
  | (k, .bkt c) :: rest, dst =>
    match createBucketIfNotExists dst k with
    | .error e => .error e
    | .ok dst1 =>
      match nestedBucket dst1 k with
      | none => .error "panic: nil bucket"
      | some nb =>
        match mergeInto c nb with
        | .error e => .error e
        | .ok nb2 => mergeInto rest (bput dst1 k (.bkt nb2))

/-- The function `migrateRecursively` on the buckets of its `src` and
`dst` handles: move the tree under `bucketKey` of `src` into `dst`,
deleting it from `src`. -/
def migrateRecursively (src dst : Bucket) (bucketKey : Bytes) :
    Except String (Bucket × Bucket) :=
  match nestedBucket src bucketKey with
  | none => .error "panic: nil bucket"
  | some btm =>
    match createBucketIfNotExists dst bucketKey with
    | .error e => .error e
    | .ok dst1 =>
      match nestedBucket dst1 bucketKey with
      | none => .error "panic: nil bucket"
      | some nb =>
        match mergeInto btm nb with
        | .error e => .error e
        | .ok nb2 => .ok (bdel src bucketKey, bput dst1 bucketKey (.bkt nb2))

/-- One iteration of the migration loop of `upgradeToVersion5`:
`migrateRecursively(ns, bip44Bucket, bucketKey)`, with the `bip44Bucket`
handle written back at `scope/⟨44,0⟩`. -/
def migrateTopKey (ns : Bucket) (bucketKey : Bytes) : Except String Bucket :=
  match getPath ns [scopeBucketName, bip44ScopeKey] with
  | none => .error "panic: nil bucket"
  | some bip44 =>
    match migrateRecursively ns bip44 bucketKey with
    | .error e => .error e
    | .ok (src2, dst2) =>
      modifyNested src2 [scopeBucketName]
        (fun sb => .ok (bput sb bip44ScopeKey (.bkt dst2)))

/-- The function `upgradeToVersion5`.  `schemaBytes` stands for
`scopeSchemaToBytes(ScopeAddrMap[KeyScopeBIP0044])` (2 bytes; the map is
declared in a file not present in the repository).  A value fetched with
`Get` from a key that is missing is `nil` in Go and stored back as an
empty value (`.getD []`). -/
def upgradeToVersion5 (schemaBytes : Bytes) (ns : Bucket) :
    Except String Bucket :=
  match nestedBucket ns addrBucketName with
  | none => .error "panic: nil bucket"
  | some addrB =>
    match segwitCheck addrB with
    | .error e => .error e
    | .ok () =>
      match putManagerVersion ns 5 with
      | .error e => .error e
      | .ok ns1 =>
      match createBucket ns1 scopeBucketName with
      | .error e => .error e
      | .ok ns2 =>
      match createBucket ns2 scopeSchemaBucketName with
      | .error e => .error e
      | .ok ns3 =>
      match putPathVal ns3 [scopeSchemaBucketName] bip44ScopeKey schemaBytes with
      | .error e => .error e
      | .ok ns4 =>
      match modifyNested ns4 [scopeBucketName]
          (fun sb => createScopedManagerNS sb bip44ScopeKey) with
      | .error e => .error e
      | .ok ns5 =>
      match getPath ns5 [mainBucketName] with
      | none => .error "panic: nil bucket"
      | some mainB =>
      match putPathVal ns5 [scopeBucketName, bip44ScopeKey]
          coinTypePrivKeyName ((getVal mainB coinTypePrivKeyName).getD []) with
      | .error e => .error e
      | .ok ns6 =>
      match putPathVal ns6 [scopeBucketName, bip44ScopeKey]
          coinTypePubKeyName ((getVal mainB coinTypePubKeyName).getD []) with
      | .error e => .error e
      | .ok ns7 =>
      match delPathKey ns7 [mainBucketName] coinTypePrivKeyName with
      | .error e => .error e
      | .ok ns8 =>
      match delPathKey ns8 [mainBucketName] coinTypePubKeyName with
      | .error e => .error e
      | .ok ns9 =>
      match getPath ns9 [metaBucketName] with
      | none => .error "panic: nil bucket"
      | some metaB =>
      match delPathKey ns9 [metaBucketName] lastAccountName with
      | .error e => .error e
      | .ok ns10 =>
      match putPathVal ns10 [scopeBucketName, bip44ScopeKey, metaBucketName]
          lastAccountName ((getVal metaB lastAccountName).getD []) with
      | .error e => .error e
      | .ok ns11 =>
      match migrateTopKey ns11 acctBucketName with
      | .error e => .error e
      | .ok ns12 =>
      match migrateTopKey ns12 addrBucketName with
      | .error e => .error e
      | .ok ns13 =>
      match migrateTopKey ns13 usedAddrBucketName with
      | .error e => .error e
      | .ok ns14 =>
      match migrateTopKey ns14 addrAcctIdxBucketName with
      | .error e => .error e
      | .ok ns15 =>
      match migrateTopKey ns15 acctNameIdxBucketName with
      | .error e => .error e
      | .ok ns16 => migrateTopKey ns16 acctIDIdxBucketName

/-! ### Lemmas for the upgrade -/

theorem bget_of_nestedBucket {b : Bucket} {k : Bytes} {c : Bucket}
    (h : nestedBucket b k = some c) : bget b k = some (.bkt c) := by
  rw [nestedBucket] at h
  match hb : bget b k with
  | some (.bkt c2) => rw [hb] at h; cases h; rfl
  | some (.val v) => rw [hb] at h; cases h
  | none => rw [hb] at h; cases h

theorem keys_bput_subset (b : Bucket) (k : Bytes) (e : BEntry) :
    ∀ x ∈ (bput b k e).map Prod.fst, x ∈ b.map Prod.fst ∨ x = k := by
  induction b with
  | nil =>
      intro x hx
      simp only [bput, List.map_cons, List.map_nil] at hx
      right
      simpa using hx
  | cons p rest ih =>
      intro x hx
      rw [bput] at hx
      split at hx
      · rename_i heq
        rw [List.map_cons] at hx
        rcases List.mem_cons.mp hx with h1 | h1
        · right; exact h1
        · left; rw [List.map_cons]; exact List.mem_cons_of_mem _ h1
      · rw [List.map_cons] at hx
        rcases List.mem_cons.mp hx with h1 | h1
        · left; rw [List.map_cons, h1]; exact List.mem_cons_self _ _
        · rcases ih x h1 with h2 | h2
          · left; rw [List.map_cons]; exact List.mem_cons_of_mem _ h2
          · right; exact h2

theorem nodup_keys_bput (b : Bucket) (k : Bytes) (e : BEntry)
    (hnd : (b.map Prod.fst).Nodup) : ((bput b k e).map Prod.fst).Nodup := by
  induction b with
  | nil => simp [bput]
  | cons p rest ih =>
      rw [List.map_cons, List.nodup_cons] at hnd
      rw [bput]
      split
      · rename_i heq
        rw [List.map_cons, List.nodup_cons]
        exact ⟨heq ▸ hnd.1, hnd.2⟩
      · rename_i hne
        rw [List.map_cons, List.nodup_cons]
        refine ⟨?_, ih hnd.2⟩
        intro hc
        rcases keys_bput_subset rest k e _ hc with h1 | h1
        · exact hnd.1 h1
        · exact hne h1

theorem createBucket_of_none {b : Bucket} {k : Bytes}
    (h : bget b k = none) : createBucket b k = .ok (b ++ [(k, .bkt [])]) := by
  rw [createBucket, h]

theorem putPathVal_single {b : Bucket} {k1 : Bytes} {c : Bucket}
    (h : bget b k1 = some (.bkt c)) (k v : Bytes) :
    putPathVal b [k1] k v = .ok (bput b k1 (.bkt (bput c k (.val v)))) := by
  rw [putPathVal, modifyNested, h]
  rfl

theorem delPathKey_single {b : Bucket} {k1 : Bytes} {c : Bucket}
    (h : bget b k1 = some (.bkt c)) (k : Bytes) :
    delPathKey b [k1] k = .ok (bput b k1 (.bkt (bdel c k))) := by
  rw [delPathKey, modifyNested, h]
  rfl

theorem putPathVal_pair {b : Bucket} {k1 k2 : Bytes} {c1 c2 : Bucket}
    (h1 : bget b k1 = some (.bkt c1)) (h2 : bget c1 k2 = some (.bkt c2))
    (k v : Bytes) :
    putPathVal b [k1, k2] k v =
      .ok (bput b k1 (.bkt (bput c1 k2 (.bkt (bput c2 k (.val v)))))) := by
  rw [putPathVal, modifyNested, h1]
  dsimp only
  rw [modifyNested, h2]
  rfl

theorem putPathVal_triple {b : Bucket} {k1 k2 k3 : Bytes}
    {c1 c2 c3 : Bucket}
    (h1 : bget b k1 = some (.bkt c1)) (h2 : bget c1 k2 = some (.bkt c2))
    (h3 : bget c2 k3 = some (.bkt c3)) (k v : Bytes) :
    putPathVal b [k1, k2, k3] k v =
      .ok (bput b k1 (.bkt (bput c1 k2 (.bkt (bput c2 k3
        (.bkt (bput c3 k (.val v)))))))) := by
  rw [putPathVal, modifyNested, h1]
  dsimp only
  rw [modifyNested, h2]
  dsimp only
  rw [modifyNested, h3]
  rfl

theorem getPath_pair {b : Bucket} {k1 k2 : Bytes} {c1 c2 : Bucket}
    (h1 : bget b k1 = some (.bkt c1)) (h2 : bget c1 k2 = some (.bkt c2)) :
    getPath b [k1, k2] = some c2 := by
  rw [getPath, nestedBucket, h1]
  dsimp only
  rw [getPath_singleton, nestedBucket, h2]

theorem getPathVal_pair_eq {b : Bucket} {k1 k2 : Bytes} {c1 c2 : Bucket}
    (h1 : bget b k1 = some (.bkt c1)) (h2 : bget c1 k2 = some (.bkt c2))
    (k : Bytes) : getPathVal b [k1, k2] k = getVal c2 k := by
  rw [getPathVal, getPath_pair h1 h2]

theorem getPathVal_triple_eq {b : Bucket} {k1 k2 k3 : Bytes}
    {c1 c2 c3 : Bucket}
    (h1 : bget b k1 = some (.bkt c1)) (h2 : bget c1 k2 = some (.bkt c2))
    (h3 : bget c2 k3 = some (.bkt c3)) (k : Bytes) :
    getPathVal b [k1, k2, k3] k = getVal c3 k := by
  rw [getPathVal, getPath, nestedBucket, h1]
  dsimp only
  rw [getPath_pair h2 h3]

/-- A bucket tree as bolt stores it: pairwise distinct keys at every
level. -/
inductive TreeWF : Bucket → Prop where
  | mk (b : Bucket) : (b.map Prod.fst).Nodup →
      (∀ k c, (k, BEntry.bkt c) ∈ b → TreeWF c) → TreeWF b

theorem TreeWF.nodup {b : Bucket} (h : TreeWF b) :
    (b.map Prod.fst).Nodup := by
  cases h with
  | mk _ hnd _ => exact hnd

theorem TreeWF.sub {b : Bucket} (h : TreeWF b) :
    ∀ k c, (k, BEntry.bkt c) ∈ b → TreeWF c := by
  cases h with
  | mk _ _ hs => exact hs

theorem TreeWF.tail {p : Bytes × BEntry} {rest : Bucket}
    (h : TreeWF (p :: rest)) : TreeWF rest := by
  refine ⟨rest, (List.nodup_cons.mp (by simpa using h.nodup)).2, ?_⟩
  intro k c hmem
  exact h.sub k c (List.mem_cons_of_mem _ hmem)

/-- `mergeInto` succeeds on a well-formed source whose keys are all free
in the destination, and touches no other destination key. -/
theorem mergeInto_ok : ∀ n (src : List (Bytes × BEntry)), sizeOf src ≤ n →
    TreeWF src → ∀ dst : Bucket, (∀ p ∈ src, bget dst p.1 = none) →
    ∃ d, mergeInto src dst = .ok d ∧
      ∀ k2, k2 ∉ src.map Prod.fst → bget d k2 = bget dst k2 := by
  intro n
  induction n with
  | zero =>
      intro src hsz _ dst _
      match src with
      | [] => exact ⟨dst, by rw [mergeInto], fun k2 _ => rfl⟩
      | p :: rest => simp at hsz
  | succ n ih =>
      intro src hsz hwf dst hfree
      match src with
      | [] => exact ⟨dst, by rw [mergeInto], fun k2 _ => rfl⟩
      | (k, .val v) :: rest =>
          have hknot : k ∉ rest.map Prod.fst := by
            have := hwf.nodup
            rw [List.map_cons, List.nodup_cons] at this
            exact this.1
          have hsz2 : sizeOf rest ≤ n := by
            simp only [List.cons.sizeOf_spec, Prod.mk.sizeOf_spec] at hsz
            omega
          have hfree2 : ∀ p ∈ rest, bget (bput dst k (.val v)) p.1 = none := by
            intro p hp
            have hne : k ≠ p.1 := by
              intro hc
              exact hknot (hc ▸ List.mem_map_of_mem Prod.fst hp)
            rw [bget_bput_ne _ _ _ _ hne]
            exact hfree p (List.mem_cons_of_mem _ hp)
          obtain ⟨d, hd, hfr⟩ := ih rest hsz2 hwf.tail _ hfree2
          refine ⟨d, by rw [mergeInto]; exact hd, ?_⟩
          intro k2 hk2
          rw [List.map_cons] at hk2
          have hk2a : k2 ≠ k := fun hc => hk2 (hc ▸ List.mem_cons_self _ _)
          have hk2b : k2 ∉ rest.map Prod.fst :=
            fun hc => hk2 (List.mem_cons_of_mem _ hc)
          rw [hfr k2 hk2b, bget_bput_ne _ _ _ _ (Ne.symm hk2a)]
      | (k, .bkt c) :: rest =>
          have hknot : k ∉ rest.map Prod.fst := by
            have := hwf.nodup
            rw [List.map_cons, List.nodup_cons] at this
            exact this.1
          have hdk : bget dst k = none :=
            hfree (k, .bkt c) (List.mem_cons_self _ _)
          have hszc : sizeOf c ≤ n := by
            simp only [List.cons.sizeOf_spec, Prod.mk.sizeOf_spec,
              BEntry.bkt.sizeOf_spec] at hsz
            omega
          have hszr : sizeOf rest ≤ n := by
            simp only [List.cons.sizeOf_spec, Prod.mk.sizeOf_spec] at hsz
            omega
          have hcwf : TreeWF c := hwf.sub k c (List.mem_cons_self _ _)
          obtain ⟨d1, hd1, hfr1⟩ := ih c hszc hcwf []
            (fun p _ => rfl)
          have hnb : nestedBucket (dst ++ [(k, .bkt [])]) k = some [] := by
            rw [nestedBucket, bget_append_of_none _ hdk, bget, if_pos rfl]
          have hfree2 : ∀ p ∈ rest,
              bget (bput (dst ++ [(k, .bkt [])]) k (.bkt d1)) p.1 = none := by
            intro p hp
            have hne : k ≠ p.1 := by
              intro hc
              exact hknot (hc ▸ List.mem_map_of_mem Prod.fst hp)
            rw [bget_bput_ne _ _ _ _ hne, bget_append_of_none _
              (hfree p (List.mem_cons_of_mem _ hp)), bget,
              if_neg hne, bget]
          obtain ⟨d, hd, hfr⟩ := ih rest hszr hwf.tail _ hfree2
          refine ⟨d, ?_, ?_⟩
          · rw [mergeInto, createBucketIfNotExists, hdk]
            dsimp only
            rw [hnb]
            dsimp only
            rw [hd1]
            dsimp only
            rw [hd]
          · intro k2 hk2
            rw [List.map_cons] at hk2
            have hk2a : k2 ≠ k := fun hc => hk2 (hc ▸ List.mem_cons_self _ _)
            have hk2b : k2 ∉ rest.map Prod.fst :=
              fun hc => hk2 (List.mem_cons_of_mem _ hc)
            rw [hfr k2 hk2b, bget_bput_ne _ _ _ _ (Ne.symm hk2a)]
            match hg : bget dst k2 with
            | some e => exact bget_append_of_some _ hg
            | none =>
                rw [bget_append_of_none _ hg, bget,
                  if_neg (Ne.symm hk2a), bget]

/-- A bad row anywhere in the `addr` bucket makes the segwit scan fail
(rows before it either pass the check or abort the scan themselves). -/
theorem segwitCheck_error {addrB : List (Bytes × BEntry)} {k v : Bytes}
    {row : DbAddressRow} (hmem : (k, .val v) ∈ addrB)
    (hrow : deserializeAddressRow v = Except.ok row)
    (hbad : adtScript < row.addrType) :
    ∃ msg, segwitCheck addrB = .error msg := by
  induction addrB with
  | nil => cases hmem
  | cons p rest ih =>
      rcases List.mem_cons.mp hmem with hp | hp
      · subst hp
        have hsv : segwitVal (.val v) = v := rfl
        rw [segwitCheck, hsv, hrow]
        dsimp only
        rw [if_pos hbad]
        exact ⟨_, rfl⟩
      · obtain ⟨k2, e2⟩ := p
        rw [segwitCheck]
        cases h2 : deserializeAddressRow (segwitVal e2) with
        | error msg => exact ⟨msg, rfl⟩
        | ok row2 =>
            dsimp only
            by_cases hb2 : adtScript < row2.addrType
            · rw [if_pos hb2]
              exact ⟨_, rfl⟩
            · rw [if_neg hb2]
              exact ih hp

/-- One migration round: read the `bip44` bucket at
`scope/⟨44,0⟩`, move the tree, write the handle back. -/
theorem migrateTopKey_ok {ns sb bip44 tree dchild merged : Bucket}
    {key : Bytes}
    (hsb : bget ns scopeBucketName = some (.bkt sb))
    (hb44 : bget sb bip44ScopeKey = some (.bkt bip44))
    (htree : bget ns key = some (.bkt tree))
    (hdst : bget bip44 key = some (.bkt dchild))
    (hm : mergeInto tree dchild = .ok merged)
    (hne : key ≠ scopeBucketName) :
    migrateTopKey ns key = .ok (bput (bdel ns key) scopeBucketName
      (.bkt (bput sb bip44ScopeKey (.bkt (bput bip44 key
        (.bkt merged)))))) := by
  rw [migrateTopKey, getPath_pair hsb hb44]
  dsimp only
  rw [migrateRecursively, nestedBucket, htree]
  dsimp only
  rw [createBucketIfNotExists, hdst]
  dsimp only
  rw [nestedBucket, hdst]
  dsimp only
  rw [hm]
  dsimp only
  rw [modifyNested, bget_bdel_ne _ _ _ hne, hsb]
  rfl

/-- Frame of one migration round at a key different from the migrated
one and from `scope`. -/
theorem bget_migrate_frame (m : Bucket) (key k : Bytes) (e : BEntry)
    (h1 : k ≠ key) (h2 : k ≠ scopeBucketName) :
    bget (bput (bdel m key) scopeBucketName e) k = bget m k := by
  rw [bget_bput_ne _ _ _ _ (Ne.symm h2), bget_bdel_ne _ _ _ (Ne.symm h1)]

/-- The seven fresh children `createScopedManagerNS` makes. -/
def scopedChildInit : Bucket :=
  [(acctBucketName, .bkt []), (addrBucketName, .bkt []),
   (usedAddrBucketName, .bkt []), (addrAcctIdxBucketName, .bkt []),
   (acctNameIdxBucketName, .bkt []), (acctIDIdxBucketName, .bkt []),
   (metaBucketName, .bkt [])]

theorem createScopedManagerNS_init :
    createScopedManagerNS [] bip44ScopeKey =
      .ok [(bip44ScopeKey, .bkt scopedChildInit)] := by rfl

/-- One migration round, with an opaque result: the scope handle written
back, every other top-level key untouched, every other `bip44` key
untouched. -/
theorem migrateTopKey_round {ns sb bip44 tree : Bucket} {key : Bytes}
    (hsb : bget ns scopeBucketName = some (.bkt sb))
    (hb44 : bget sb bip44ScopeKey = some (.bkt bip44))
    (htree : bget ns key = some (.bkt tree)) (hwf : TreeWF tree)
    (hdst : bget bip44 key = some (.bkt []))
    (hne : key ≠ scopeBucketName) :
    ∃ ns2 b44b, migrateTopKey ns key = .ok ns2 ∧
      bget ns2 scopeBucketName =
        some (.bkt (bput sb bip44ScopeKey (.bkt b44b))) ∧
      (∀ k, k ≠ key → k ≠ scopeBucketName → bget ns2 k = bget ns k) ∧
      (∀ k2, k2 ≠ key → bget b44b k2 = bget bip44 k2) := by
  obtain ⟨merged, hm, _⟩ :=
    mergeInto_ok (sizeOf tree) tree le_rfl hwf [] (fun p _ => rfl)
  refine ⟨_, bput bip44 key (.bkt merged),
    migrateTopKey_ok hsb hb44 htree hdst hm hne, ?_, ?_, ?_⟩
  · rw [bget_bput_self]
  · intro k h1 h2
    exact bget_migrate_frame ns key k _ h1 h2
  · intro k2 h
    rw [bget_bput_ne _ _ _ _ (Ne.symm h)]

/-- The six trees `upgradeToVersion5` relocates. -/
def migrateKeys : List Bytes :=
  [acctBucketName, addrBucketName, usedAddrBucketName,
   addrAcctIdxBucketName, acctNameIdxBucketName, acctIDIdxBucketName]

/-- A v4 namespace `upgradeToVersion5` can migrate: `main`, `meta` and
the six trees exist (with bolt's distinct keys), every address row passes
the segwit scan, the coin-type keys and last-account value are present,
and the new `scope`/`scope-schema` buckets do not exist yet. -/
def UpgradeWF (ns : Bucket) : Prop :=
  (∃ addrB, nestedBucket ns addrBucketName = some addrB ∧
    segwitCheck addrB = .ok ()) ∧
  (∃ mainB, nestedBucket ns mainBucketName = some mainB ∧
    (mainB.map Prod.fst).Nodup ∧
    (∃ pub, getVal mainB coinTypePubKeyName = some pub) ∧
    (∃ priv, getVal mainB coinTypePrivKeyName = some priv)) ∧
  (∃ metaB, nestedBucket ns metaBucketName = some metaB ∧
    (metaB.map Prod.fst).Nodup ∧
    (∃ la, getVal metaB lastAccountName = some la)) ∧
  bget ns scopeBucketName = none ∧
  bget ns scopeSchemaBucketName = none ∧
  (∀ bk ∈ migrateKeys, ∃ t, nestedBucket ns bk = some t ∧ TreeWF t)

/-- What the upgrade leaves behind: the coin-type keys moved byte-for-byte
into `scope/⟨44,0⟩` and deleted from `main/`, the last-account value moved
from `meta/` into the per-scope meta bucket, and the manager version
written as 5. -/
def UpgradeOutcome (ns ns2 : Bucket) : Prop :=
  getPathVal ns2 [scopeBucketName, bip44ScopeKey] coinTypePubKeyName =
    getPathVal ns [mainBucketName] coinTypePubKeyName ∧
  getPathVal ns2 [scopeBucketName, bip44ScopeKey] coinTypePrivKeyName =
    getPathVal ns [mainBucketName] coinTypePrivKeyName ∧
  getPathVal ns2 [mainBucketName] coinTypePubKeyName = none ∧
  getPathVal ns2 [mainBucketName] coinTypePrivKeyName = none ∧
  getPathVal ns2 [scopeBucketName, bip44ScopeKey, metaBucketName]
      lastAccountName = getPathVal ns [metaBucketName] lastAccountName ∧
  getPathVal ns2 [metaBucketName] lastAccountName = none ∧
  fetchManagerVersion ns2 = some 5

set_option maxHeartbeats 1600000 in
/-- C1: the v4→v5 migration.  On a well-formed v4 namespace the upgrade
succeeds, moves the encrypted coin-type public and private keys out of
`main/` into the default BIP0044 scope bucket byte-for-byte, deletes the
originals, moves `last_account` from the top-level meta bucket into the
per-scope meta bucket, and writes manager version 5; and on any namespace
whose `addr` bucket holds a row with an address type beyond `adtScript`
it returns an error, and the enclosing transaction rollback leaves the
namespace — its manager version included — unchanged. -/
theorem c1_upgradeToVersion5 (schemaBytes : Bytes) (ns : Bucket)
    (hwf : UpgradeWF ns) :
    (∃ ns2, upgradeToVersion5 schemaBytes ns = .ok ns2 ∧
      UpgradeOutcome ns ns2) ∧
    (∀ ns' addrB k v row, nestedBucket ns' addrBucketName = some addrB →
      (k, .val v) ∈ addrB → deserializeAddressRow v = Except.ok row →
      adtScript < row.addrType →
      (∃ msg, upgradeToVersion5 schemaBytes ns' = .error msg) ∧
        runUpdate (upgradeToVersion5 schemaBytes) ns' = ns' ∧
        fetchManagerVersion (runUpdate (upgradeToVersion5 schemaBytes) ns') =
          fetchManagerVersion ns') := by
  constructor
  · -- success path
    obtain ⟨⟨addrB, haddrB, hsegok⟩,
      ⟨m0, hmainNB, hmnd, ⟨pub, hpub⟩, ⟨priv, hpriv⟩⟩,
      ⟨metaB, hmetaNB, hmetand, ⟨la, hla⟩⟩, hscnone, hssnone, hmig⟩ := hwf
    have hmain : bget ns mainBucketName = some (.bkt m0) :=
      bget_of_nestedBucket hmainNB
    have hmeta : bget ns metaBucketName = some (.bkt metaB) :=
      bget_of_nestedBucket hmetaNB
    -- step 1: putManagerVersion
    set m1 := bput m0 mgrVersionName (.val (uint32ToBytes 5)) with hm1
    set N1 := bput ns mainBucketName (.bkt m1) with hN1
    have h1 : putManagerVersion ns 5 = .ok N1 := by
      rw [putManagerVersion, putPathVal_single hmain, hN1, hm1]
    -- step 2: create scope
    have hN1sc : bget N1 scopeBucketName = none := by
      rw [hN1, bget_bput_ne _ _ _ _ (by decide)]
      exact hscnone
    set N2 := N1 ++ [(scopeBucketName, .bkt ([] : Bucket))] with hN2
    have h2 : createBucket N1 scopeBucketName = .ok N2 :=
      createBucket_of_none hN1sc
    -- step 3: create scope-schema
    have hN2ss : bget N2 scopeSchemaBucketName = none := by
      rw [hN2, bget_append_of_none _ (by
        rw [hN1, bget_bput_ne _ _ _ _ (by decide)]
        exact hssnone), bget, if_neg (by decide), bget]
    set N3 := N2 ++ [(scopeSchemaBucketName, .bkt ([] : Bucket))] with hN3
    have h3 : createBucket N2 scopeSchemaBucketName = .ok N3 :=
      createBucket_of_none hN2ss
    -- step 4: write the schema
    have hN3ss : bget N3 scopeSchemaBucketName = some (.bkt []) := by
      rw [hN3, bget_append_of_none _ hN2ss, bget, if_pos rfl]
    set N4 := bput N3 scopeSchemaBucketName
      (.bkt (bput [] bip44ScopeKey (.val schemaBytes))) with hN4
    have h4 : putPathVal N3 [scopeSchemaBucketName] bip44ScopeKey
        schemaBytes = .ok N4 := by
      rw [putPathVal_single hN3ss, hN4]
    -- step 5: createScopedManagerNS
    have hN2sc : bget N2 scopeBucketName = some (.bkt []) := by
      rw [hN2, bget_append_of_none _ hN1sc, bget, if_pos rfl]
    have hN4sc : bget N4 scopeBucketName = some (.bkt []) := by
      rw [hN4, bget_bput_ne _ _ _ _ (by decide), hN3,
        bget_append_of_some _ hN2sc]
    set S0 := [(bip44ScopeKey, BEntry.bkt scopedChildInit)] with hS0
    set N5 := bput N4 scopeBucketName (.bkt S0) with hN5
    have h5 : modifyNested N4 [scopeBucketName]
        (fun sb => createScopedManagerNS sb bip44ScopeKey) = .ok N5 := by
      rw [modifyNested, hN4sc]
      dsimp only
      rw [modifyNested]
      rw [createScopedManagerNS_init, hN5, hS0]
    -- the main bucket handle read after step 5
    have hN5main : bget N5 mainBucketName = some (.bkt m1) := by
      rw [hN5, bget_bput_ne _ _ _ _ (by decide), hN4,
        bget_bput_ne _ _ _ _ (by decide), hN3,
        bget_append_of_some _ (by
          rw [hN2, bget_append_of_some _ (by
            rw [hN1]
            exact bget_bput_self _ _ _)])]
    have hgp5 : getPath N5 [mainBucketName] = some m1 := by
      rw [getPath_singleton, nestedBucket, hN5main]
    have hpriv1 : getVal m1 coinTypePrivKeyName = some priv := by
      rw [getVal, hm1, bget_bput_ne _ _ _ _ (by decide)]
      rw [getVal] at hpriv
      exact hpriv
    have hpub1 : getVal m1 coinTypePubKeyName = some pub := by
      rw [getVal, hm1, bget_bput_ne _ _ _ _ (by decide)]
      rw [getVal] at hpub
      exact hpub
    -- step 6: move ctpriv
    have hN5sc : bget N5 scopeBucketName = some (.bkt S0) := by
      rw [hN5]
      exact bget_bput_self _ _ _
    have hS0b : bget S0 bip44ScopeKey = some (.bkt scopedChildInit) := by
      rw [hS0, bget, if_pos rfl]
    set SC1 := bput scopedChildInit coinTypePrivKeyName (.val priv) with hSC1
    set S1 := bput S0 bip44ScopeKey (.bkt SC1) with hS1
    set N6 := bput N5 scopeBucketName (.bkt S1) with hN6
    have h6 : putPathVal N5 [scopeBucketName, bip44ScopeKey]
        coinTypePrivKeyName ((getVal m1 coinTypePrivKeyName).getD []) =
        .ok N6 := by
      rw [hpriv1, putPathVal_pair hN5sc hS0b, hN6, hS1, hSC1]
      rfl
    -- step 7: move ctpub
    have hN6sc : bget N6 scopeBucketName = some (.bkt S1) := by
      rw [hN6]
      exact bget_bput_self _ _ _
    have hS1b : bget S1 bip44ScopeKey = some (.bkt SC1) := by
      rw [hS1]
      exact bget_bput_self _ _ _
    set SC2 := bput SC1 coinTypePubKeyName (.val pub) with hSC2
    set S2 := bput S1 bip44ScopeKey (.bkt SC2) with hS2
    set N7 := bput N6 scopeBucketName (.bkt S2) with hN7
    have h7 : putPathVal N6 [scopeBucketName, bip44ScopeKey]
        coinTypePubKeyName ((getVal m1 coinTypePubKeyName).getD []) =
        .ok N7 := by
      rw [hpub1, putPathVal_pair hN6sc hS1b, hN7, hS2, hSC2]
      rfl
    -- step 8: delete ctpriv from main
    have hN7main : bget N7 mainBucketName = some (.bkt m1) := by
      rw [hN7, bget_bput_ne _ _ _ _ (by decide), hN6,
        bget_bput_ne _ _ _ _ (by decide)]
      exact hN5main
    set N8 := bput N7 mainBucketName
      (.bkt (bdel m1 coinTypePrivKeyName)) with hN8
    have h8 : delPathKey N7 [mainBucketName] coinTypePrivKeyName =
        .ok N8 := by
      rw [delPathKey_single hN7main, hN8]
    -- step 9: delete ctpub from main
    have hN8main : bget N8 mainBucketName =
        some (.bkt (bdel m1 coinTypePrivKeyName)) := by
      rw [hN8]
      exact bget_bput_self _ _ _
    set m9 := bdel (bdel m1 coinTypePrivKeyName) coinTypePubKeyName with hm9
    set N9 := bput N8 mainBucketName (.bkt m9) with hN9
    have h9 : delPathKey N8 [mainBucketName] coinTypePubKeyName =
        .ok N9 := by
      rw [delPathKey_single hN8main, hN9, hm9]
    -- step 10: read meta, delete last_account
    have hN9meta : bget N9 metaBucketName = some (.bkt metaB) := by
      rw [hN9, bget_bput_ne _ _ _ _ (by decide), hN8,
        bget_bput_ne _ _ _ _ (by decide), hN7,
        bget_bput_ne _ _ _ _ (by decide), hN6,
        bget_bput_ne _ _ _ _ (by decide), hN5,
        bget_bput_ne _ _ _ _ (by decide), hN4,
        bget_bput_ne _ _ _ _ (by decide), hN3,
        bget_append_of_some _ (by
          rw [hN2, bget_append_of_some _ (by
            rw [hN1, bget_bput_ne _ _ _ _ (by decide)]
            exact hmeta)])]
    have hgp9 : getPath N9 [metaBucketName] = some metaB := by
      rw [getPath_singleton, nestedBucket, hN9meta]
    set N10 := bput N9 metaBucketName
      (.bkt (bdel metaB lastAccountName)) with hN10
    have h10 : delPathKey N9 [metaBucketName] lastAccountName =
        .ok N10 := by
      rw [delPathKey_single hN9meta, hN10]
    -- step 11: write last_account under the scoped meta bucket
    have hN10sc : bget N10 scopeBucketName = some (.bkt S2) := by
      rw [hN10, bget_bput_ne _ _ _ _ (by decide), hN9,
        bget_bput_ne _ _ _ _ (by decide), hN8,
        bget_bput_ne _ _ _ _ (by decide), hN7]
      exact bget_bput_self _ _ _
    have hS2b : bget S2 bip44ScopeKey = some (.bkt SC2) := by
      rw [hS2]
      exact bget_bput_self _ _ _
    have hSC2meta : bget SC2 metaBucketName = some (.bkt []) := by
      rw [hSC2, bget_bput_ne _ _ _ _ (by decide), hSC1,
        bget_bput_ne _ _ _ _ (by decide)]
      rfl
    set SC3 := bput SC2 metaBucketName
      (.bkt (bput [] lastAccountName (.val la))) with hSC3
    set S3 := bput S2 bip44ScopeKey (.bkt SC3) with hS3
    set N11 := bput N10 scopeBucketName (.bkt S3) with hN11
    have h11 : putPathVal N10
        [scopeBucketName, bip44ScopeKey, metaBucketName] lastAccountName
        ((getVal metaB lastAccountName).getD []) = .ok N11 := by
      rw [hla, putPathVal_triple hN10sc hS2b hSC2meta, hN11, hS3, hSC3]
      rfl
    -- the six migration rounds
    have hN11sc : bget N11 scopeBucketName = some (.bkt S3) := by
      rw [hN11]
      exact bget_bput_self _ _ _
    have hS3b : bget S3 bip44ScopeKey = some (.bkt SC3) := by
      rw [hS3]
      exact bget_bput_self _ _ _
    have hN11top : ∀ bk, bk ∈ migrateKeys →
        bget N11 bk = bget ns bk := by
      intro bk hbk
      fin_cases hbk <;>
        rw [hN11, bget_bput_ne _ _ _ _ (by decide), hN10,
          bget_bput_ne _ _ _ _ (by decide), hN9,
          bget_bput_ne _ _ _ _ (by decide), hN8,
          bget_bput_ne _ _ _ _ (by decide), hN7,
          bget_bput_ne _ _ _ _ (by decide), hN6,
          bget_bput_ne _ _ _ _ (by decide), hN5,
          bget_bput_ne _ _ _ _ (by decide), hN4,
          bget_bput_ne _ _ _ _ (by decide), hN3,
          bget_append_not_mem _ (by decide), hN2,
          bget_append_not_mem _ (by decide), hN1,
          bget_bput_ne _ _ _ _ (by decide)]
    have hSC3get : ∀ bk, bk ∈ migrateKeys →
        bget SC3 bk = some (.bkt []) := by
      intro bk hbk
      fin_cases hbk <;>
        · rw [hSC3, bget_bput_ne _ _ _ _ (by decide), hSC2,
            bget_bput_ne _ _ _ _ (by decide), hSC1,
            bget_bput_ne _ _ _ _ (by decide)]
          rfl
    obtain ⟨tA, htA, hwA⟩ := hmig acctBucketName (by decide)
    obtain ⟨tB, htB, hwB⟩ := hmig addrBucketName (by decide)
    obtain ⟨tC, htC, hwC⟩ := hmig usedAddrBucketName (by decide)
    obtain ⟨tD, htD, hwD⟩ := hmig addrAcctIdxBucketName (by decide)
    obtain ⟨tE, htE, hwE⟩ := hmig acctNameIdxBucketName (by decide)
    obtain ⟨tF, htF, hwF⟩ := hmig acctIDIdxBucketName (by decide)
    -- round 1: acct
    obtain ⟨N12, B1, h12, h12sc, h12fr, h12b⟩ :=
      migrateTopKey_round hN11sc hS3b
        (by rw [hN11top acctBucketName (by decide)]
            exact bget_of_nestedBucket htA)
        hwA (hSC3get acctBucketName (by decide)) (by decide)
    -- round 2: addr
    obtain ⟨N13, B2, h13, h13sc, h13fr, h13b⟩ :=
      migrateTopKey_round h12sc (bget_bput_self _ _ _)
        (by rw [h12fr addrBucketName (by decide) (by decide),
              hN11top addrBucketName (by decide)]
            exact bget_of_nestedBucket htB)
        hwB
        (by rw [h12b addrBucketName (by decide)]
            exact hSC3get addrBucketName (by decide))
        (by decide)
    -- round 3: usedaddrs
    obtain ⟨N14, B3, h14, h14sc, h14fr, h14b⟩ :=
      migrateTopKey_round h13sc (bget_bput_self _ _ _)
        (by rw [h13fr usedAddrBucketName (by decide) (by decide),
              h12fr usedAddrBucketName (by decide) (by decide),
              hN11top usedAddrBucketName (by decide)]
            exact bget_of_nestedBucket htC)
        hwC
        (by rw [h13b usedAddrBucketName (by decide),
              h12b usedAddrBucketName (by decide)]
            exact hSC3get usedAddrBucketName (by decide))
        (by decide)
    -- round 4: addracctidx
    obtain ⟨N15, B4, h15, h15sc, h15fr, h15b⟩ :=
      migrateTopKey_round h14sc (bget_bput_self _ _ _)
        (by rw [h14fr addrAcctIdxBucketName (by decide) (by decide),
              h13fr addrAcctIdxBucketName (by decide) (by decide),
              h12fr addrAcctIdxBucketName (by decide) (by decide),
              hN11top addrAcctIdxBucketName (by decide)]
            exact bget_of_nestedBucket htD)
        hwD
        (by rw [h14b addrAcctIdxBucketName (by decide),
              h13b addrAcctIdxBucketName (by decide),
              h12b addrAcctIdxBucketName (by decide)]
            exact hSC3get addrAcctIdxBucketName (by decide))
        (by decide)
    -- round 5: acctnameidx
    obtain ⟨N16, B5, h16, h16sc, h16fr, h16b⟩ :=
      migrateTopKey_round h15sc (bget_bput_self _ _ _)
        (by rw [h15fr acctNameIdxBucketName (by decide) (by decide),
              h14fr acctNameIdxBucketName (by decide) (by decide),
              h13fr acctNameIdxBucketName (by decide) (by decide),
              h12fr acctNameIdxBucketName (by decide) (by decide),
              hN11top acctNameIdxBucketName (by decide)]
            exact bget_of_nestedBucket htE)
        hwE
        (by rw [h15b acctNameIdxBucketName (by decide),
              h14b acctNameIdxBucketName (by decide),
              h13b acctNameIdxBucketName (by decide),
              h12b acctNameIdxBucketName (by decide)]
            exact hSC3get acctNameIdxBucketName (by decide))
        (by decide)
    -- round 6: acctididx
    obtain ⟨N17, B6, h17, h17sc, h17fr, h17b⟩ :=
      migrateTopKey_round h16sc (bget_bput_self _ _ _)
        (by rw [h16fr acctIDIdxBucketName (by decide) (by decide),
              h15fr acctIDIdxBucketName (by decide) (by decide),
              h14fr acctIDIdxBucketName (by decide) (by decide),
              h13fr acctIDIdxBucketName (by decide) (by decide),
              h12fr acctIDIdxBucketName (by decide) (by decide),
              hN11top acctIDIdxBucketName (by decide)]
            exact bget_of_nestedBucket htF)
        hwF
        (by rw [h16b acctIDIdxBucketName (by decide),
              h15b acctIDIdxBucketName (by decide),
              h14b acctIDIdxBucketName (by decide),
              h13b acctIDIdxBucketName (by decide),
              h12b acctIDIdxBucketName (by decide)]
            exact hSC3get acctIDIdxBucketName (by decide))
        (by decide)
    -- assemble the run
    refine ⟨N17, ?_, ?_, ?_, ?_, ?_, ?_, ?_, ?_⟩
    · rw [upgradeToVersion5, haddrB]
      dsimp only
      rw [hsegok]
      dsimp only
      rw [h1]
      dsimp only
      rw [h2]
      dsimp only
      rw [h3]
      dsimp only
      rw [h4]
      dsimp only
      rw [h5]
      dsimp only
      rw [hgp5]
      dsimp only
      rw [h6]
      dsimp only
      rw [h7]
      dsimp only
      rw [h8]
      dsimp only
      rw [h9]
      dsimp only
      rw [hgp9]
      dsimp only
      rw [h10]
      dsimp only
      rw [h11]
      dsimp only
      rw [h12]
      dsimp only
      rw [h13]
      dsimp only
      rw [h14]
      dsimp only
      rw [h15]
      dsimp only
      rw [h16]
      dsimp only
      rw [h17]
    · -- ctpub moved byte-for-byte
      rw [getPathVal_pair_eq h17sc (bget_bput_self _ _ _),
        getPathVal_of_nested hmainNB, hpub, getVal,
        h17b coinTypePubKeyName (by decide),
        h16b coinTypePubKeyName (by decide),
        h15b coinTypePubKeyName (by decide),
        h14b coinTypePubKeyName (by decide),
        h13b coinTypePubKeyName (by decide),
        h12b coinTypePubKeyName (by decide),
        hSC3, bget_bput_ne _ _ _ _ (by decide), hSC2, bget_bput_self]
    · -- ctpriv moved byte-for-byte
      rw [getPathVal_pair_eq h17sc (bget_bput_self _ _ _),
        getPathVal_of_nested hmainNB, hpriv, getVal,
        h17b coinTypePrivKeyName (by decide),
        h16b coinTypePrivKeyName (by decide),
        h15b coinTypePrivKeyName (by decide),
        h14b coinTypePrivKeyName (by decide),
        h13b coinTypePrivKeyName (by decide),
        h12b coinTypePrivKeyName (by decide),
        hSC3, bget_bput_ne _ _ _ _ (by decide), hSC2,
        bget_bput_ne _ _ _ _ (by decide), hSC1, bget_bput_self]
    · -- ctpub gone from main
      rw [getPathVal_of_nested (show nestedBucket N17 mainBucketName =
          some m9 by
        rw [nestedBucket, h17fr mainBucketName (by decide) (by decide),
          h16fr mainBucketName (by decide) (by decide),
          h15fr mainBucketName (by decide) (by decide),
          h14fr mainBucketName (by decide) (by decide),
          h13fr mainBucketName (by decide) (by decide),
          h12fr mainBucketName (by decide) (by decide),
          hN11, bget_bput_ne _ _ _ _ (by decide), hN10,
          bget_bput_ne _ _ _ _ (by decide), hN9, bget_bput_self]),
        getVal, hm9,
        bget_bdel_self _ _ (nodup_keys_bdel _ (nodup_keys_bput _ _ _ hmnd))]
    · -- ctpriv gone from main
      rw [getPathVal_of_nested (show nestedBucket N17 mainBucketName =
          some m9 by
        rw [nestedBucket, h17fr mainBucketName (by decide) (by decide),
          h16fr mainBucketName (by decide) (by decide),
          h15fr mainBucketName (by decide) (by decide),
          h14fr mainBucketName (by decide) (by decide),
          h13fr mainBucketName (by decide) (by decide),
          h12fr mainBucketName (by decide) (by decide),
          hN11, bget_bput_ne _ _ _ _ (by decide), hN10,
          bget_bput_ne _ _ _ _ (by decide), hN9, bget_bput_self]),
        getVal, hm9, bget_bdel_ne _ _ _ (by decide),
        bget_bdel_self _ _ (nodup_keys_bput _ _ _ hmnd)]
    · -- last_account in the scoped meta bucket
      rw [getPathVal_triple_eq h17sc (bget_bput_self _ _ _) (by
          rw [h17b metaBucketName (by decide),
            h16b metaBucketName (by decide),
            h15b metaBucketName (by decide),
            h14b metaBucketName (by decide),
            h13b metaBucketName (by decide),
            h12b metaBucketName (by decide), hSC3, bget_bput_self]),
        getPathVal_of_nested hmetaNB, hla, getVal,
        show bput ([] : Bucket) lastAccountName (.val la) =
          [(lastAccountName, .val la)] from rfl,
        bget, if_pos rfl]
    · -- last_account gone from meta
      rw [getPathVal_of_nested (show nestedBucket N17 metaBucketName =
          some (bdel metaB lastAccountName) by
        rw [nestedBucket, h17fr metaBucketName (by decide) (by decide),
          h16fr metaBucketName (by decide) (by decide),
          h15fr metaBucketName (by decide) (by decide),
          h14fr metaBucketName (by decide) (by decide),
          h13fr metaBucketName (by decide) (by decide),
          h12fr metaBucketName (by decide) (by decide),
          hN11, bget_bput_ne _ _ _ _ (by decide), hN10, bget_bput_self]),
        getVal, bget_bdel_self _ _ hmetand]
    · -- the manager version is 5
      rw [fetchManagerVersion,
        getPathVal_of_nested (show nestedBucket N17 mainBucketName =
          some m9 by
        rw [nestedBucket, h17fr mainBucketName (by decide) (by decide),
          h16fr mainBucketName (by decide) (by decide),
          h15fr mainBucketName (by decide) (by decide),
          h14fr mainBucketName (by decide) (by decide),
          h13fr mainBucketName (by decide) (by decide),
          h12fr mainBucketName (by decide) (by decide),
          hN11, bget_bput_ne _ _ _ _ (by decide), hN10,
          bget_bput_ne _ _ _ _ (by decide), hN9, bget_bput_self]),
        getVal, hm9, bget_bdel_ne _ _ _ (by decide),
        bget_bdel_ne _ _ _ (by decide), hm1, bget_bput_self]
      dsimp only
      rw [if_neg (by rw [uint32ToBytes_length]; decide),
        show (4 : Nat) = (uint32ToBytes 5).length from
          (uint32ToBytes_length 5).symm,
        List.take_length, leVal_uint32ToBytes (by decide)]
  · -- refusal path
    intro ns' addrB k v row haddr' hmem hrow hbad
    obtain ⟨msg, hmsg⟩ := segwitCheck_error hmem hrow hbad
    have herr : upgradeToVersion5 schemaBytes ns' = .error msg := by
      rw [upgradeToVersion5, haddr']
      dsimp only
      rw [hmsg]
    have hroll : runUpdate (upgradeToVersion5 schemaBytes) ns' = ns' := by
      rw [runUpdate, herr]
    exact ⟨⟨msg, herr⟩, hroll, by rw [hroll]⟩

/-! ### A concrete v4 namespace for the upgrade -/

/-- A small v4 wallet namespace: legacy rows only, coin-type keys under
`main/`, a last-account value, and a nested index bucket. -/
def c1ns : Bucket :=
  [(mainBucketName, .bkt
     [(mgrVersionName, .val (uint32ToBytes 4)),
      (coinTypePubKeyName, .val [7]),
      (coinTypePrivKeyName, .val [8])]),
   (metaBucketName, .bkt [(lastAccountName, .val (uint32ToBytes 0))]),
   (acctBucketName, .bkt [(uint32ToBytes 0, .val [1])]),
   (addrBucketName, .bkt [(strBytes "h", .val c3AddrRowVal)]),
   (usedAddrBucketName, .bkt []),
   (addrAcctIdxBucketName, .bkt
     [(strBytes "x", .bkt [(strBytes "y", .val [2])])]),
   (acctNameIdxBucketName, .bkt []),
   (acctIDIdxBucketName, .bkt [])]

theorem c1ns_wf : UpgradeWF c1ns := by
  have hflat : ∀ (k0 : Bytes) (v0 : Bytes),
      TreeWF [(k0, BEntry.val v0)] := by
    intro k0 v0
    refine ⟨_, by simp, ?_⟩
    intro k c h
    simp at h
  have hnil : TreeWF ([] : Bucket) := ⟨_, by simp, by intro k c h; simp at h⟩
  refine ⟨⟨_, rfl, by rfl⟩,
    ⟨_, rfl, by decide, ⟨[7], rfl⟩, ⟨[8], rfl⟩⟩,
    ⟨_, rfl, by decide, ⟨uint32ToBytes 0, rfl⟩⟩,
    rfl, rfl, ?_⟩
  intro bk hbk
  fin_cases hbk
  · exact ⟨_, rfl, hflat _ _⟩
  · exact ⟨_, rfl, hflat _ _⟩
  · exact ⟨_, rfl, hnil⟩
  · refine ⟨_, rfl, ⟨_, by simp, ?_⟩⟩
    intro k c h
    simp at h
    obtain ⟨hk, hc⟩ := h
    subst hc
    exact hflat _ _
  · exact ⟨_, rfl, hnil⟩
  · exact ⟨_, rfl, hnil⟩

/-- C1 witness: the upgrade on the concrete v4 namespace (with a 2-byte
schema). -/
theorem c1_upgradeToVersion5_witness :
    UpgradeWF c1ns ∧
      ∃ ns2, upgradeToVersion5 [0, 0] c1ns = .ok ns2 ∧
        UpgradeOutcome c1ns ns2 :=
  ⟨c1ns_wf, (c1_upgradeToVersion5 [0, 0] c1ns c1ns_wf).1⟩

end Waddrmgr

namespace Headerfs

/-! ## Header store (`cmd/spv/headerfs`)

The store implementation is not part of the repository's files; only its
tests are (`store_test.go`).  The store is therefore modelled from the
spec — §4.A and §6: a flat file of fixed-width records, record `h` at
offset `(h−1) × stride` (genesis is implicit and not stored), plus an
index whose advertised tip height may lag the file after a crash — with
the behavior of `fetch_ancestor_range` pinned by the assertions of
`TestBlockHeadersFetchHeaderAncestors`. -/

/-- The block-header record stride (80 bytes). -/
def stride : Nat := 80

/-- Modelled from the spec: the on-disk state — the record list (entry
`i` is the record at height `i + 1`; genesis is implicit) and the index's
advertised tip height. -/
structure HeaderFileState where
  fileRecords : List Nat
  indexTip : Nat
deriving DecidableEq

/-- Modelled from the spec: a freshly created store. -/
def emptyStore : HeaderFileState := ⟨[], 0⟩

/-- Modelled from the spec: `write_headers` appends the records and
advances the index tip in one batch. -/
def writeHeaders (s : HeaderFileState) (hs : List Nat) : HeaderFileState :=
  ⟨s.fileRecords ++ hs, s.indexTip + hs.length⟩

/-- Modelled from the spec: the `truncate_index` test hook — roll the
index back one block, leaving the file alone. -/
def truncateIndex (s : HeaderFileState) : HeaderFileState :=
  ⟨s.fileRecords, s.indexTip - 1⟩

/-- Modelled from the spec's recovery protocol: at open time compare
`file_len / stride` against the index's tip; truncate the file back to
the index if the file is longer, fail if the index is longer. -/
def openRecover (s : HeaderFileState) : Except String HeaderFileState :=
  if s.indexTip < s.fileRecords.length then
    .ok ⟨s.fileRecords.take s.indexTip, s.indexTip⟩
  else if s.fileRecords.length < s.indexTip then
    .error "index newer than file"
  else .ok s

/-- Modelled from the spec: `chain_tip()`'s height (the index's tip). -/
def chainTipHeight (s : HeaderFileState) : Nat := s.indexTip

/-- The file length in bytes. -/
def fileLen (s : HeaderFileState) : Nat := s.fileRecords.length * stride

/-- The records for heights `startHeight..stopHeight` (a bulk read). -/
def readRange (s : HeaderFileState) (startHeight stopHeight : Nat) :
    List Nat :=
  (s.fileRecords.drop (startHeight - 1)).take (stopHeight + 1 - startHeight)

/-- Modelled from the spec's `fetch_ancestor_range`, with the record
count pinned by `TestBlockHeadersFetchHeaderAncestors`: the test writes
100 headers, calls the fetch at the tip with `count = 99`, and demands
`start_height = 1` (not 2) and 100 records (not 99), record `i` being the
header at height `i + 1`.  So the scan starts at
`stop_height − count` and the stop record is included: `count + 1`
records come back. -/
def fetchAncestorRange (s : HeaderFileState) (stopHeight count : Nat) :
    List Nat × Nat :=
  (readRange s (stopHeight - count) stopHeight, stopHeight - count)

/-- The spec's claimed start height: `stop_height − count + 1`, minimum
1. -/
def specAncestorStart (stopHeight count : Nat) : Nat :=
  max (stopHeight + 1 - count) 1

/-- The spec's claimed record count. -/
def specAncestorCount (count : Nat) : Nat := count

/-- The chain of `TestBlockHeadersFetchHeaderAncestors`: 100 records at
heights 1..100. -/
def c5store : HeaderFileState := ⟨(List.range 100).map (· + 1), 100⟩

end Headerfs

namespace Votingpool

/-! ## Voting-pool key validation (`pkg/votingpool`)

`validateAndDecryptKeys` is not part of the repository's files; only its
white-box test is (`pool_wb_test.go`).  The function is modelled from the
spec's §4.E validation rules, parameterized by the decryptor and the
neuter (public-companion) function, and instrumented with the number of
decryptor invocations so the before-touching-the-decryptor property can
be stated. -/

/-- The error codes of the spec's taxonomy used by the validation. -/
inductive VPError where
  | privatePublicMismatch
  | crypto
  | keyMismatch
deriving DecidableEq

/-- Modelled from the spec: decrypt each public key; a failure is a
`Crypto` error.  Also counts the decryptor invocations. -/
def decryptAll (decrypt : Bytes → Option Bytes) :
    List Bytes → Except VPError (List Bytes) × Nat
  | [] => (.ok [], 0)
  | k :: rest =>
    match decrypt k with
    | none => (.error .crypto, 1)
    | some d =>
      match decryptAll decrypt rest with
      | (.ok ds, n) => (.ok (d :: ds), n + 1)
      | (.error e, n) => (.error e, n + 1)

/-- Modelled from the spec: decrypt each private key; an empty entry
(`enc_priv_len = 0`) means no private key and is not decrypted. -/
def decryptPrivs (decrypt : Bytes → Option Bytes) :
    List Bytes → Except VPError (List (Option Bytes)) × Nat
  | [] => (.ok [], 0)
  | k :: rest =>
    if k = [] then
      match decryptPrivs decrypt rest with
      | (.ok ds, n) => (.ok (none :: ds), n)
      | (.error e, n) => (.error e, n)
    else
      match decrypt k with
      | none => (.error .crypto, 1)
      | some d =>
        match decryptPrivs decrypt rest with
        | (.ok ds, n) => (.ok (some d :: ds), n + 1)
        | (.error e, n) => (.error e, n + 1)

/-- Modelled from the spec: every non-null private key's public
companion must equal the decrypted public key. -/
def checkPairs (neuter : Bytes → Bytes) :
    List Bytes → List (Option Bytes) → Except VPError Unit
  | [], _ => .ok ()
  | _, [] => .ok ()
  | p :: ps, v :: vs =>
    match v with
    | none => checkPairs neuter ps vs
    | some pk =>
      if neuter pk = p then checkPairs neuter ps vs
      else .error .keyMismatch

/-- Modelled from the spec: `validate_and_decrypt(enc_pubs, enc_privs)`
— the length check first, then decryption, then the companion check.
The second component counts how often the decryptor ran. -/
def validateAndDecryptKeys (decrypt : Bytes → Option Bytes)
    (neuter : Bytes → Bytes) (encPubs encPrivs : List Bytes) :
    Except VPError (List Bytes × List (Option Bytes)) × Nat :=
  if encPubs.length ≠ encPrivs.length then
    (.error .privatePublicMismatch, 0)
  else
    match decryptAll decrypt encPubs with
    | (.error e, n) => (.error e, n)
    | (.ok pubs, n1) =>
      match decryptPrivs decrypt encPrivs with
      | (.error e, n2) => (.error e, n1 + n2)
      | (.ok privs, n2) =>
        match checkPairs neuter pubs privs with
        | .error e => (.error e, n1 + n2)
        | .ok () => (.ok (pubs, privs), n1 + n2)

end Votingpool

namespace Headerfs

/-- C5 (counterexample): on the exact scenario of
`TestBlockHeadersFetchHeaderAncestors` — 100 stored records, the fetch
called at the tip (`stop_height = 100`) with `count = 99` — the store
hands back 100 records starting at height 1 (what the test asserts),
not the `count = 99` records starting at
`stop_height − count + 1 = 2` the spec's sentence promises. -/
theorem c5_fetch_ancestor_range_counterexample :
    (fetchAncestorRange c5store 100 99).1.length = 100 ∧
    (fetchAncestorRange c5store 100 99).2 = 1 ∧
    (fetchAncestorRange c5store 100 99).1.length ≠ specAncestorCount 99 ∧
    (fetchAncestorRange c5store 100 99).2 ≠ specAncestorStart 100 99 := by
  refine ⟨?_, by decide, by decide, by decide⟩
  decide

/-- C5 (amended): for a stored chain holding the records for heights
`1..len` and `count < stop_height ≤ len`, `fetch_ancestor_range`
returns `count + 1` records — the headers at heights
`stop_height − count` through `stop_height`, in order, ending at
`stop_height` — and the returned start height is `stop_height − count`
(at least 1, so the implicit genesis is never returned). -/
theorem c5_fetch_ancestor_range (s : HeaderFileState)
    (stopHeight count : Nat) (h1 : count < stopHeight)
    (h2 : stopHeight ≤ s.fileRecords.length) :
    (fetchAncestorRange s stopHeight count).1.length = count + 1 ∧
    (fetchAncestorRange s stopHeight count).2 = stopHeight - count ∧
    1 ≤ (fetchAncestorRange s stopHeight count).2 ∧
    (∀ i, i ≤ count → (fetchAncestorRange s stopHeight count).1.get? i =
      s.fileRecords.get? (stopHeight - count - 1 + i)) ∧
    (fetchAncestorRange s stopHeight count).1.get? count =
      s.fileRecords.get? (stopHeight - 1) := by
  have hstart : stopHeight - count - 1 + (count + 1) = stopHeight := by
    omega
  have hlen : (fetchAncestorRange s stopHeight count).1.length =
      count + 1 := by
    rw [fetchAncestorRange, readRange]
    dsimp only
    rw [List.length_take, List.length_drop]
    omega
  have hget : ∀ i, i ≤ count →
      (fetchAncestorRange s stopHeight count).1.get? i =
        s.fileRecords.get? (stopHeight - count - 1 + i) := by
    intro i hi
    rw [fetchAncestorRange, readRange]
    dsimp only
    rw [List.get?_eq_getElem?, List.getElem?_take_of_lt (by omega),
      List.getElem?_drop, List.get?_eq_getElem?]
  refine ⟨hlen, rfl, by dsimp only [fetchAncestorRange]; omega, hget, ?_⟩
  rw [hget count le_rfl]
  congr 1
  omega

/-- C5 witness: the test's scenario satisfies the amended property. -/
theorem c5_fetch_ancestor_range_witness :
    99 < 100 ∧ 100 ≤ c5store.fileRecords.length ∧
      ((fetchAncestorRange c5store 100 99).1.length = 99 + 1 ∧
       (fetchAncestorRange c5store 100 99).2 = 100 - 99 ∧
       1 ≤ (fetchAncestorRange c5store 100 99).2 ∧
       (∀ i, i ≤ 99 → (fetchAncestorRange c5store 100 99).1.get? i =
         c5store.fileRecords.get? (100 - 99 - 1 + i)) ∧
       (fetchAncestorRange c5store 100 99).1.get? 99 =
         c5store.fileRecords.get? (100 - 1)) :=
  ⟨by decide, by decide,
    c5_fetch_ancestor_range c5store 100 99 (by decide) (by decide)⟩

/-- C6: at open time, a file holding more records than the index's tip
is truncated back to the index's tip (the general recovery rule); and on
the scenario of `TestBlockHeaderStoreRecovery` — 10 headers written, the
index rolled back 5 times — reopening yields a chain tip of height 5 and
a file of `5 × stride` bytes. -/
theorem c6_open_recovery :
    (∀ s : HeaderFileState, s.indexTip ≤ s.fileRecords.length →
      ∃ s2, openRecover s = .ok s2 ∧ s2.indexTip = s.indexTip ∧
        s2.fileRecords.length = s.indexTip ∧
        s2.fileRecords = s.fileRecords.take s.indexTip) ∧
    (∃ s2, openRecover (truncateIndex (truncateIndex (truncateIndex
        (truncateIndex (truncateIndex
          (writeHeaders emptyStore (List.range 10))))))) = .ok s2 ∧
      chainTipHeight s2 = 5 ∧ fileLen s2 = 5 * stride) := by
  constructor
  · intro s hle
    by_cases hlt : s.indexTip < s.fileRecords.length
    · refine ⟨⟨s.fileRecords.take s.indexTip, s.indexTip⟩,
        by rw [openRecover, if_pos hlt], rfl, ?_, rfl⟩
      dsimp only
      rw [List.length_take]
      omega
    · have heq : s.indexTip = s.fileRecords.length := by omega
      refine ⟨s, ?_, rfl, heq.symm, by rw [heq, List.take_length]⟩
      rw [openRecover, if_neg hlt, if_neg (by omega)]
  · exact ⟨⟨(List.range 10).take 5, 5⟩, rfl, by decide, by decide⟩

end Headerfs

namespace Votingpool

/-- C9: with `len(enc_pubs) ≠ len(enc_privs)`, `validate_and_decrypt`
fails with the `PrivatePublicMismatch` error code having invoked the
decryptor zero times, whatever the decryptor, the neuter function and
the key material. -/
theorem c9_validateAndDecryptKeys (decrypt : Bytes → Option Bytes)
    (neuter : Bytes → Bytes) (encPubs encPrivs : List Bytes)
    (h : encPubs.length ≠ encPrivs.length) :
    validateAndDecryptKeys decrypt neuter encPubs encPrivs =
      (.error .privatePublicMismatch, 0) := by
  rw [validateAndDecryptKeys, if_pos h]

/-- C9 witness: one public key and no private keys (the first case of
`TestValidateAndDecryptKeysErrors`), under a decryptor that would
succeed everywhere. -/
theorem c9_validateAndDecryptKeys_witness :
    ([[1]] : List Bytes).length ≠ ([] : List Bytes).length ∧
      validateAndDecryptKeys (fun b => some b) (fun b => b) [[1]] [] =
        (.error .privatePublicMismatch, 0) :=
  ⟨by decide,
    c9_validateAndDecryptKeys (fun b => some b) (fun b => b) [[1]] []
      (by decide)⟩

end Votingpool

end Spec2Proof
